import Mathlib

/-!
# uniline: a shallow embedding of the line editor

The Go sources are embedded with the Go slice model made explicit: a slice is a
window (array, offset, length, capacity) into a backing array held in a store,
`append` writes in place while the capacity allows and reallocates otherwise,
and a slice expression shares its backing array with the slice it is taken from.
Two texts of the editor (the buffer and the clipboard) can therefore share one
backing array, exactly as they do in the program.

External collaborators are parameters, gathered in `Env`: the display-width
oracle `wcwidth`, the capacity the Go runtime picks when `append` has to
reallocate, and `unicode.IsPrint` above Latin-1.
-/

namespace Uniline

/-! ## Oracles -/

/-- The external functions the program calls. `wcwidth` is
`wcwidth.WcwidthUcs`; `growChars` and `growBytes` give the capacity chosen by
the runtime when an `append` on a `[]Char` (resp. `[]byte`) must reallocate, as a
function of the old capacity and the needed length; `isPrintWide` is
`unicode.IsPrint` on code points above U+00FF. -/
structure Env where
  wcwidth : Nat → Int
  growChars : Nat → Nat → Nat
  growBytes : Nat → Nat → Nat
  isPrintWide : Nat → Bool

/-! ## UTF-8 (Go strings are byte sequences) -/

/-- The conversion `string(r)` of a rune: its UTF-8 encoding, and the encoding of
U+FFFD for a surrogate or a value above U+10FFFF. -/
def encodeRune (r : Nat) : List Nat :=
  if r < 0x80 then [r]
  else if r < 0x800 then [0xC0 + r / 64, 0x80 + r % 64]
  else if (0xD800 ≤ r ∧ r ≤ 0xDFFF) ∨ 0x10FFFF < r then [0xEF, 0xBF, 0xBD]
  else if r < 0x10000 then [0xE0 + r / 4096, 0x80 + r / 64 % 64, 0x80 + r % 64]
  else [0xF0 + r / 262144, 0x80 + r / 4096 % 64, 0x80 + r / 64 % 64, 0x80 + r % 64]

/-- For a leading byte of a multi-byte sequence: the sequence length and the
range accepted for the second byte (the `first` and `acceptRanges` tables of
package `unicode/utf8`); `none` for a byte that cannot lead. -/
def leadInfo (b0 : Nat) : Option (Nat × Nat × Nat) :=
  if 0xC2 ≤ b0 ∧ b0 ≤ 0xDF then some (2, 0x80, 0xBF)
  else if b0 = 0xE0 then some (3, 0xA0, 0xBF)
  else if 0xE1 ≤ b0 ∧ b0 ≤ 0xEC then some (3, 0x80, 0xBF)
  else if b0 = 0xED then some (3, 0x80, 0x9F)
  else if 0xEE ≤ b0 ∧ b0 ≤ 0xEF then some (3, 0x80, 0xBF)
  else if b0 = 0xF0 then some (4, 0x90, 0xBF)
  else if 0xF1 ≤ b0 ∧ b0 ≤ 0xF3 then some (4, 0x80, 0xBF)
  else if b0 = 0xF4 then some (4, 0x80, 0x8F)
  else none

/-- Whether `b` is a continuation byte, 0x80..0xBF. -/
def isCont (b : Nat) : Bool := decide (0x80 ≤ b ∧ b ≤ 0xBF)

/-- One step of the `range` loop over a string: the rune decoded at the head of
`s` and the number of bytes it takes. An invalid or truncated sequence gives
U+FFFD and width 1. -/
def decodeRune (s : List Nat) : Nat × Nat :=
  match s with
  | [] => (0xFFFD, 0)
  | b0 :: rest =>
    if b0 < 0x80 then (b0, 1)
    else match leadInfo b0 with
      | none => (0xFFFD, 1)
      | some (sz, lo, hi) =>
        match rest with
        | [] => (0xFFFD, 1)
        | b1 :: rest1 =>
          if b1 < lo ∨ hi < b1 then (0xFFFD, 1)
          else if sz ≤ 2 then (b0 % 32 * 64 + b1 % 64, 2)
          else match rest1 with
            | [] => (0xFFFD, 1)
            | b2 :: rest2 =>
              if !isCont b2 then (0xFFFD, 1)
              else if sz ≤ 3 then (b0 % 16 * 4096 + b1 % 64 * 64 + b2 % 64, 3)
              else match rest2 with
                | [] => (0xFFFD, 1)
                | b3 :: _ =>
                  if !isCont b3 then (0xFFFD, 1)
                  else (b0 % 8 * 262144 + b1 % 64 * 4096 + b2 % 64 * 64 + b3 % 64, 4)

/-- The runes a `range` loop over `s` yields, with `fuel` bounding the number of
iterations. -/
def decodeAux : Nat → List Nat → List Nat
  | 0, _ => []
  | fuel + 1, s =>
    match s with
    | [] => []
    | _ :: _ => (decodeRune s).1 :: decodeAux fuel (s.drop (decodeRune s).2)

/-- The runes of `for _, r := range s`; every iteration consumes at least one
byte, so `s.length` iterations are enough. -/
def decodeRunes (s : List Nat) : List Nat := decodeAux s.length s

/-! ## Slices and backing arrays -/

/-- A Go slice header: backing array, offset of the first element in it, length,
and capacity (counted from the offset). -/
structure Slice where
  arr : Nat
  off : Nat
  len : Nat
  cap : Nat
deriving DecidableEq, Repr

/-- The nil slice. -/
def Slice.nil : Slice := ⟨0, 0, 0, 0⟩

/-- The expression `s[lo:]`; `none` is the runtime panic on a bad bound. -/
def Slice.sliceFrom (s : Slice) (lo : Int) : Option Slice :=
  if 0 ≤ lo ∧ lo ≤ s.len then
    some ⟨s.arr, s.off + lo.toNat, s.len - lo.toNat, s.cap - lo.toNat⟩
  else none

/-- The expression `s[:hi]`: the bound is checked against the capacity. -/
def Slice.sliceTo (s : Slice) (hi : Int) : Option Slice :=
  if 0 ≤ hi ∧ hi ≤ s.cap then some ⟨s.arr, s.off, hi.toNat, s.cap⟩ else none

/-- The expression `s[lo:hi]`. -/
def Slice.sliceRange (s : Slice) (lo hi : Int) : Option Slice :=
  if 0 ≤ lo ∧ lo ≤ hi ∧ hi ≤ s.cap then
    some ⟨s.arr, s.off + lo.toNat, hi.toNat - lo.toNat, s.cap - lo.toNat⟩
  else none

/-- The backing arrays of one element type, addressed by position. -/
structure Store (α : Type) where
  arrays : List (List α)
deriving DecidableEq, Repr

/-- The backing array with identifier `a`. -/
def Store.array {α : Type} (m : Store α) (a : Nat) : List α := m.arrays.getD a []

/-- The elements a slice shows. -/
def Store.read {α : Type} (m : Store α) (s : Slice) : List α :=
  ((m.array s.arr).drop s.off).take s.len

/-- The expression `s[i]`; `none` is the index-out-of-range panic. -/
def Store.index {α : Type} (m : Store α) (s : Slice) (i : Int) : Option α :=
  if 0 ≤ i ∧ i < s.len then (m.read s)[i.toNat]? else none

/-- A fresh backing array holding `xs`, and the slice over all of it. -/
def Store.alloc {α : Type} (m : Store α) (xs : List α) : Store α × Slice :=
  (⟨m.arrays ++ [xs]⟩, ⟨m.arrays.length, 0, xs.length, xs.length⟩)

/-- The call `make([]T, len, cap)`. -/
def Store.make {α : Type} [Inhabited α] (m : Store α) (len cap : Nat) : Store α × Slice :=
  (⟨m.arrays ++ [List.replicate cap default]⟩, ⟨m.arrays.length, 0, len, cap⟩)

/-- Overwrite the elements of `a` from position `k` on with `xs`. -/
def overwrite {α : Type} (a : List α) (k : Nat) (xs : List α) : List α :=
  a.take k ++ xs ++ a.drop (k + xs.length)

/-- The call `append(s, xs...)`, `xs` being the elements read before the call
writes anything (the runtime copies with memmove). Within the capacity the
elements are written into the backing array after the slice's last element;
otherwise a fresh array receives the old elements and `xs`, with the capacity
the runtime picks (never less than the length needed). -/
def Store.append {α : Type} [Inhabited α] (grow : Nat → Nat → Nat) (m : Store α)
    (s : Slice) (xs : List α) : Store α × Slice :=
  if s.len + xs.length ≤ s.cap then
    (⟨m.arrays.set s.arr (overwrite (m.array s.arr) (s.off + s.len) xs)⟩,
      { s with len := s.len + xs.length })
  else
    (⟨m.arrays ++ [m.read s ++ xs ++
        List.replicate (max (s.len + xs.length) (grow s.cap (s.len + xs.length))
          - (s.len + xs.length)) default]⟩,
      ⟨m.arrays.length, 0, s.len + xs.length,
        max (s.len + xs.length) (grow s.cap (s.len + xs.length))⟩)

/-- The assignment `s[i] = x` into the backing array. -/
def Store.assign {α : Type} (m : Store α) (s : Slice) (i : Int) (x : α) : Option (Store α) :=
  if 0 ≤ i ∧ i < s.len then
    some ⟨m.arrays.set s.arr ((m.array s.arr).set (s.off + i.toNat) x)⟩
  else none

/-- The builtin `copy(dst, src)` on a local array: the first
`min (len dst) (len src)` elements of `dst` are replaced. -/
def goCopy {α : Type} (dst src : List α) : List α :=
  src.take dst.length ++ dst.drop src.length

/-- The call `copy(dst[k:], src)` on a local array `dst`. -/
def copyAt {α : Type} (dst : List α) (k : Int) (src : List α) : Option (List α) :=
  if 0 ≤ k ∧ k ≤ dst.length then
    some (dst.take k.toNat ++ goCopy (dst.drop k.toNat) src)
  else none

/-- The assignment `dst[k] = x` on a local array. -/
def setAt {α : Type} (dst : List α) (k : Int) (x : α) : Option (List α) :=
  if 0 ≤ k ∧ k < dst.length then some (dst.set k.toNat x) else none

/-! ## utils: Char, Text, Position -/

/-- A character of the terminal screen: its bytes, its rune, its width in
columns. The byte slice `P` is never written to after its creation, so it is
kept as a value. -/
structure Char where
  P : List Nat
  R : Nat
  ColLen : Int
deriving DecidableEq, Repr

instance : Inhabited Char := ⟨⟨[], 0, 0⟩⟩

/-- The constructor `CharFromRune`. -/
def CharFromRune (E : Env) (r : Nat) : Char := ⟨encodeRune r, r, E.wcwidth r⟩

/-- The method `Char.Clone`. -/
def Char.Clone (c : Char) : Char :=
  { c with P := goCopy (List.replicate c.P.length 0) c.P }

/-- A sequence of characters: two slices and the column width. -/
structure Text where
  Chars : Slice
  Bytes : Slice
  ColLen : Int
deriving DecidableEq, Repr

/-- The zero value `Text{}`. -/
def Text.zero : Text := ⟨Slice.nil, Slice.nil, 0⟩

/-- The cursor: byte offset, rune index, column offset (fields in the order of
the Go declaration). -/
structure Position where
  Bytes : Int
  Runes : Int
  Columns : Int
deriving DecidableEq, Repr

/-- The zero value `Position{}`. -/
def Position.zero : Position := ⟨0, 0, 0⟩

/-- The method `Position.Add`. -/
def Position.Add (pos : Position) (chars : List Char) : Position :=
  chars.foldl (fun p c => ⟨p.Bytes + c.P.length, p.Runes + 1, p.Columns + c.ColLen⟩) pos

/-- The method `Position.Subtract`. -/
def Position.Subtract (pos : Position) (chars : List Char) : Position :=
  chars.foldl (fun p c => ⟨p.Bytes - c.P.length, p.Runes - 1, p.Columns - c.ColLen⟩) pos

/-- The memory of the program: the backing arrays of `[]Char` and of `[]byte`. -/
structure Heap where
  chars : Store Char
  bytes : Store Nat
deriving DecidableEq, Repr

/-- The empty memory. -/
def Heap.empty : Heap := ⟨⟨[]⟩, ⟨[]⟩⟩

/-- One iteration of the loop of `TextFromString`. -/
def TextFromString.step (E : Env) (acc : Heap × Text) (r : Nat) : Heap × Text :=
  (⟨(acc.1.chars.append E.growChars acc.2.Chars [CharFromRune E r]).1,
    (acc.1.bytes.append E.growBytes acc.2.Bytes (CharFromRune E r).P).1⟩,
   ⟨(acc.1.chars.append E.growChars acc.2.Chars [CharFromRune E r]).2,
    (acc.1.bytes.append E.growBytes acc.2.Bytes (CharFromRune E r).P).2,
    acc.2.ColLen + (CharFromRune E r).ColLen⟩)

/-- The function `TextFromString`. -/
def TextFromString (E : Env) (h : Heap) (s : List Nat) : Heap × Text :=
  (decodeRunes s).foldl (TextFromString.step E)
    (⟨(h.chars.make 0 s.length).1, (h.bytes.make 0 s.length).1⟩,
     ⟨(h.chars.make 0 s.length).2, (h.bytes.make 0 s.length).2, 0⟩)

/-- The method `Text.AppendChar`. -/
def Text.AppendChar (E : Env) (h : Heap) (t : Text) (c : Char) : Heap × Text :=
  (⟨(h.chars.append E.growChars t.Chars [c]).1, (h.bytes.append E.growBytes t.Bytes c.P).1⟩,
   ⟨(h.chars.append E.growChars t.Chars [c]).2, (h.bytes.append E.growBytes t.Bytes c.P).2,
    t.ColLen + c.ColLen⟩)

/-- The method `Text.AppendText`. -/
def Text.AppendText (E : Env) (h : Heap) (t n : Text) : Heap × Text :=
  (⟨(h.chars.append E.growChars t.Chars (h.chars.read n.Chars)).1,
    (h.bytes.append E.growBytes t.Bytes (h.bytes.read n.Bytes)).1⟩,
   ⟨(h.chars.append E.growChars t.Chars (h.chars.read n.Chars)).2,
    (h.bytes.append E.growBytes t.Bytes (h.bytes.read n.Bytes)).2,
    t.ColLen + n.ColLen⟩)

/-- The method `Text.InsertCharAt`: two fresh arrays are filled by `copy`. -/
def Text.InsertCharAt (h : Heap) (t : Text) (pos : Position) (c : Char) :
    Option (Heap × Text) := do
  let chars0 : List Char := List.replicate (t.Chars.len + 1) default
  let pre ← t.Chars.sliceTo pos.Runes
  let chars1 := goCopy chars0 (h.chars.read pre)
  let chars2 ← setAt chars1 pos.Runes c
  let post ← t.Chars.sliceFrom pos.Runes
  let chars3 ← copyAt chars2 (pos.Runes + 1) (h.chars.read post)
  let bytes0 : List Nat := List.replicate (t.Bytes.len + c.P.length) 0
  let bpre ← t.Bytes.sliceTo pos.Bytes
  let bytes1 := goCopy bytes0 (h.bytes.read bpre)
  let bytes2 ← copyAt bytes1 pos.Bytes c.P
  let bpost ← t.Bytes.sliceFrom pos.Bytes
  let bytes3 ← copyAt bytes2 (pos.Bytes + c.P.length) (h.bytes.read bpost)
  some (⟨(h.chars.alloc chars3).1, (h.bytes.alloc bytes3).1⟩,
        ⟨(h.chars.alloc chars3).2, (h.bytes.alloc bytes3).2, t.ColLen + c.ColLen⟩)

/-- The method `Text.InsertTextAt`. -/
def Text.InsertTextAt (h : Heap) (t : Text) (pos : Position) (n : Text) :
    Option (Heap × Text) := do
  let chars0 : List Char := List.replicate (t.Chars.len + n.Chars.len) default
  let pre ← t.Chars.sliceTo pos.Runes
  let chars1 := goCopy chars0 (h.chars.read pre)
  let chars2 ← copyAt chars1 pos.Runes (h.chars.read n.Chars)
  let post ← t.Chars.sliceFrom pos.Runes
  let chars3 ← copyAt chars2 (pos.Runes + n.Chars.len) (h.chars.read post)
  let bytes0 : List Nat := List.replicate (t.Bytes.len + n.Bytes.len) 0
  let bpre ← t.Bytes.sliceTo pos.Bytes
  let bytes1 := goCopy bytes0 (h.bytes.read bpre)
  let bpost ← t.Bytes.sliceFrom pos.Bytes
  let bytes2 ← copyAt bytes1 (pos.Bytes + n.Bytes.len) (h.bytes.read bpost)
  let bytes3 ← copyAt bytes2 pos.Bytes (h.bytes.read n.Bytes)
  some (⟨(h.chars.alloc chars3).1, (h.bytes.alloc bytes3).1⟩,
        ⟨(h.chars.alloc chars3).2, (h.bytes.alloc bytes3).2, t.ColLen + n.ColLen⟩)

/-- The method `Text.RemoveCharAt`: both appends write into the receiver's own
backing arrays. -/
def Text.RemoveCharAt (E : Env) (h : Heap) (t : Text) (pos : Position) :
    Option (Heap × Text) := do
  let c ← h.chars.index t.Chars pos.Runes
  let b1 ← t.Bytes.sliceTo pos.Bytes
  let b2 ← t.Bytes.sliceFrom (pos.Bytes + c.P.length)
  let bs := h.bytes.append E.growBytes b1 (h.bytes.read b2)
  let c1 ← t.Chars.sliceTo pos.Runes
  let c2 ← t.Chars.sliceFrom (pos.Runes + 1)
  let cs := h.chars.append E.growChars c1 (h.chars.read c2)
  some (⟨cs.1, bs.1⟩, ⟨cs.2, bs.2, t.ColLen - c.ColLen⟩)

/-- The variadic method `Text.Slice`; `none` is a panic (a bad bound, or a number
of arguments other than one or two). -/
def Text.Slice (t : Text) (segment : List Position) : Option Text :=
  match segment with
  | [a] => do
    let chars ← t.Chars.sliceFrom a.Runes
    let bytes ← t.Bytes.sliceFrom a.Bytes
    some ⟨chars, bytes, t.ColLen - a.Columns⟩
  | [a, b] => do
    let chars ← t.Chars.sliceRange a.Runes b.Runes
    let bytes ← t.Bytes.sliceRange a.Bytes b.Bytes
    some ⟨chars, bytes, b.Columns - a.Columns⟩
  | _ => none

/-- The method `Text.Clone`. -/
def Text.Clone (h : Heap) (t : Text) : Heap × Text :=
  (⟨(h.chars.alloc ((h.chars.read t.Chars).map Char.Clone)).1,
    (h.bytes.alloc (goCopy (List.replicate t.Bytes.len 0) (h.bytes.read t.Bytes))).1⟩,
   ⟨(h.chars.alloc ((h.chars.read t.Chars).map Char.Clone)).2,
    (h.bytes.alloc (goCopy (List.replicate t.Bytes.len 0) (h.bytes.read t.Bytes))).2,
    t.ColLen⟩)

/-- The method `Text.String`. -/
def Text.String (h : Heap) (t : Text) : List Nat := h.bytes.read t.Bytes

/-! ## Standard library predicates -/

/-- The function `unicode.IsSpace`: the Latin-1 space characters and the code
points of the White_Space property. -/
def IsSpace (r : Nat) : Bool :=
  if r ≤ 0xFF then
    decide (r = 0x09 ∨ r = 0x0A ∨ r = 0x0B ∨ r = 0x0C ∨ r = 0x0D ∨ r = 0x20 ∨ r = 0x85 ∨ r = 0xA0)
  else
    decide (r = 0x1680 ∨ (0x2000 ≤ r ∧ r ≤ 0x200A) ∨ r = 0x2028 ∨ r = 0x2029 ∨ r = 0x202F
      ∨ r = 0x205F ∨ r = 0x3000)

/-- The function `unicode.IsPrint`: decided by the Latin-1 property table up to
U+00FF, by the oracle above. -/
def IsPrint (E : Env) (r : Nat) : Bool :=
  if r ≤ 0xFF then decide ((0x20 ≤ r ∧ r ≤ 0x7E) ∨ (0xA1 ≤ r ∧ r ≠ 0xAD))
  else E.isPrintWide r

/-! ## internals: the editor state and its actions -/

/-- What the program writes to its output, one item per write.
Modelled from the spec: the escape sequences of package `ansi` (absent from the
sources) are kept symbolic: `bell` is `ansi.Bell`, `clearScreen` is
`ansi.ClearScreen`, and `redraw prompt visible n` is the single write of
`Refresh`: cursor to the left edge, the prompt bytes, the visible bytes, erase
to the right, move the cursor forward by `n`. -/
inductive Emit where
  | raw (p : List Nat)
  | bell
  | clearScreen
  | redraw (prompt visible : List Nat) (forward : Int)
deriving DecidableEq, Repr

/-- The value a panic carries out of an action: a runtime error (index or slice
bound out of range), `os.Interrupt`, the nil error of a clean end of input, a
panic with a non-error value, and the exhaustion of a loop's iteration bound. -/
inductive Signal where
  | runtimeError
  | interrupt
  | eof
  | fatal
  | nontermination
deriving DecidableEq, Repr

/-- The result of a loop: it ended, it panicked, or it used up its iteration
bound; the loop state at that point is kept. -/
inductive Run (α : Type) where
  | done (a : α)
  | crash (a : α)
  | timeout (a : α)
deriving DecidableEq, Repr

/-- The clipboard. -/
structure Clipboard where
  Text : Text
  Partial : Bool
deriving DecidableEq, Repr

/-- The history: committed lines, working lines, browse index. The two lists
never share a backing array and strings are immutable, so they are kept as
values. -/
structure History where
  Saved : List (List Nat)
  Tmp : List (List Nat)
  Index : Int
deriving DecidableEq, Repr

/-- The editor state `Internals`, with the memory its slices point into and the
output written so far. -/
structure Internals where
  Mem : Heap
  Output : List Emit
  H : History
  Prompt : Text
  Cb : Clipboard
  Pos : Position
  Cols : Int
  Buf : Text
  Stop : Bool
deriving DecidableEq, Repr

/-- An action's result: the state it leaves and the panic it raised, if any. -/
abbrev Outcome := Internals × Option Signal

/-- One write to the output, taken to succeed. -/
def Internals.write (i : Internals) (e : Emit) : Internals :=
  { i with Output := i.Output ++ [e] }

/-- The element `l[k]` of a list of strings. -/
def listAt {α : Type} (l : List α) (k : Int) : Option α :=
  if 0 ≤ k ∧ k < l.length then l[k.toNat]? else none

/-- The first loop of `Refresh`: trims characters on the left while the cursor
column does not fit. The loop state is `(pos, pos2, x)`. -/
def Refresh.trimLeft (m : Store Char) (chars : Slice) (promptCols cols : Int) :
    Nat → Position × Position × Int → Run (Position × Position × Int)
  | fuel, s =>
    if promptCols + s.1.Columns ≥ cols then
      match fuel with
      | 0 => .timeout s
      | fuel + 1 =>
        match m.index chars s.2.1.Runes with
        | none => .crash s
        | some c =>
          Refresh.trimLeft m chars promptCols cols fuel
            (s.1.Subtract [c], s.2.1.Add [c], s.2.2 - c.ColLen)
    else .done s

/-- The second loop of `Refresh`: advances `pos3` to the end of the buffer by
columns. -/
def Refresh.toEnd (m : Store Char) (chars : Slice) (colLen : Int) :
    Nat → Position → Run Position
  | fuel, pos3 =>
    if pos3.Columns < colLen then
      match fuel with
      | 0 => .timeout pos3
      | fuel + 1 =>
        match m.index chars pos3.Runes with
        | none => .crash pos3
        | some c => Refresh.toEnd m chars colLen fuel (pos3.Add [c])
    else .done pos3

/-- The third loop of `Refresh`: trims characters on the right while the
trailing edge does not fit. The loop state is `(pos3, x)`. -/
def Refresh.trimRight (m : Store Char) (chars : Slice) (promptCols cols : Int) :
    Nat → Position × Int → Run (Position × Int)
  | fuel, s =>
    if promptCols + s.2 ≥ cols then
      match fuel with
      | 0 => .timeout s
      | fuel + 1 =>
        match m.index chars (s.1.Runes - 1) with
        | none => .crash s
        | some c => Refresh.trimRight m chars promptCols cols fuel (s.1.Subtract [c], s.2 - c.ColLen)
    else .done s

/-- The method `Refresh`. Every iteration of a loop indexes one more character,
so `len(Chars) + 1` iterations per loop are enough to reach the end of the loop
or its panic. -/
def Internals.Refresh (i : Internals) : Outcome :=
  match Refresh.trimLeft i.Mem.chars i.Buf.Chars i.Prompt.ColLen i.Cols (i.Buf.Chars.len + 1)
      (i.Pos, Position.zero, i.Buf.ColLen) with
  | .timeout _ => (i, some .nontermination)
  | .crash _ => (i, some .runtimeError)
  | .done (pos, pos2, x) =>
    match Refresh.toEnd i.Mem.chars i.Buf.Chars i.Buf.ColLen (i.Buf.Chars.len + 1) pos2 with
    | .timeout _ => (i, some .nontermination)
    | .crash _ => (i, some .runtimeError)
    | .done pos3 =>
      match Refresh.trimRight i.Mem.chars i.Buf.Chars i.Prompt.ColLen i.Cols
          (i.Buf.Chars.len + 1) (pos3, x) with
      | .timeout _ => (i, some .nontermination)
      | .crash _ => (i, some .runtimeError)
      | .done (pos3, _) =>
        match i.Buf.Slice [pos2, pos3] with
        | none => (i, some .runtimeError)
        | some buf =>
          (i.write (.redraw (i.Mem.bytes.read i.Prompt.Bytes) (i.Mem.bytes.read buf.Bytes)
            (i.Prompt.ColLen + pos.Columns)), none)

/-- The method `Bell`. -/
def Internals.Bell (i : Internals) : Outcome := (i.write .bell, none)

/-- The method `Clear`. -/
def Internals.Clear (i : Internals) : Outcome := (i.write .clearScreen).Refresh

/-- The method `Insert`. -/
def Internals.Insert (E : Env) (i : Internals) (c : Char) : Outcome :=
  if i.Buf.ColLen = i.Pos.Columns then
    if i.Prompt.ColLen + (i.Buf.AppendChar E i.Mem c).2.ColLen < i.Cols then
      (({ i with Mem := (i.Buf.AppendChar E i.Mem c).1, Buf := (i.Buf.AppendChar E i.Mem c).2,
                 Pos := i.Pos.Add [c] }).write (.raw c.P), none)
    else
      ({ i with Mem := (i.Buf.AppendChar E i.Mem c).1, Buf := (i.Buf.AppendChar E i.Mem c).2,
                Pos := i.Pos.Add [c] }).Refresh
  else
    match i.Buf.InsertCharAt i.Mem i.Pos c with
    | none => (i, some .runtimeError)
    | some r => ({ i with Mem := r.1, Buf := r.2, Pos := i.Pos.Add [c] }).Refresh

/-- The method `Enter`: `Tmp[:len(Tmp)-1]` panics on an empty list; `copy`
overwrites the first `min` entries. -/
def Internals.Enter (i : Internals) : Outcome :=
  if i.H.Tmp.length = 0 then (i, some .runtimeError)
  else
    ({ i with H := { i.H with Tmp := goCopy (i.H.Tmp.take (i.H.Tmp.length - 1)) i.H.Saved },
              Stop := true }, none)

/-- The method `Interrupt`. -/
def Internals.Interrupt (i : Internals) : Outcome :=
  if i.H.Tmp.length = 0 then (i, some .runtimeError)
  else ({ i with H := { i.H with Tmp := i.H.Tmp.take (i.H.Tmp.length - 1) } }, some .interrupt)

/-- The method `Backspace`. -/
def Internals.Backspace (E : Env) (i : Internals) : Outcome :=
  if i.Pos.Runes > 0 ∧ i.Buf.Chars.len > 0 then
    match i.Mem.chars.index i.Buf.Chars (i.Pos.Runes - 1) with
    | none => (i, some .runtimeError)
    | some c =>
      match i.Buf.RemoveCharAt E i.Mem (i.Pos.Subtract [c]) with
      | none => (i, some .runtimeError)
      | some r => ({ i with Mem := r.1, Buf := r.2, Pos := i.Pos.Subtract [c] }).Refresh
  else i.Bell

/-- The method `Delete`. -/
def Internals.Delete (E : Env) (i : Internals) : Outcome :=
  if i.Buf.Chars.len > 0 ∧ i.Pos.Runes < i.Buf.Chars.len then
    match i.Buf.RemoveCharAt E i.Mem i.Pos with
    | none => (i, some .runtimeError)
    | some r => ({ i with Mem := r.1, Buf := r.2 }).Refresh
  else i.Bell

/-- The method `DeleteOrEOF`. -/
def Internals.DeleteOrEOF (E : Env) (i : Internals) : Outcome :=
  if i.Buf.Chars.len = 0 then (i, some .eof) else i.Delete E

/-- The method `MoveLeft`. -/
def Internals.MoveLeft (i : Internals) : Outcome :=
  if i.Pos.Runes > 0 then
    match i.Mem.chars.index i.Buf.Chars (i.Pos.Runes - 1) with
    | none => (i, some .runtimeError)
    | some c => ({ i with Pos := i.Pos.Subtract [c] }).Refresh
  else i.Bell

/-- The method `MoveRight`. -/
def Internals.MoveRight (i : Internals) : Outcome :=
  if i.Pos.Runes < i.Buf.Chars.len then
    match i.Mem.chars.index i.Buf.Chars i.Pos.Runes with
    | none => (i, some .runtimeError)
    | some c => ({ i with Pos := i.Pos.Add [c] }).Refresh
  else i.Bell

/-- The loop of `MoveWordLeft`; the first argument is `pos + 1` for the loop
variable `pos`, which runs down to 0. The loop state is the flag and the
cursor. -/
def MoveWordLeft.loop (m : Store Char) (chars : Slice) : Nat → Bool → Position → Run Position
  | 0, _, p => .done p
  | k + 1, seen, p =>
    match m.index chars (k : Int) with
    | none => .crash p
    | some c =>
      if IsSpace c.R then
        if seen then .done p else MoveWordLeft.loop m chars k seen (p.Subtract [c])
      else MoveWordLeft.loop m chars k true (p.Subtract [c])

/-- The method `MoveWordLeft`. -/
def Internals.MoveWordLeft (i : Internals) : Outcome :=
  if i.Pos.Runes > 0 then
    match MoveWordLeft.loop i.Mem.chars i.Buf.Chars i.Pos.Runes.toNat false i.Pos with
    | .done p => ({ i with Pos := p }).Refresh
    | .crash p => ({ i with Pos := p }, some .runtimeError)
    | .timeout p => ({ i with Pos := p }, some .nontermination)
  else (i, none)

/-- The loop of `MoveWordRight`; the first argument counts the iterations left,
`len(Chars) - pos` for the loop variable `pos`. -/
def MoveWordRight.loop (m : Store Char) (chars : Slice) :
    Nat → Int → Bool → Position → Run Position
  | 0, _, _, p => .done p
  | n + 1, pos, seen, p =>
    match m.index chars pos with
    | none => .crash p
    | some c =>
      if IsSpace c.R then
        if seen then .done p else MoveWordRight.loop m chars n (pos + 1) seen (p.Add [c])
      else MoveWordRight.loop m chars n (pos + 1) true (p.Add [c])

/-- The method `MoveWordRight`. -/
def Internals.MoveWordRight (i : Internals) : Outcome :=
  if i.Pos.Runes < i.Buf.Chars.len then
    match MoveWordRight.loop i.Mem.chars i.Buf.Chars ((i.Buf.Chars.len : Int) - i.Pos.Runes).toNat
        i.Pos.Runes false i.Pos with
    | .done p => ({ i with Pos := p }).Refresh
    | .crash p => ({ i with Pos := p }, some .runtimeError)
    | .timeout p => ({ i with Pos := p }, some .nontermination)
  else (i, none)

/-- The method `MoveBeginning`. -/
def Internals.MoveBeginning (i : Internals) : Outcome :=
  ({ i with Pos := Position.zero }).Refresh

/-- The method `MoveEnd`. The Go literal is positional,
`Position{len(Chars), len(Bytes), ColLen}`, and so is the constructor here. -/
def Internals.MoveEnd (i : Internals) : Outcome :=
  ({ i with Pos := ⟨i.Buf.Chars.len, i.Buf.Bytes.len, i.Buf.ColLen⟩ }).Refresh

/-- The method `HistoryBack`. -/
def Internals.HistoryBack (E : Env) (i : Internals) : Outcome :=
  if i.H.Index > 0 then
    match setAt i.H.Tmp i.H.Index (i.Buf.String i.Mem) with
    | none => (i, some .runtimeError)
    | some tmp =>
      match listAt tmp (i.H.Index - 1) with
      | none => ({ i with H := { i.H with Tmp := tmp, Index := i.H.Index - 1 } }, some .runtimeError)
      | some line =>
        ({ i with Mem := (TextFromString E i.Mem line).1,
                  H := { i.H with Tmp := tmp, Index := i.H.Index - 1 },
                  Buf := (TextFromString E i.Mem line).2,
                  Pos := ⟨(TextFromString E i.Mem line).2.Chars.len,
                          (TextFromString E i.Mem line).2.Bytes.len,
                          (TextFromString E i.Mem line).2.ColLen⟩ }).Refresh
  else i.Bell

/-- The method `HistoryForward`. -/
def Internals.HistoryForward (E : Env) (i : Internals) : Outcome :=
  if i.H.Index < (i.H.Tmp.length : Int) - 1 then
    match setAt i.H.Tmp i.H.Index (i.Buf.String i.Mem) with
    | none => (i, some .runtimeError)
    | some tmp =>
      match listAt tmp (i.H.Index + 1) with
      | none => ({ i with H := { i.H with Tmp := tmp, Index := i.H.Index + 1 } }, some .runtimeError)
      | some line =>
        ({ i with Mem := (TextFromString E i.Mem line).1,
                  H := { i.H with Tmp := tmp, Index := i.H.Index + 1 },
                  Buf := (TextFromString E i.Mem line).2,
                  Pos := ⟨(TextFromString E i.Mem line).2.Chars.len,
                          (TextFromString E i.Mem line).2.Bytes.len,
                          (TextFromString E i.Mem line).2.ColLen⟩ }).Refresh
  else i.Bell

/-- The method `CutLineLeft`. The cut text is a slice of the buffer's own
backing arrays (it is not cloned), and with the flag set the clipboard is
appended to that slice. -/
def Internals.CutLineLeft (E : Env) (i : Internals) : Outcome :=
  if i.Pos.Runes > 0 then
    match i.Buf.Slice [Position.zero, i.Pos] with
    | none => (i, some .runtimeError)
    | some cut =>
      let i1 : Internals :=
        if i.Cb.Partial then
          { i with Mem := (cut.AppendText E i.Mem i.Cb.Text).1,
                   Cb := { i.Cb with Text := (cut.AppendText E i.Mem i.Cb.Text).2 } }
        else { i with Cb := { i.Cb with Text := cut } }
      match i1.Buf.Slice [i1.Pos] with
      | none => (i1, some .runtimeError)
      | some rest => ({ i1 with Buf := rest, Pos := Position.zero }).Refresh
  else i.Bell

/-- The method `CutLineRight`. -/
def Internals.CutLineRight (E : Env) (i : Internals) : Outcome :=
  if i.Pos.Runes < i.Buf.Chars.len then
    match i.Buf.Slice [i.Pos] with
    | none => (i, some .runtimeError)
    | some cut =>
      let i1 : Internals :=
        if i.Cb.Partial then
          { i with Mem := (i.Cb.Text.AppendText E (cut.Clone i.Mem).1 (cut.Clone i.Mem).2).1,
                   Cb := { Text := (i.Cb.Text.AppendText E (cut.Clone i.Mem).1 (cut.Clone i.Mem).2).2,
                           Partial := true } }
        else { i with Mem := (cut.Clone i.Mem).1,
                      Cb := { Text := (cut.Clone i.Mem).2, Partial := true } }
      match i1.Buf.Slice [Position.zero, i1.Pos] with
      | none => (i1, some .runtimeError)
      | some rest => ({ i1 with Buf := rest }).Refresh
  else (i, none)

/-- The loop of `CutPrevWord`. Every iteration lowers `pos.Runes` by one, so
`pos.Runes` iterations are enough. The loop state is the flag and `pos`. -/
def CutPrevWord.loop (m : Store Char) (chars : Slice) : Nat → Bool → Position → Run Position
  | fuel, seen, pos =>
    if pos.Runes > 0 then
      match fuel with
      | 0 => .timeout pos
      | fuel + 1 =>
        match m.index chars (pos.Runes - 1) with
        | none => .crash pos
        | some c =>
          if IsSpace c.R then
            if seen then .done pos else CutPrevWord.loop m chars fuel seen (pos.Subtract [c])
          else CutPrevWord.loop m chars fuel true (pos.Subtract [c])
    else .done pos

/-- The method `CutPrevWord`. -/
def Internals.CutPrevWord (E : Env) (i : Internals) : Outcome :=
  if i.Pos.Runes > 0 then
    match CutPrevWord.loop i.Mem.chars i.Buf.Chars i.Pos.Runes.toNat false i.Pos with
    | .timeout _ => (i, some .nontermination)
    | .crash _ => (i, some .runtimeError)
    | .done pos =>
      match i.Buf.Slice [pos, i.Pos] with
      | none => (i, some .runtimeError)
      | some cut =>
        let i1 : Internals :=
          if i.Cb.Partial then
            { i with Mem := ((cut.Clone i.Mem).2.AppendText E (cut.Clone i.Mem).1 i.Cb.Text).1,
                     Cb := { Text := ((cut.Clone i.Mem).2.AppendText E (cut.Clone i.Mem).1
                                        i.Cb.Text).2,
                             Partial := true } }
          else { i with Mem := (cut.Clone i.Mem).1,
                        Cb := { Text := (cut.Clone i.Mem).2, Partial := true } }
        match i1.Buf.Slice [Position.zero, pos] with
        | none => (i1, some .runtimeError)
        | some head =>
          match i1.Buf.Slice [i1.Pos] with
          | none => (i1, some .runtimeError)
          | some tail =>
            ({ i1 with Mem := (head.AppendText E i1.Mem tail).1,
                       Buf := (head.AppendText E i1.Mem tail).2,
                       Pos := pos }).Refresh
  else i.Bell

/-- The method `SwapChars`: the two characters are exchanged in the backing
array of `Chars`, and the two single bytes at `pos.Bytes-1` and `pos.Bytes` in
the backing array of `Bytes`. -/
def Internals.SwapChars (i : Internals) : Outcome :=
  if i.Pos.Runes > 0 ∧ i.Buf.Chars.len > 1 then
    match (if i.Pos.Runes = i.Buf.Chars.len then
            (i.Mem.chars.index i.Buf.Chars (i.Pos.Runes - 1)).map (fun c => i.Pos.Subtract [c])
          else some i.Pos) with
    | none => (i, some .runtimeError)
    | some pos =>
      match i.Mem.chars.index i.Buf.Chars pos.Runes,
            i.Mem.chars.index i.Buf.Chars (pos.Runes - 1) with
      | some a, some b =>
        match (i.Mem.chars.assign i.Buf.Chars (pos.Runes - 1) a).bind
                (fun m => m.assign i.Buf.Chars pos.Runes b) with
        | none => (i, some .runtimeError)
        | some cs =>
          let i1 : Internals := { i with Mem := { i.Mem with chars := cs } }
          match i1.Mem.bytes.index i1.Buf.Bytes pos.Bytes,
                i1.Mem.bytes.index i1.Buf.Bytes (pos.Bytes - 1) with
          | some x, some y =>
            match (i1.Mem.bytes.assign i1.Buf.Bytes (pos.Bytes - 1) x).bind
                    (fun m => m.assign i1.Buf.Bytes pos.Bytes y) with
            | none => (i1, some .runtimeError)
            | some bs =>
              let i2 : Internals := { i1 with Mem := { i1.Mem with bytes := bs } }
              match i2.Mem.chars.index i2.Buf.Chars pos.Runes with
              | none => (i2, some .runtimeError)
              | some c => ({ i2 with Pos := pos.Add [c] }).Refresh
          | _, _ => (i1, some .runtimeError)
      | _, _ => (i, some .runtimeError)
  else i.Bell

/-- The method `Paste`. -/
def Internals.Paste (i : Internals) : Outcome :=
  match i.Buf.InsertTextAt i.Mem i.Pos i.Cb.Text with
  | none => (i, some .runtimeError)
  | some r =>
    ({ i with Mem := r.1, Buf := r.2,
              Pos := i.Pos.Add (r.1.chars.read i.Cb.Text.Chars) }).Refresh

/-! ## The scanner: history, key map, decoding loop -/

/-- The method `Scanner.ClearHistory`. -/
def Scanner.ClearHistory (i : Internals) : Internals :=
  { i with H := ⟨[], [], 0⟩ }

/-- The method `Scanner.AddToHistory`. -/
def Scanner.AddToHistory (i : Internals) (line : List Nat) : Internals :=
  { i with H := { i.H with Tmp := i.H.Tmp ++ [line], Saved := i.H.Saved ++ [line] } }

/-- The method `Scanner.SaveHistory`, the file taken to be writable: the lines
passed to `Fprintln`, in order; `none` is the panic of `Tmp[:len(Tmp)-1]` on an
empty list. -/
def Scanner.SaveHistory (i : Internals) : Option (List (List Nat)) :=
  if i.H.Tmp.length = 0 then none else some (i.H.Tmp.take (i.H.Tmp.length - 1))

/-- The method `Scanner.LoadHistory`, on the lines read from the file. -/
def Scanner.LoadHistory (i : Internals) (lines : List (List Nat)) : Internals :=
  { i with H :=
      { Saved := lines,
        Tmp := goCopy (List.replicate lines.length []) lines ++ [i.Buf.String i.Mem],
        Index := ((goCopy (List.replicate lines.length []) lines
                    ++ [i.Buf.String i.Mem]).length : Int) - 1 } }

/-- An entry of the key map: no entry, an entry holding nil (the sequence goes
on), an entry holding an action. -/
inductive Binding where
  | absent
  | pending
  | action (f : Env → Internals → Outcome)

/-- The type `keymap.Keymap`, from byte sequences to entries. -/
abbrev Keymap := List Nat → Binding

/-- Modelled from the spec: the constant `ansi.NEWLINE` (package ansi is absent
from the sources; the byte values are those of the default binding table). -/
def ansi.NEWLINE : List Nat := [0x0A]
/-- Modelled from the spec: the constant `ansi.CARRIAGE_RETURN`. -/
def ansi.CARRIAGE_RETURN : List Nat := [0x0D]
/-- Modelled from the spec: the constant `ansi.CTRL_C`. -/
def ansi.CTRL_C : List Nat := [0x03]
/-- Modelled from the spec: the constant `ansi.CTRL_D`. -/
def ansi.CTRL_D : List Nat := [0x04]
/-- Modelled from the spec: the constant `ansi.CTRL_H`. -/
def ansi.CTRL_H : List Nat := [0x08]
/-- Modelled from the spec: the constant `ansi.BACKSPACE`. -/
def ansi.BACKSPACE : List Nat := [0x7F]
/-- Modelled from the spec: the constant `ansi.CTRL_L`. -/
def ansi.CTRL_L : List Nat := [0x0C]
/-- Modelled from the spec: the constant `ansi.CTRL_T`. -/
def ansi.CTRL_T : List Nat := [0x14]
/-- Modelled from the spec: the constant `ansi.CTRL_B`. -/
def ansi.CTRL_B : List Nat := [0x02]
/-- Modelled from the spec: the constant `ansi.CTRL_F`. -/
def ansi.CTRL_F : List Nat := [0x06]
/-- Modelled from the spec: the constant `ansi.CTRL_P`. -/
def ansi.CTRL_P : List Nat := [0x10]
/-- Modelled from the spec: the constant `ansi.CTRL_N`. -/
def ansi.CTRL_N : List Nat := [0x0E]
/-- Modelled from the spec: the constant `ansi.CTRL_U`. -/
def ansi.CTRL_U : List Nat := [0x15]
/-- Modelled from the spec: the constant `ansi.CTRL_K`. -/
def ansi.CTRL_K : List Nat := [0x0B]
/-- Modelled from the spec: the constant `ansi.CTRL_A`. -/
def ansi.CTRL_A : List Nat := [0x01]
/-- Modelled from the spec: the constant `ansi.CTRL_E`. -/
def ansi.CTRL_E : List Nat := [0x05]
/-- Modelled from the spec: the constant `ansi.CTRL_W`. -/
def ansi.CTRL_W : List Nat := [0x17]
/-- Modelled from the spec: the constant `ansi.CTRL_Y`. -/
def ansi.CTRL_Y : List Nat := [0x19]
/-- Modelled from the spec: the constant `ansi.START_ESCAPE_SEQ`, ESC. -/
def ansi.START_ESCAPE_SEQ : List Nat := [0x1B]
/-- Modelled from the spec: the constant `ansi.META_B`, ESC b. -/
def ansi.META_B : List Nat := [0x1B, 0x62]
/-- Modelled from the spec: the constant `ansi.META_LEFT`, ESC [ 1 ; 3 D. -/
def ansi.META_LEFT : List Nat := [0x1B, 0x5B, 0x31, 0x3B, 0x33, 0x44]
/-- Modelled from the spec: the constant `ansi.META_F`, ESC f. -/
def ansi.META_F : List Nat := [0x1B, 0x66]
/-- Modelled from the spec: the constant `ansi.META_RIGHT`, ESC [ 1 ; 3 C. -/
def ansi.META_RIGHT : List Nat := [0x1B, 0x5B, 0x31, 0x3B, 0x33, 0x43]
/-- Modelled from the spec: the constant `ansi.LEFT`, ESC [ D. -/
def ansi.LEFT : List Nat := [0x1B, 0x5B, 0x44]
/-- Modelled from the spec: the constant `ansi.RIGHT`, ESC [ C. -/
def ansi.RIGHT : List Nat := [0x1B, 0x5B, 0x43]
/-- Modelled from the spec: the constant `ansi.UP`, ESC [ A. -/
def ansi.UP : List Nat := [0x1B, 0x5B, 0x41]
/-- Modelled from the spec: the constant `ansi.DOWN`, ESC [ B. -/
def ansi.DOWN : List Nat := [0x1B, 0x5B, 0x42]
/-- Modelled from the spec: the constant `ansi.START_EXTENDED_ESCAPE_SEQ`, ESC [. -/
def ansi.START_EXTENDED_ESCAPE_SEQ : List Nat := [0x1B, 0x5B]
/-- Modelled from the spec: the constant `ansi.START_EXTENDED_ESCAPE_SEQ_3`,
ESC [ 3. -/
def ansi.START_EXTENDED_ESCAPE_SEQ_3 : List Nat := [0x1B, 0x5B, 0x33]
/-- Modelled from the spec: the constant `ansi.DELETE`, ESC [ 3 ~. -/
def ansi.DELETE : List Nat := [0x1B, 0x5B, 0x33, 0x7E]

/-- The function `keymap.DefaultKeymap`: the entries of the map literal. -/
def DefaultKeymap : Keymap := fun key =>
  if key = ansi.NEWLINE then .action (fun _ i => i.Enter)
  else if key = ansi.CARRIAGE_RETURN then .action (fun _ i => i.Enter)
  else if key = ansi.CTRL_C then .action (fun _ i => i.Interrupt)
  else if key = ansi.CTRL_D then .action (fun E i => i.DeleteOrEOF E)
  else if key = ansi.CTRL_H then .action (fun E i => i.Backspace E)
  else if key = ansi.BACKSPACE then .action (fun E i => i.Backspace E)
  else if key = ansi.CTRL_L then .action (fun _ i => i.Clear)
  else if key = ansi.CTRL_T then .action (fun _ i => i.SwapChars)
  else if key = ansi.CTRL_B then .action (fun _ i => i.MoveLeft)
  else if key = ansi.CTRL_F then .action (fun _ i => i.MoveRight)
  else if key = ansi.CTRL_P then .action (fun E i => i.HistoryBack E)
  else if key = ansi.CTRL_N then .action (fun E i => i.HistoryForward E)
  else if key = ansi.CTRL_U then .action (fun E i => i.CutLineLeft E)
  else if key = ansi.CTRL_K then .action (fun E i => i.CutLineRight E)
  else if key = ansi.CTRL_A then .action (fun _ i => i.MoveBeginning)
  else if key = ansi.CTRL_E then .action (fun _ i => i.MoveEnd)
  else if key = ansi.CTRL_W then .action (fun E i => i.CutPrevWord E)
  else if key = ansi.CTRL_Y then .action (fun _ i => i.Paste)
  else if key = ansi.START_ESCAPE_SEQ then .pending
  else if key = ansi.META_B then .action (fun _ i => i.MoveWordLeft)
  else if key = ansi.META_LEFT then .action (fun _ i => i.MoveWordLeft)
  else if key = ansi.META_F then .action (fun _ i => i.MoveWordRight)
  else if key = ansi.META_RIGHT then .action (fun _ i => i.MoveWordRight)
  else if key = ansi.LEFT then .action (fun _ i => i.MoveLeft)
  else if key = ansi.RIGHT then .action (fun _ i => i.MoveRight)
  else if key = ansi.UP then .action (fun E i => i.HistoryBack E)
  else if key = ansi.DOWN then .action (fun E i => i.HistoryForward E)
  else if key = ansi.START_EXTENDED_ESCAPE_SEQ then .pending
  else if key = ansi.START_EXTENDED_ESCAPE_SEQ_3 then .pending
  else if key = ansi.DELETE then .action (fun E i => i.Delete E)
  else .absent

/-- The split function `bufio.ScanRunes` over the whole input: one token per
rune, the encoding of U+FFFD for a byte that is not valid UTF-8. -/
def scanRunes (input : List Nat) : List (List Nat) := (decodeRunes input).map encodeRune

/-- The function `getRune`: the rune of a one-rune string; `none` is its panic on
a second rune. -/
def getRune (str : List Nat) : Option Nat :=
  match decodeRunes str with
  | [] => some 0
  | [r] => some r
  | _ :: _ :: _ => none

/-- The closure `isCompleteAnsiCode` of `Scan`: looks the accumulated bytes up in
the key map, runs the action found, and tells whether the sequence is over. -/
def isCompleteAnsiCode (E : Env) (km : Keymap) (i : Internals) (p : List Nat) : Outcome × Bool :=
  match km p with
  | .absent => ((i, none), true)
  | .pending => ((i, none), false)
  | .action f => (f E i, true)

/-- The body of the loop of `Scan` on one token: the state and the accumulated
bytes `p` (`none` for nil) before, the outcome and `p` after. The bytes of a
token and of `p` are kept as values: the buffer of the `bufio.Scanner` they
point into is not part of the state. -/
def Scan.body (E : Env) (km : Keymap) (i : Internals) (p : Option (List Nat))
    (tok : List Nat) : Outcome × Option (List Nat) :=
  match p with
  | none =>
    match getRune tok with
    | none => ((i, some .fatal), some tok)
    | some r =>
      if IsPrint E r then (i.Insert E (CharFromRune E r), none)
      else
        match isCompleteAnsiCode E km i tok with
        | ((i1, some sig), _) => ((i1, some sig), some tok)
        | ((i1, none), done) =>
          ((if r ≠ 23 ∧ r ≠ 21 ∧ r ≠ 11 then
              { i1 with Cb := { i1.Cb with Partial := false } }
            else i1, none),
           if done then none else some tok)
  | some p0 =>
    match isCompleteAnsiCode E km i (p0 ++ tok) with
    | ((i1, some sig), _) => ((i1, some sig), some (p0 ++ tok))
    | ((i1, none), done) => ((i1, none), if done then none else some (p0 ++ tok))

/-- The start of an interactive `Scan`, up to the loop: the prompt is set, the
line and the cursor are reset, the width is taken from the terminal, the
placeholder is pushed onto `Tmp`, the prompt is written. -/
def Scan.start (E : Env) (i : Internals) (prompt : List Nat) (width : Int) : Internals :=
  ({ i with Mem := (TextFromString E i.Mem prompt).1,
            Prompt := (TextFromString E i.Mem prompt).2,
            Stop := false,
            Buf := Text.zero,
            Pos := Position.zero,
            Cols := width,
            H := { i.H with Tmp := i.H.Tmp ++ [[]],
                            Index := ((i.H.Tmp ++ [[]]).length : Int) - 1 } }).write
    (.raw ((TextFromString E i.Mem prompt).1.bytes.read (TextFromString E i.Mem prompt).2.Bytes))

/-- The loop of `Scan` over the tokens of the input: it ends when the stop flag
is set, when the input is exhausted, or on a panic. -/
def Scan.loop (E : Env) (km : Keymap) : List (List Nat) → Internals → Option (List Nat) → Outcome
  | [], i, _ => (i, none)
  | tok :: rest, i, p =>
    if i.Stop then (i, none)
    else
      match Scan.body E km i p tok with
      | ((i1, some sig), _) => (i1, some sig)
      | ((i1, none), p1) => Scan.loop E km rest i1 p1

/-- A scanner as `NewScanner` leaves it: empty history, empty clipboard, nothing
written. -/
def Internals.new : Internals :=
  { Mem := Heap.empty, Output := [], H := ⟨[], [], 0⟩, Prompt := Text.zero,
    Cb := ⟨Text.zero, false⟩, Pos := Position.zero, Cols := 0, Buf := Text.zero, Stop := false }

/-! ## Concrete oracles and inputs for the examples -/

/-- A concrete width oracle: Markus Kuhn's `wcwidth` (the algorithm of the
library the program imports) with the table of combining characters cut down to
the block U+0300..U+036F. It agrees with the library on the code points the
examples use. -/
def sampleWidth (r : Nat) : Int :=
  if r = 0 then 0
  else if r < 32 ∨ (0x7F ≤ r ∧ r < 0xA0) then -1
  else if 0x300 ≤ r ∧ r ≤ 0x36F then 0
  else if (0x1100 ≤ r ∧ r ≤ 0x115F) ∨ (0x2E80 ≤ r ∧ r ≤ 0xA4CF ∧ r ≠ 0x303F)
      ∨ (0xAC00 ≤ r ∧ r ≤ 0xD7A3) ∨ (0xF900 ≤ r ∧ r ≤ 0xFAFF) ∨ (0xFE30 ≤ r ∧ r ≤ 0xFE6F)
      ∨ (0xFF00 ≤ r ∧ r ≤ 0xFF60) ∨ (0xFFE0 ≤ r ∧ r ≤ 0xFFE6)
      ∨ (0x20000 ≤ r ∧ r ≤ 0x2FFFD) ∨ (0x30000 ≤ r ∧ r ≤ 0x3FFFD) then 2
  else 1

/-- A concrete environment: the width oracle above, capacity doubling on
reallocation, and above Latin-1 the combining marks U+0300..U+036F and the
ideographs U+4E00..U+9FA5 as the printable code points (all of them are
printable for `unicode.IsPrint`). -/
def sampleEnv : Env :=
  { wcwidth := sampleWidth,
    growChars := fun old _ => 2 * old,
    growBytes := fun old _ => 2 * old,
    isPrintWide := fun r => decide ((0x300 ≤ r ∧ r ≤ 0x36F) ∨ (0x4E00 ≤ r ∧ r ≤ 0x9FA5)) }

/-- The characters the buffer shows. -/
def Internals.chars (i : Internals) : List Char := i.Mem.chars.read i.Buf.Chars

/-- The bytes the buffer shows. -/
def Internals.bytes (i : Internals) : List Nat := i.Mem.bytes.read i.Buf.Bytes

/-- Feed the input bytes of one interactive scan to a scanner: the start of
`Scan` with the given prompt and terminal width, then the decoding loop with the
default key map. -/
def runScan (E : Env) (i : Internals) (prompt : List Nat) (width : Int) (input : List Nat) :
    Outcome :=
  Scan.loop E DefaultKeymap (scanRunes input) (Scan.start E i prompt width) none

/-! ## Invariants -/

/-- The runtime invariant of a slice header: the length is within the capacity
and the capacity within the backing array. -/
def Slice.Valid {α : Type} (m : Store α) (s : Slice) : Prop :=
  s.len ≤ s.cap ∧ s.off + s.cap ≤ (m.array s.arr).length

instance {α : Type} (m : Store α) (s : Slice) : Decidable (Slice.Valid m s) :=
  inferInstanceAs (Decidable (_ ∧ _))

/-- The concatenation of the byte encodings of a sequence of characters. -/
def concatP : List Char → List Nat
  | [] => []
  | c :: cs => c.P ++ concatP cs

/-- The sum of the widths of a sequence of characters. -/
def sumCols : List Char → Int
  | [] => 0
  | c :: cs => c.ColLen + sumCols cs

/-- Both slice headers of a text satisfy the runtime invariant. -/
def Text.Valid (h : Heap) (t : Text) : Prop :=
  Slice.Valid h.chars t.Chars ∧ Slice.Valid h.bytes t.Bytes

instance (h : Heap) (t : Text) : Decidable (Text.Valid h t) :=
  inferInstanceAs (Decidable (_ ∧ _))

/-- A text is well-formed when `Bytes` is the in-order concatenation of the byte
encodings of `Chars` and `ColLen` is the sum of their widths. -/
def Text.WellFormed (h : Heap) (t : Text) : Prop :=
  h.bytes.read t.Bytes = concatP (h.chars.read t.Chars) ∧
  t.ColLen = sumCols (h.chars.read t.Chars)

instance (h : Heap) (t : Text) : Decidable (Text.WellFormed h t) :=
  inferInstanceAs (Decidable (_ ∧ _))

/-- The prefix-sum position of a character sequence at rune index `k`. -/
def prefixPos (cs : List Char) (k : Nat) : Position :=
  ⟨(concatP (cs.take k)).length, k, sumCols (cs.take k)⟩

/-- A position is valid for a text when its rune index is within the text and
its byte and column offsets are the prefix sums up to that index. -/
def Position.At (h : Heap) (t : Text) (pos : Position) : Prop :=
  0 ≤ pos.Runes ∧ pos.Runes ≤ t.Chars.len ∧
  pos = prefixPos (h.chars.read t.Chars) pos.Runes.toNat

instance (h : Heap) (t : Text) (pos : Position) : Decidable (Position.At h t pos) :=
  inferInstanceAs (Decidable (_ ∧ _ ∧ _))

/-- The character `a`. -/
def exCharA : Char := CharFromRune sampleEnv 0x61

/-- The character `é`, two bytes wide in UTF-8. -/
def exCharE : Char := CharFromRune sampleEnv 0xE9

/-- The character `b`. -/
def exCharB : Char := CharFromRune sampleEnv 0x62

/-- A memory holding the text `aéb` in arrays with spare capacity and the text
`b` in arrays of their own. -/
def exHeap : Heap :=
  { chars := ⟨[[exCharA, exCharE, exCharB, default], [exCharB]]⟩,
    bytes := ⟨[[0x61, 0xC3, 0xA9, 0x62, 0, 0], [0x62]]⟩ }

/-- The text `aéb` of `exHeap`. -/
def exText : Text := ⟨⟨0, 0, 3, 4⟩, ⟨0, 0, 4, 6⟩, 3⟩

/-- The text `b` of `exHeap`. -/
def exTextB : Text := ⟨⟨1, 0, 1, 1⟩, ⟨1, 0, 1, 1⟩, 1⟩

/-- The position after `a` in `exText`. -/
def exPos1 : Position := ⟨1, 1, 1⟩

/-- The position after `é` in `exText`. -/
def exPos2 : Position := ⟨3, 2, 2⟩

/-! ## Concrete runs of the editor -/

/-- The prompt `> `. -/
def exPrompt : List Nat := [0x3E, 0x20]

/-- One scan on a new scanner, terminal 80 columns wide: the keys `é`, Ctrl-E. -/
def runMoveEnd : Outcome := runScan sampleEnv Internals.new exPrompt 80 [0xC3, 0xA9, 0x05]

/-- One scan on a new scanner: the keys `a`, `é`. -/
def runTypeAE : Outcome := runScan sampleEnv Internals.new exPrompt 80 [0x61, 0xC3, 0xA9]

/-- One scan on a new scanner: the keys `a`, `é`, Ctrl-T. -/
def runSwapAE : Outcome := runScan sampleEnv Internals.new exPrompt 80 [0x61, 0xC3, 0xA9, 0x14]

/-- One scan on a new scanner: the keys `a`, `b`, Ctrl-T. -/
def runSwapAB : Outcome := runScan sampleEnv Internals.new exPrompt 80 [0x61, 0x62, 0x14]

/-- One scan on a new scanner: the keys `a`, U+0301 (combining acute accent, of
width 0), Ctrl-B. -/
def runAccentLeft : Outcome :=
  runScan sampleEnv Internals.new exPrompt 80 [0x61, 0xCC, 0x81, 0x02]

/-- One scan on a new scanner: the keys `a`, `b`, Ctrl-B, `c`. -/
def runACB : Outcome := runScan sampleEnv Internals.new exPrompt 80 [0x61, 0x62, 0x02, 0x63]

/-- The character `x`. -/
def exCharX : Char := CharFromRune sampleEnv 0x78

/-- The combining acute accent U+0301. -/
def exAccent : Char := CharFromRune sampleEnv 0x301

/-- A new scanner on which `LoadHistory` read the one line `a`, at the start of
its first interactive scan. -/
def runLoadThenScan : Internals :=
  Scan.start sampleEnv (Scanner.LoadHistory Internals.new [[0x61]]) exPrompt 80

/-- A new scanner after `AddToHistory("a")`. -/
def runAddA : Internals := Scanner.AddToHistory Internals.new [0x61]

/-- A new scanner after `AddToHistory("a")` and one scan with the keys `x`,
Enter. -/
def runAddThenEnter : Outcome := runScan sampleEnv runAddA exPrompt 80 [0x78, 0x0D]

/-- One scan on a new scanner: the key `x`, the scan still active. -/
def runTypeX : Outcome := runScan sampleEnv Internals.new exPrompt 80 [0x78]

/-- A Unicode scalar value: a code point up to U+10FFFF that is not a
surrogate. -/
def IsScalar (r : Nat) : Prop := r < 0xD800 ∨ (0xE000 ≤ r ∧ r ≤ 0x10FFFF)

instance (r : Nat) : Decidable (IsScalar r) := inferInstanceAs (Decidable (_ ∨ _))

/-- Every character of the text is `CharFromRune` of a scalar value, as are the
characters typed through the decoder or loaded from a history line. -/
def Text.Decoded (E : Env) (h : Heap) (t : Text) : Prop :=
  ∀ c ∈ h.chars.read t.Chars, IsScalar c.R ∧ c = CharFromRune E c.R

instance (E : Env) (h : Heap) (t : Text) : Decidable (Text.Decoded E h t) :=
  inferInstanceAs (Decidable (∀ c ∈ _, _))

/-- A scanner with the history line `a`, in a scan, after the key `x`. -/
def runHistTypeX : Outcome := runScan sampleEnv runAddA exPrompt 80 [0x78]

/-- A scanner with the history line `a`, in a scan, after the keys `a`, `é`,
Ctrl-T: the buffer bytes are C3 61 A9. -/
def runHistSwap : Outcome := runScan sampleEnv runAddA exPrompt 80 [0x61, 0xC3, 0xA9, 0x14]

/-- A character whose bytes are not UTF-8, as an action of a custom key map may
insert. -/
def exRawChar : Char := ⟨[0xFF], 0xFF, 1⟩

/-- A scanner with the history line `a`, in a scan, after `Insert` of the
character `exRawChar`. -/
def runHistRaw : Outcome := (Scan.start sampleEnv runAddA exPrompt 80).Insert sampleEnv exRawChar

/-- One scan on a new scanner: the keys of `foo bar ` (with the final space), the
scan still active. -/
def runFooBar : Outcome :=
  runScan sampleEnv Internals.new exPrompt 80 [0x66, 0x6F, 0x6F, 0x20, 0x62, 0x61, 0x72, 0x20]

/-- The state after feeding the key Ctrl-W twice to the decoder (default key
map, nothing accumulated) from state `i`. -/
def afterTwoCuts (E : Env) (i : Internals) : Internals :=
  (Scan.body E DefaultKeymap (Scan.body E DefaultKeymap i none [0x17]).1.1
    (Scan.body E DefaultKeymap i none [0x17]).2 [0x17]).1.1

/-- One scan on a new scanner: the keys `a`, Ctrl-W, `b`, the scan still
active. -/
def runCutType : Outcome := runScan sampleEnv Internals.new exPrompt 80 [0x61, 0x17, 0x62]

/-- One scan on a new scanner: the keys `a`, Ctrl-W, `b`, Ctrl-W. -/
def runCutTypeCut : Outcome :=
  runScan sampleEnv Internals.new exPrompt 80 [0x61, 0x17, 0x62, 0x17]

/-- One scan on a new scanner: the keys `a`, Ctrl-W, `b`, Ctrl-B, Ctrl-F,
Ctrl-W. -/
def runCutMoveCut : Outcome :=
  runScan sampleEnv Internals.new exPrompt 80 [0x61, 0x17, 0x62, 0x02, 0x06, 0x17]

/-- Whether the entry is present and holds nil. -/
def Binding.isPending : Binding → Bool
  | .pending => true
  | _ => false

/-- Whether the key has no entry. -/
def Binding.isAbsent : Binding → Bool
  | .absent => true
  | _ => false

/-- Whether the entry holds an action. -/
def Binding.isAction : Binding → Bool
  | .action _ => true
  | _ => false

/-- Whether every proper non-empty prefix of `key` has an entry holding nil in
the key map, so that the loop of `Scan` keeps accumulating until `key` is
complete. -/
def prefixesPending (km : Keymap) (key : List Nat) : Bool :=
  (List.range (key.length - 1)).all (fun n => (km (key.take (n + 1))).isPending)

/-- The keys of the map literal of `DefaultKeymap` that hold an action, in the
order of the literal. -/
def defaultBound : List (List Nat) :=
  [ansi.NEWLINE, ansi.CARRIAGE_RETURN, ansi.CTRL_C, ansi.CTRL_D, ansi.CTRL_H, ansi.BACKSPACE,
   ansi.CTRL_L, ansi.CTRL_T, ansi.CTRL_B, ansi.CTRL_F, ansi.CTRL_P, ansi.CTRL_N, ansi.CTRL_U,
   ansi.CTRL_K, ansi.CTRL_A, ansi.CTRL_E, ansi.CTRL_W, ansi.CTRL_Y, ansi.META_B,
   ansi.META_LEFT, ansi.META_F, ansi.META_RIGHT, ansi.LEFT, ansi.RIGHT, ansi.UP, ansi.DOWN,
   ansi.DELETE]

/-- One scan on a new scanner: the keys `a`, space, `b`, the scan still
active. -/
def runASpaceB : Outcome := runScan sampleEnv Internals.new exPrompt 80 [0x61, 0x20, 0x62]

/-- One scan on a new scanner: the keys `a`, space, `b`, then the six bytes
ESC `[1;3D` of meta-left. -/
def runMetaLeft : Outcome :=
  runScan sampleEnv Internals.new exPrompt 80 ([0x61, 0x20, 0x62] ++ ansi.META_LEFT)

/-- One scan on a new scanner: the keys `a`, space, `b`, Ctrl-A, then the six
bytes ESC `[1;3C` of meta-right. -/
def runMetaRight : Outcome :=
  runScan sampleEnv Internals.new exPrompt 80 ([0x61, 0x20, 0x62, 0x01] ++ ansi.META_RIGHT)

/-- One scan on a new scanner: the keys `a`, space, `b`, then ESC `b`. -/
def runMetaB : Outcome :=
  runScan sampleEnv Internals.new exPrompt 80 ([0x61, 0x20, 0x62] ++ ansi.META_B)

/-- One scan on a new scanner: the keys `x`, space, `y`, `z`, Ctrl-B, Ctrl-W.
The buffer is `x z` with the cursor before `z`, the clipboard holds `y` and its
flag is set. -/
def runCutWord : Outcome :=
  runScan sampleEnv Internals.new exPrompt 80 [0x78, 0x20, 0x79, 0x7A, 0x02, 0x17]

/-- One scan on a new scanner: the keys `a`, `b`, Ctrl-B; the clipboard is empty
and its flag is clear. -/
def runABLeft : Outcome := runScan sampleEnv Internals.new exPrompt 80 [0x61, 0x62, 0x02]

/-- The claim on the window of `Refresh`, for the window from rune index `ka` to
rune index `kb` of the buffer: with `a` and `b` the prefix-sum positions at `ka`
and `kb`, the cursor column lies between their columns, the cursor and the
trailing edge fit in the terminal after the prompt, and `Refresh` returns after
writing the prompt, the bytes of `Buf.Slice(a, b)` and the forward count
`Prompt.ColLen + Pos.Columns - a.Columns`. -/
def Refresh.WindowAt (i : Internals) (ka kb : Nat) : Prop :=
  ka ≤ kb ∧ kb ≤ i.Buf.Chars.len ∧
  (prefixPos i.chars ka).Columns ≤ i.Pos.Columns ∧
  i.Pos.Columns ≤ (prefixPos i.chars kb).Columns ∧
  i.Prompt.ColLen + (i.Pos.Columns - (prefixPos i.chars ka).Columns) < i.Cols ∧
  i.Prompt.ColLen + ((prefixPos i.chars kb).Columns - (prefixPos i.chars ka).Columns) < i.Cols ∧
  (i.Buf.Slice [prefixPos i.chars ka, prefixPos i.chars kb]).map
      (fun vis => (i.write (.redraw (i.Mem.bytes.read i.Prompt.Bytes)
          (i.Mem.bytes.read vis.Bytes)
          (i.Prompt.ColLen + (i.Pos.Columns - (prefixPos i.chars ka).Columns))),
        (none : Option Signal)))
    = some i.Refresh

instance (i : Internals) (ka kb : Nat) : Decidable (Refresh.WindowAt i ka kb) :=
  inferInstanceAs (Decidable (_ ∧ _ ∧ _ ∧ _ ∧ _ ∧ _ ∧ _))

/-- The claim on the window of `Refresh`: some pair of rune indices of the
buffer is a window in the sense of `Refresh.WindowAt`. -/
def Refresh.Window (i : Internals) : Prop :=
  ∃ ka ∈ List.range (i.Buf.Chars.len + 1), ∃ kb ∈ List.range (i.Buf.Chars.len + 1),
    Refresh.WindowAt i ka kb

instance (i : Internals) : Decidable (Refresh.Window i) :=
  inferInstanceAs (Decidable (∃ ka ∈ List.range _, ∃ kb ∈ List.range _, _))

/-- A scanner after `AddToHistory` of a line holding one tab, in a scan, after
Ctrl-P: the buffer is the tab, a character of width -1 for the width oracle. -/
def runTabHistory : Outcome :=
  runScan sampleEnv (Scanner.AddToHistory Internals.new [0x09]) exPrompt 80 [0x10]

/-- One scan on a new scanner: the keys `a`, U+0301 (of width 0), the scan still
active. -/
def runAccent : Outcome := runScan sampleEnv Internals.new exPrompt 80 [0x61, 0xCC, 0x81]

/-- One scan on a new scanner: the keys `a`, U+0301, Ctrl-L. -/
def runAccentClear : Outcome :=
  runScan sampleEnv Internals.new exPrompt 80 [0x61, 0xCC, 0x81, 0x0C]

/-- One scan on a new scanner: the keys `a`, `b`, the scan still active. -/
def runAB : Outcome := runScan sampleEnv Internals.new exPrompt 80 [0x61, 0x62]

/-- The state after `n` successive calls of `Paste`. -/
def pasteTimes : Nat → Internals → Internals
  | 0, i => i
  | n + 1, i => pasteTimes n i.Paste.1

/-- One scan on a new scanner: the keys `a`, Ctrl-W; the clipboard holds `a` and
its flag is set, the scan still active. -/
def runCutA : Outcome := runScan sampleEnv Internals.new exPrompt 80 [0x61, 0x17]

/-- The statement of `Scan` after the lookup of a first byte: the clipboard's
flag is cleared unless the rune is Ctrl-W (23), Ctrl-U (21) or Ctrl-K (11). -/
def clearPartial (r : Nat) (i : Internals) : Internals :=
  if r ≠ 23 ∧ r ≠ 21 ∧ r ≠ 11 then { i with Cb := { i.Cb with Partial := false } } else i

/-- One scan on a new scanner, terminal 5 columns wide: the keys `a` to `f`, the
scan still active. The line does not fit after the prompt `> `. -/
def runNarrow : Outcome :=
  runScan sampleEnv Internals.new exPrompt 5 [0x61, 0x62, 0x63, 0x64, 0x65, 0x66]

/-! # Theorems -/

/-! ## Lemmas on the slice model -/

section StoreLemmas

variable {α : Type}

theorem Store.array_set_self (m : Store α) (a : Nat) (xs : List α) (h : a < m.arrays.length) :
    (Store.mk (m.arrays.set a xs)).array a = xs := by
  simp [Store.array, List.getD_eq_getElem?_getD, List.getElem?_set, h]

theorem Store.array_set_ne (m : Store α) (a b : Nat) (xs : List α) (h : a ≠ b) :
    (Store.mk (m.arrays.set a xs)).array b = m.array b := by
  simp [Store.array, List.getD_eq_getElem?_getD, List.getElem?_set, h]

theorem Store.array_of_ge (m : Store α) (a : Nat) (h : m.arrays.length ≤ a) :
    m.array a = [] := by
  simp [Store.array, List.getD_eq_getElem?_getD, List.getElem?_eq_none h]

theorem Store.array_push_self (m : Store α) (xs : List α) :
    (Store.mk (m.arrays ++ [xs])).array m.arrays.length = xs := by
  simp [Store.array, List.getD_eq_getElem?_getD]

theorem Store.array_push_lt (m : Store α) (xs : List α) (a : Nat) (h : a < m.arrays.length) :
    (Store.mk (m.arrays ++ [xs])).array a = m.array a := by
  simp [Store.array, List.getD_eq_getElem?_getD, List.getElem?_append_left h]

/-- A valid slice of positive capacity points to an existing array. -/
theorem Slice.Valid.arr_lt {m : Store α} {s : Slice} (hv : Slice.Valid m s) (hc : 0 < s.cap) :
    s.arr < m.arrays.length := by
  by_contra hge
  have h0 := Store.array_of_ge m s.arr (Nat.le_of_not_lt hge)
  have h1 := hv.2
  rw [h0] at h1
  simp at h1
  omega

theorem Store.read_length {m : Store α} {s : Slice} (hv : Slice.Valid m s) :
    (m.read s).length = s.len := by
  have h1 := hv.1
  have h2 := hv.2
  simp [Store.read, List.length_take, List.length_drop]
  omega

/-- Reading depends on the backing array only. -/
theorem Store.read_congr (m m2 : Store α) (s : Slice) (h : m2.array s.arr = m.array s.arr) :
    m2.read s = m.read s := by
  simp [Store.read, h]

theorem Store.read_of_len_zero (m : Store α) (s : Slice) (h : s.len = 0) : m.read s = [] := by
  simp [Store.read, h]

/-- Pushing a new array does not change what a valid slice shows. -/
theorem Store.read_push {m : Store α} {s : Slice} (hv : Slice.Valid m s) (xs : List α) :
    (Store.mk (m.arrays ++ [xs])).read s = m.read s := by
  rcases Nat.eq_zero_or_pos s.cap with hc | hc
  · have : s.len = 0 := by have := hv.1; omega
    rw [Store.read_of_len_zero _ _ this, Store.read_of_len_zero _ _ this]
  · exact Store.read_congr _ _ _ (Store.array_push_lt m xs s.arr (hv.arr_lt hc))

theorem Slice.Valid.push {m : Store α} {s : Slice} (hv : Slice.Valid m s) (xs : List α) :
    Slice.Valid (Store.mk (m.arrays ++ [xs])) s := by
  rcases Nat.eq_zero_or_pos s.cap with hc | hc
  · refine ⟨hv.1, ?_⟩
    have h2 := hv.2
    rcases Nat.lt_or_ge s.arr m.arrays.length with hlt | hge
    · rw [Store.array_push_lt m xs s.arr hlt]; exact h2
    · rw [Store.array_of_ge m s.arr hge] at h2
      simp at h2
      omega
  · refine ⟨hv.1, ?_⟩
    rw [Store.array_push_lt m xs s.arr (hv.arr_lt hc)]
    exact hv.2

theorem Store.alloc_read (m : Store α) (xs : List α) :
    (m.alloc xs).1.read (m.alloc xs).2 = xs := by
  simp [Store.alloc, Store.read, Store.array_push_self]

theorem Store.alloc_valid (m : Store α) (xs : List α) :
    Slice.Valid (m.alloc xs).1 (m.alloc xs).2 := by
  simp [Store.alloc, Slice.Valid, Store.array_push_self]

theorem Store.alloc_read_old {m : Store α} {s : Slice} (hv : Slice.Valid m s) (xs : List α) :
    (m.alloc xs).1.read s = m.read s := Store.read_push hv xs

theorem Store.alloc_valid_old {m : Store α} {s : Slice} (hv : Slice.Valid m s) (xs : List α) :
    Slice.Valid (m.alloc xs).1 s := hv.push xs

theorem overwrite_length (a : List α) (k : Nat) (xs : List α) (h : k + xs.length ≤ a.length) :
    (overwrite a k xs).length = a.length := by
  simp [overwrite, List.length_take, List.length_drop]
  omega

/-- The window `[off, off+len)` followed by the written elements. -/
theorem overwrite_window (a : List α) (off len : Nat) (xs : List α)
    (h : off + len + xs.length ≤ a.length) :
    ((overwrite a (off + len) xs).drop off).take (len + xs.length)
      = (a.drop off).take len ++ xs := by
  unfold overwrite
  have h1 : off ≤ (a.take (off + len)).length := by
    simp [List.length_take]; omega
  rw [List.append_assoc, List.drop_append_of_le_length h1]
  have h2 : ((a.take (off + len)).drop off).length = len := by
    simp [List.length_drop, List.length_take]; omega
  rw [← List.append_assoc]
  have h3 : len + xs.length = ((a.take (off + len)).drop off ++ xs).length := by
    simp [h2]
  rw [h3, List.take_left]
  congr 1
  rw [List.drop_take]
  simp

/-- A window that ends before the written region is unchanged. -/
theorem overwrite_before (a : List α) (k : Nat) (xs : List α) (off len : Nat)
    (h : off + len ≤ k) (hk : k ≤ a.length) :
    ((overwrite a k xs).drop off).take len = (a.drop off).take len := by
  unfold overwrite
  have h1 : off ≤ (a.take k).length := by simp [List.length_take]; omega
  rw [List.append_assoc, List.drop_append_of_le_length h1]
  have h2 : len ≤ ((a.take k).drop off).length := by
    simp [List.length_drop, List.length_take]; omega
  rw [List.take_append_of_le_length h2, List.drop_take, List.take_take]
  congr 1
  omega

end StoreLemmas

/-- An in-place write keeps the length of every backing array. -/
theorem Store.array_length_set_overwrite {α : Type} (m : Store α) (a b k : Nat) (xs : List α)
    (h : k + xs.length ≤ (m.array a).length) :
    ((Store.mk (m.arrays.set a (overwrite (m.array a) k xs))).array b).length
      = (m.array b).length := by
  rcases Nat.lt_or_ge a m.arrays.length with hlt | hge
  · by_cases hab : a = b
    · subst hab
      rw [Store.array_set_self m a _ hlt, overwrite_length _ _ _ h]
    · rw [Store.array_set_ne m a b _ hab]
  · have : m.arrays.set a (overwrite (m.array a) k xs) = m.arrays := by
      apply List.set_eq_of_length_le hge
    rw [this]

section AppendLemmas

variable {α : Type} [Inhabited α]

theorem Store.append_read (g : Nat → Nat → Nat) {m : Store α} {s : Slice}
    (hv : Slice.Valid m s) (xs : List α) :
    (m.append g s xs).1.read (m.append g s xs).2 = m.read s ++ xs := by
  unfold Store.append
  split
  · rename_i hfit
    rcases Nat.eq_zero_or_pos s.cap with hc | hc
    · have hx : xs = [] := by
        apply List.eq_nil_of_length_eq_zero; omega
      have hl : s.len = 0 := by omega
      subst hx
      simp [Store.read, hl]
    · have hlt := hv.arr_lt hc
      simp only [Store.read]
      rw [Store.array_set_self m s.arr _ hlt]
      exact overwrite_window _ _ _ _ (by have := hv.2; omega)
  · simp [Store.read, Store.array_push_self]
    have hl := Store.read_length hv
    simp only [Store.read] at hl
    rw [List.take_append_eq_append_take]
    simp [hl, List.take_of_length_le]

theorem Store.append_valid (g : Nat → Nat → Nat) {m : Store α} {s : Slice}
    (hv : Slice.Valid m s) (xs : List α) :
    Slice.Valid (m.append g s xs).1 (m.append g s xs).2 := by
  unfold Store.append
  split
  · rename_i hfit
    refine ⟨hfit, ?_⟩
    show s.off + s.cap ≤ _
    rw [Store.array_length_set_overwrite m s.arr s.arr _ xs (by have := hv.2; omega)]
    exact hv.2
  · simp [Slice.Valid, Store.array_push_self]
    have hl := Store.read_length hv
    omega

/-- Another valid slice stays valid across an append. -/
theorem Store.append_valid_other (g : Nat → Nat → Nat) {m : Store α} {s t : Slice}
    (hv : Slice.Valid m s) (ht : Slice.Valid m t) (xs : List α) :
    Slice.Valid (m.append g s xs).1 t := by
  unfold Store.append
  split
  · rename_i hfit
    refine ⟨ht.1, ?_⟩
    rw [Store.array_length_set_overwrite m s.arr t.arr _ xs (by have := hv.2; omega)]
    exact ht.2
  · exact ht.push _

/-- Another slice shows the same elements after an append when it lies in a
different array, or in the same array and ends before the written region. -/
theorem Store.append_read_other (g : Nat → Nat → Nat) {m : Store α} {s t : Slice}
    (hv : Slice.Valid m s) (ht : Slice.Valid m t) (xs : List α)
    (hsep : t.arr ≠ s.arr ∨ t.off + t.len ≤ s.off + s.len) :
    (m.append g s xs).1.read t = m.read t := by
  unfold Store.append
  split
  · rename_i hfit
    by_cases hab : s.arr = t.arr
    · rcases Nat.eq_zero_or_pos s.cap with hc | hc
      · have hx : xs = [] := by
          apply List.eq_nil_of_length_eq_zero; omega
        subst hx
        have hcap : s.off + s.len ≤ (m.array s.arr).length := by
          have := hv.2; have := hv.1; omega
        simp [Store.read, overwrite]
        rcases Nat.lt_or_ge s.arr m.arrays.length with hlt | hge
        · rw [← hab, Store.array_set_self m s.arr _ hlt]
        · rw [List.set_eq_of_length_le hge]
      · have hlt := hv.arr_lt hc
        have hle : t.off + t.len ≤ s.off + s.len := by
          rcases hsep with h | h
          · exact absurd hab.symm h
          · exact h
        simp only [Store.read]
        rw [← hab, Store.array_set_self m s.arr _ hlt]
        exact overwrite_before _ _ _ _ _ hle (by have := hv.2; have := hv.1; omega)
    · exact Store.read_congr _ _ _ (Store.array_set_ne m s.arr t.arr _ hab)
  · exact Store.read_push ht _

end AppendLemmas

section CopyLemmas

variable {α : Type}

theorem goCopy_eq (b c src : List α) (h : src.length = b.length) :
    goCopy (b ++ c) src = src ++ c := by
  unfold goCopy
  rw [List.take_of_length_le (by simp; omega), h, List.drop_left]

theorem copyAt_eq (a b c src : List α) (h : src.length = b.length) :
    copyAt (a ++ b ++ c) (a.length : Int) src = some (a ++ src ++ c) := by
  unfold copyAt
  have h1 : (0 : Int) ≤ (a.length : Int) ∧ (a.length : Int) ≤ ((a ++ b ++ c).length : Nat) := by
    constructor
    · omega
    · simp; omega
  rw [if_pos h1]
  simp only [Int.toNat_ofNat, List.append_assoc, List.take_left, List.drop_left]
  rw [goCopy_eq b c src h]

theorem setAt_eq (a c : List α) (b x : α) :
    setAt (a ++ b :: c) (a.length : Int) x = some (a ++ x :: c) := by
  unfold setAt
  have h1 : (0 : Int) ≤ (a.length : Int) ∧ (a.length : Int) < ((a ++ b :: c).length : Nat) := by
    constructor
    · omega
    · simp
  rw [if_pos h1]
  simp

theorem goCopy_replicate_self (d : α) (src : List α) :
    goCopy (List.replicate src.length d) src = src := by
  have := goCopy_eq (List.replicate src.length d) [] src (by simp)
  simpa using this

end CopyLemmas

section SliceLemmas

variable {α : Type}

theorem Slice.sliceTo_eq (s : Slice) (k : Nat) (h : k ≤ s.cap) :
    s.sliceTo (k : Int) = some ⟨s.arr, s.off, k, s.cap⟩ := by
  unfold Slice.sliceTo
  rw [if_pos ⟨by omega, by omega⟩]
  simp

theorem Slice.sliceFrom_eq (s : Slice) (k : Nat) (h : k ≤ s.len) :
    s.sliceFrom (k : Int) = some ⟨s.arr, s.off + k, s.len - k, s.cap - k⟩ := by
  unfold Slice.sliceFrom
  rw [if_pos ⟨by omega, by omega⟩]
  simp

theorem Slice.sliceRange_eq (s : Slice) (lo hi : Nat) (h1 : lo ≤ hi) (h2 : hi ≤ s.cap) :
    s.sliceRange (lo : Int) (hi : Int) = some ⟨s.arr, s.off + lo, hi - lo, s.cap - lo⟩ := by
  unfold Slice.sliceRange
  rw [if_pos ⟨by omega, by omega, by omega⟩]
  simp

theorem Store.read_to (m : Store α) (s : Slice) (k : Nat) (h : k ≤ s.len) :
    m.read ⟨s.arr, s.off, k, s.cap⟩ = (m.read s).take k := by
  simp [Store.read, List.take_take, h]

theorem Store.read_from (m : Store α) (s : Slice) (k : Nat) :
    m.read ⟨s.arr, s.off + k, s.len - k, s.cap - k⟩ = (m.read s).drop k := by
  simp only [Store.read]
  rw [List.drop_take, List.drop_drop]

theorem Store.read_range (m : Store α) (s : Slice) (lo hi : Nat) (h : hi ≤ s.len) :
    m.read ⟨s.arr, s.off + lo, hi - lo, s.cap - lo⟩ = ((m.read s).take hi).drop lo := by
  simp only [Store.read]
  rw [List.take_take, Nat.min_eq_left h, List.drop_take, List.drop_drop]

theorem Slice.Valid.to {m : Store α} {s : Slice} (hv : Slice.Valid m s) (k : Nat) (h : k ≤ s.cap) :
    Slice.Valid m ⟨s.arr, s.off, k, s.cap⟩ := ⟨h, hv.2⟩

theorem Slice.Valid.from {m : Store α} {s : Slice} (hv : Slice.Valid m s) (k : Nat)
    (h : k ≤ s.len) : Slice.Valid m ⟨s.arr, s.off + k, s.len - k, s.cap - k⟩ := by
  have h1 := hv.1
  have h2 := hv.2
  refine ⟨by show s.len - k ≤ s.cap - k; omega, ?_⟩
  show s.off + k + (s.cap - k) ≤ (m.array s.arr).length
  omega

theorem Slice.Valid.range {m : Store α} {s : Slice} (hv : Slice.Valid m s) (lo hi : Nat)
    (h1 : lo ≤ hi) (h2 : hi ≤ s.cap) : Slice.Valid m ⟨s.arr, s.off + lo, hi - lo, s.cap - lo⟩ := by
  have h3 := hv.2
  refine ⟨by show hi - lo ≤ s.cap - lo; omega, ?_⟩
  show s.off + lo + (s.cap - lo) ≤ (m.array s.arr).length
  omega

end SliceLemmas

theorem concatP_append (xs ys : List Char) : concatP (xs ++ ys) = concatP xs ++ concatP ys := by
  induction xs with
  | nil => rfl
  | cons c cs ih => simp [concatP, ih]

theorem sumCols_append (xs ys : List Char) : sumCols (xs ++ ys) = sumCols xs + sumCols ys := by
  induction xs with
  | nil => simp [sumCols]
  | cons c cs ih => simp [sumCols, ih]; ring

theorem concatP_split (cs : List Char) (k : Nat) :
    concatP cs = concatP (cs.take k) ++ concatP (cs.drop k) := by
  rw [← concatP_append, List.take_append_drop]

theorem sumCols_split (cs : List Char) (k : Nat) :
    sumCols cs = sumCols (cs.take k) + sumCols (cs.drop k) := by
  rw [← sumCols_append, List.take_append_drop]

theorem concatP_singleton (c : Char) : concatP [c] = c.P := by simp [concatP]

theorem sumCols_singleton (c : Char) : sumCols [c] = c.ColLen := by simp [sumCols]

theorem copyAt_eq2 {α : Type} (dst a b c src : List α) (i : Int) (hd : dst = a ++ b ++ c)
    (hi : i = (a.length : Int)) (h : src.length = b.length) :
    copyAt dst i src = some (a ++ src ++ c) := by
  subst hd; subst hi; exact copyAt_eq a b c src h

theorem setAt_eq2 {α : Type} (dst a c : List α) (b x : α) (i : Int) (hd : dst = a ++ b :: c)
    (hi : i = (a.length : Int)) :
    setAt dst i x = some (a ++ x :: c) := by
  subst hd; subst hi; exact setAt_eq a c b x

theorem goCopy_fresh {α : Type} (d : α) (pre : List α) (N q : Nat) (hN : N = pre.length + q) :
    goCopy (List.replicate N d) pre = pre ++ List.replicate q d := by
  subst hN
  rw [List.replicate_add]
  exact goCopy_eq _ _ _ (by simp)

/-- A fresh array filled by `copy`, an assignment and `copy`. -/
theorem chain_set {α : Type} (d x : α) (pre post : List α) (N : Nat) (i j : Int)
    (hN : N = pre.length + post.length + 1) (hi : i = (pre.length : Int))
    (hj : j = (pre.length : Int) + 1) :
    ((setAt (goCopy (List.replicate N d) pre) i x).bind fun c2 => copyAt c2 j post)
      = some (pre ++ [x] ++ post) := by
  rw [goCopy_fresh d pre N (post.length + 1) (by omega), List.replicate_succ,
    setAt_eq2 _ pre (List.replicate post.length d) d x i rfl hi]
  simp only [Option.some_bind]
  have := copyAt_eq2 (pre ++ x :: List.replicate post.length d) (pre ++ [x])
    (List.replicate post.length d) [] post j (by simp) (by simp [hj]) (by simp)
  simpa using this

/-- A fresh array filled by three calls of `copy`, left to right. -/
theorem chain_copy {α : Type} (d : α) (pre mid post : List α) (N : Nat) (i j : Int)
    (hN : N = pre.length + mid.length + post.length) (hi : i = (pre.length : Int))
    (hj : j = (pre.length : Int) + (mid.length : Int)) :
    ((copyAt (goCopy (List.replicate N d) pre) i mid).bind fun c2 => copyAt c2 j post)
      = some (pre ++ mid ++ post) := by
  rw [goCopy_fresh d pre N (mid.length + post.length) (by omega), List.replicate_add,
    copyAt_eq2 _ pre (List.replicate mid.length d) (List.replicate post.length d) mid i
      (by simp) hi (by simp)]
  simp only [Option.some_bind]
  have := copyAt_eq2 (pre ++ mid ++ List.replicate post.length d) (pre ++ mid)
    (List.replicate post.length d) [] post j (by simp) (by simp [hj]) (by simp)
  simpa using this

/-- A fresh array filled by three calls of `copy`, the last part before the
middle one. -/
theorem chain_copy_rev {α : Type} (d : α) (pre mid post : List α) (N : Nat) (i j : Int)
    (hN : N = pre.length + mid.length + post.length) (hi : i = (pre.length : Int))
    (hj : j = (pre.length : Int) + (mid.length : Int)) :
    ((copyAt (goCopy (List.replicate N d) pre) j post).bind fun c2 => copyAt c2 i mid)
      = some (pre ++ mid ++ post) := by
  rw [goCopy_fresh d pre N (mid.length + post.length) (by omega), List.replicate_add]
  have h1 := copyAt_eq2 (pre ++ (List.replicate mid.length d ++ List.replicate post.length d))
    (pre ++ List.replicate mid.length d) (List.replicate post.length d) [] post j
    (by simp) (by simp [hj]) (by simp)
  rw [h1]
  simp only [Option.some_bind]
  have := copyAt_eq2 (pre ++ List.replicate mid.length d ++ post ++ []) pre
    (List.replicate mid.length d) post mid i (by simp) hi (by simp)
  simpa using this

theorem concatP_take_left (cs : List Char) (k : Nat) :
    (concatP cs).take (concatP (cs.take k)).length = concatP (cs.take k) := by
  conv => lhs; arg 2; rw [concatP_split cs k]
  exact List.take_left _ _

theorem concatP_drop_left (cs : List Char) (k : Nat) :
    (concatP cs).drop (concatP (cs.take k)).length = concatP (cs.drop k) := by
  conv => lhs; arg 2; rw [concatP_split cs k]
  exact List.drop_left _ _

theorem Text.InsertCharAt_eq (h : Heap) (t : Text) (c : Char) (k : Nat)
    (hv : t.Valid h) (hw : t.WellFormed h) (hk : k ≤ t.Chars.len) :
    t.InsertCharAt h (prefixPos (h.chars.read t.Chars) k) c
      = some
        (⟨(h.chars.alloc ((h.chars.read t.Chars).take k ++ [c] ++ (h.chars.read t.Chars).drop k)).1,
          (h.bytes.alloc (concatP ((h.chars.read t.Chars).take k) ++ c.P ++
              concatP ((h.chars.read t.Chars).drop k))).1⟩,
         ⟨(h.chars.alloc ((h.chars.read t.Chars).take k ++ [c] ++ (h.chars.read t.Chars).drop k)).2,
          (h.bytes.alloc (concatP ((h.chars.read t.Chars).take k) ++ c.P ++
              concatP ((h.chars.read t.Chars).drop k))).2,
          t.ColLen + c.ColLen⟩) := by
  have hlen : (h.chars.read t.Chars).length = t.Chars.len := Store.read_length hv.1
  have hb : h.bytes.read t.Bytes = concatP (h.chars.read t.Chars) := hw.1
  have hblen : (h.bytes.read t.Bytes).length = t.Bytes.len := Store.read_length hv.2
  generalize hcs : h.chars.read t.Chars = cs at *
  have hsplit := concatP_split cs k
  have hB : (concatP (cs.take k)).length ≤ t.Bytes.len := by
    rw [← hblen, hb, hsplit]; simp
  have hBd : (concatP (cs.take k)).length + (concatP (cs.drop k)).length = t.Bytes.len := by
    rw [← hblen, hb]; conv => rhs; rw [hsplit]
    simp
  unfold Text.InsertCharAt prefixPos
  dsimp only
  rw [Slice.sliceTo_eq _ k (by have := hv.1.1; omega), Slice.sliceFrom_eq _ k hk,
    Slice.sliceTo_eq _ _ (by have := hv.2.1; omega), Slice.sliceFrom_eq _ _ hB]
  simp only [Option.bind_eq_bind, Option.some_bind]
  rw [Store.read_to _ _ _ hk, Store.read_from, Store.read_to _ _ _ hB, Store.read_from, hcs, hb,
    concatP_take_left, concatP_drop_left]
  have hpre : (cs.take k).length = k := by simp [List.length_take]; omega
  have hpost : (cs.drop k).length = t.Chars.len - k := by simp [List.length_drop]; omega
  have h1 := chain_set default c (cs.take k) (cs.drop k) (t.Chars.len + 1) k (k + 1)
    (by omega) (by simp [hpre]) (by simp [hpre])
  have h2 := chain_copy 0 (concatP (cs.take k)) c.P (concatP (cs.drop k))
    (t.Bytes.len + c.P.length) (concatP (cs.take k)).length
    ((concatP (cs.take k)).length + c.P.length) (by omega) rfl rfl
  rw [Option.bind_eq_some] at h1 h2
  obtain ⟨c2, hc2, hc3⟩ := h1
  obtain ⟨b2, hb2, hb3⟩ := h2
  rw [hc2]
  simp only [Option.some_bind]
  rw [hc3]
  simp only [Option.some_bind]
  rw [hb2]
  simp only [Option.some_bind]
  rw [hb3]
  simp only [Option.some_bind]

theorem Text.InsertTextAt_eq (h : Heap) (t n : Text) (k : Nat)
    (hv : t.Valid h) (hw : t.WellFormed h) (hnv : n.Valid h)
    (hk : k ≤ t.Chars.len) :
    t.InsertTextAt h (prefixPos (h.chars.read t.Chars) k) n
      = some
        (⟨(h.chars.alloc ((h.chars.read t.Chars).take k ++ h.chars.read n.Chars
              ++ (h.chars.read t.Chars).drop k)).1,
          (h.bytes.alloc (concatP ((h.chars.read t.Chars).take k) ++ h.bytes.read n.Bytes ++
              concatP ((h.chars.read t.Chars).drop k))).1⟩,
         ⟨(h.chars.alloc ((h.chars.read t.Chars).take k ++ h.chars.read n.Chars
              ++ (h.chars.read t.Chars).drop k)).2,
          (h.bytes.alloc (concatP ((h.chars.read t.Chars).take k) ++ h.bytes.read n.Bytes ++
              concatP ((h.chars.read t.Chars).drop k))).2,
          t.ColLen + n.ColLen⟩) := by
  have hlen : (h.chars.read t.Chars).length = t.Chars.len := Store.read_length hv.1
  have hb : h.bytes.read t.Bytes = concatP (h.chars.read t.Chars) := hw.1
  have hblen : (h.bytes.read t.Bytes).length = t.Bytes.len := Store.read_length hv.2
  have hnlen : (h.chars.read n.Chars).length = n.Chars.len := Store.read_length hnv.1
  have hnblen : (h.bytes.read n.Bytes).length = n.Bytes.len := Store.read_length hnv.2
  generalize hcs : h.chars.read t.Chars = cs at *
  have hsplit := concatP_split cs k
  have hB : (concatP (cs.take k)).length ≤ t.Bytes.len := by
    rw [← hblen, hb, hsplit]; simp
  have hBd : (concatP (cs.take k)).length + (concatP (cs.drop k)).length = t.Bytes.len := by
    rw [← hblen, hb]; conv => rhs; rw [hsplit]
    simp
  unfold Text.InsertTextAt prefixPos
  dsimp only
  rw [Slice.sliceTo_eq _ k (by have := hv.1.1; omega), Slice.sliceFrom_eq _ k hk,
    Slice.sliceTo_eq _ _ (by have := hv.2.1; omega), Slice.sliceFrom_eq _ _ hB]
  simp only [Option.bind_eq_bind, Option.some_bind]
  rw [Store.read_to _ _ _ hk, Store.read_from, Store.read_to _ _ _ hB, Store.read_from, hcs, hb,
    concatP_take_left, concatP_drop_left]
  have hpre : (cs.take k).length = k := by simp [List.length_take]; omega
  have hpost : (cs.drop k).length = t.Chars.len - k := by simp [List.length_drop]; omega
  have h1 := chain_copy default (cs.take k) (h.chars.read n.Chars) (cs.drop k)
    (t.Chars.len + n.Chars.len) k (k + n.Chars.len)
    (by omega) (by simp [hpre]) (by simp [hpre, hnlen])
  have h2 := chain_copy_rev 0 (concatP (cs.take k)) (h.bytes.read n.Bytes) (concatP (cs.drop k))
    (t.Bytes.len + n.Bytes.len) (concatP (cs.take k)).length
    ((concatP (cs.take k)).length + n.Bytes.len) (by omega) rfl (by simp [hnblen])
  rw [Option.bind_eq_some] at h1 h2
  obtain ⟨c2, hc2, hc3⟩ := h1
  obtain ⟨b2, hb2, hb3⟩ := h2
  rw [hc2]
  simp only [Option.some_bind]
  rw [hc3]
  simp only [Option.some_bind]
  rw [hb2]
  simp only [Option.some_bind]
  rw [hb3]
  simp only [Option.some_bind]

/-- A text whose reads are a character sequence, its bytes and its width is
well-formed. -/
theorem Text.wf_of_reads (h : Heap) (t : Text) (cs : List Char)
    (h1 : h.chars.read t.Chars = cs) (h2 : h.bytes.read t.Bytes = concatP cs)
    (h3 : t.ColLen = sumCols cs) : t.WellFormed h := by
  subst h1
  exact ⟨h2, h3⟩

theorem Text.AppendText_chars (E : Env) (h : Heap) (t n : Text) (hv : t.Valid h) :
    (t.AppendText E h n).1.chars.read (t.AppendText E h n).2.Chars
      = h.chars.read t.Chars ++ h.chars.read n.Chars :=
  Store.append_read E.growChars hv.1 _

theorem Text.AppendText_bytes (E : Env) (h : Heap) (t n : Text) (hv : t.Valid h) :
    (t.AppendText E h n).1.bytes.read (t.AppendText E h n).2.Bytes
      = h.bytes.read t.Bytes ++ h.bytes.read n.Bytes :=
  Store.append_read E.growBytes hv.2 _

theorem Text.AppendText_valid (E : Env) (h : Heap) (t n : Text) (hv : t.Valid h) :
    (t.AppendText E h n).2.Valid (t.AppendText E h n).1 :=
  ⟨Store.append_valid E.growChars hv.1 _, Store.append_valid E.growBytes hv.2 _⟩

theorem Text.AppendText_wf (E : Env) (h : Heap) (t n : Text) (hv : t.Valid h)
    (hw : t.WellFormed h) (hnw : n.WellFormed h) :
    (t.AppendText E h n).2.WellFormed (t.AppendText E h n).1 := by
  apply Text.wf_of_reads _ _ _ (Text.AppendText_chars E h t n hv)
  · rw [Text.AppendText_bytes E h t n hv, hw.1, hnw.1, concatP_append]
  · show t.ColLen + n.ColLen = _
    rw [hw.2, hnw.2, sumCols_append]

theorem Text.AppendChar_chars (E : Env) (h : Heap) (t : Text) (c : Char) (hv : t.Valid h) :
    (t.AppendChar E h c).1.chars.read (t.AppendChar E h c).2.Chars
      = h.chars.read t.Chars ++ [c] :=
  Store.append_read E.growChars hv.1 _

theorem Text.AppendChar_bytes (E : Env) (h : Heap) (t : Text) (c : Char) (hv : t.Valid h) :
    (t.AppendChar E h c).1.bytes.read (t.AppendChar E h c).2.Bytes
      = h.bytes.read t.Bytes ++ c.P :=
  Store.append_read E.growBytes hv.2 _

theorem Text.AppendChar_valid (E : Env) (h : Heap) (t : Text) (c : Char) (hv : t.Valid h) :
    (t.AppendChar E h c).2.Valid (t.AppendChar E h c).1 :=
  ⟨Store.append_valid E.growChars hv.1 _, Store.append_valid E.growBytes hv.2 _⟩

theorem Text.AppendChar_wf (E : Env) (h : Heap) (t : Text) (c : Char) (hv : t.Valid h)
    (hw : t.WellFormed h) :
    (t.AppendChar E h c).2.WellFormed (t.AppendChar E h c).1 := by
  apply Text.wf_of_reads _ _ _ (Text.AppendChar_chars E h t c hv)
  · rw [Text.AppendChar_bytes E h t c hv, hw.1, concatP_append, concatP_singleton]
  · show t.ColLen + c.ColLen = _
    rw [hw.2, sumCols_append, sumCols_singleton]

theorem Char.Clone_eq (c : Char) : c.Clone = c := by
  unfold Char.Clone
  rw [goCopy_replicate_self]

theorem Text.Clone_chars (h : Heap) (t : Text) :
    (t.Clone h).1.chars.read (t.Clone h).2.Chars = h.chars.read t.Chars := by
  have : (h.chars.read t.Chars).map Char.Clone = h.chars.read t.Chars := by
    conv => rhs; rw [← List.map_id (h.chars.read t.Chars)]
    apply List.map_congr_left
    intro c _
    exact Char.Clone_eq c
  show (h.chars.alloc _).1.read (h.chars.alloc _).2 = _
  rw [Store.alloc_read, this]

theorem Text.Clone_bytes (h : Heap) (t : Text) (hv : t.Valid h) :
    (t.Clone h).1.bytes.read (t.Clone h).2.Bytes = h.bytes.read t.Bytes := by
  show (h.bytes.alloc _).1.read (h.bytes.alloc _).2 = _
  rw [Store.alloc_read]
  have := goCopy_replicate_self 0 (h.bytes.read t.Bytes)
  rw [Store.read_length hv.2] at this
  exact this

theorem Text.Clone_valid (h : Heap) (t : Text) : (t.Clone h).2.Valid (t.Clone h).1 :=
  ⟨Store.alloc_valid _ _, Store.alloc_valid _ _⟩

theorem Text.Clone_wf (h : Heap) (t : Text) (hv : t.Valid h) (hw : t.WellFormed h) :
    (t.Clone h).2.WellFormed (t.Clone h).1 := by
  apply Text.wf_of_reads _ _ _ (Text.Clone_chars h t)
  · rw [Text.Clone_bytes h t hv, hw.1]
  · exact hw.2

theorem prefix_bytes_le (h : Heap) (t : Text) (hv : t.Valid h) (hw : t.WellFormed h) (k : Nat) :
    (concatP ((h.chars.read t.Chars).take k)).length ≤ t.Bytes.len := by
  have hblen : (h.bytes.read t.Bytes).length = t.Bytes.len := Store.read_length hv.2
  rw [← hblen, hw.1]
  conv => rhs; rw [concatP_split _ k]
  simp

theorem prefix_bytes_mono (cs : List Char) (k1 k2 : Nat) (h : k1 ≤ k2) :
    (concatP (cs.take k1)).length ≤ (concatP (cs.take k2)).length := by
  have : cs.take k1 = (cs.take k2).take k1 := by
    rw [List.take_take, Nat.min_eq_left h]
  rw [this]
  conv => rhs; rw [concatP_split _ k1]
  simp

theorem Text.Slice_one_eq (h : Heap) (t : Text) (k : Nat)
    (hv : t.Valid h) (hw : t.WellFormed h) (hk : k ≤ t.Chars.len) :
    t.Slice [prefixPos (h.chars.read t.Chars) k]
      = some ⟨⟨t.Chars.arr, t.Chars.off + k, t.Chars.len - k, t.Chars.cap - k⟩,
              ⟨t.Bytes.arr, t.Bytes.off + (concatP ((h.chars.read t.Chars).take k)).length,
               t.Bytes.len - (concatP ((h.chars.read t.Chars).take k)).length,
               t.Bytes.cap - (concatP ((h.chars.read t.Chars).take k)).length⟩,
              t.ColLen - sumCols ((h.chars.read t.Chars).take k)⟩ := by
  unfold Text.Slice prefixPos
  dsimp only
  rw [Slice.sliceFrom_eq _ k hk, Slice.sliceFrom_eq _ _ (prefix_bytes_le h t hv hw k)]
  rfl

theorem Text.Slice_two_eq (h : Heap) (t : Text) (k1 k2 : Nat)
    (hv : t.Valid h) (hw : t.WellFormed h) (h12 : k1 ≤ k2) (hk : k2 ≤ t.Chars.len) :
    t.Slice [prefixPos (h.chars.read t.Chars) k1, prefixPos (h.chars.read t.Chars) k2]
      = some ⟨⟨t.Chars.arr, t.Chars.off + k1, k2 - k1, t.Chars.cap - k1⟩,
              ⟨t.Bytes.arr, t.Bytes.off + (concatP ((h.chars.read t.Chars).take k1)).length,
               (concatP ((h.chars.read t.Chars).take k2)).length
                 - (concatP ((h.chars.read t.Chars).take k1)).length,
               t.Bytes.cap - (concatP ((h.chars.read t.Chars).take k1)).length⟩,
              sumCols ((h.chars.read t.Chars).take k2)
                - sumCols ((h.chars.read t.Chars).take k1)⟩ := by
  unfold Text.Slice prefixPos
  dsimp only
  rw [Slice.sliceRange_eq _ k1 k2 h12 (by have := hv.1.1; omega),
    Slice.sliceRange_eq _ _ _ (prefix_bytes_mono _ k1 k2 h12)
      (by have := prefix_bytes_le h t hv hw k2; have := hv.2.1; omega)]
  rfl

/-- What the one-argument slice shows. -/
theorem Text.Slice_one_spec (h : Heap) (t : Text) (k : Nat)
    (hv : t.Valid h) (hw : t.WellFormed h) (hk : k ≤ t.Chars.len) :
    ∃ r, t.Slice [prefixPos (h.chars.read t.Chars) k] = some r ∧
      h.chars.read r.Chars = (h.chars.read t.Chars).drop k ∧
      h.bytes.read r.Bytes = concatP ((h.chars.read t.Chars).drop k) ∧
      r.ColLen = sumCols ((h.chars.read t.Chars).drop k) ∧ r.Valid h := by
  refine ⟨_, Text.Slice_one_eq h t k hv hw hk, ?_, ?_, ?_, ?_, ?_⟩
  · exact Store.read_from _ _ _
  · show h.bytes.read ⟨_, _, _, _⟩ = _
    rw [Store.read_from, hw.1, concatP_drop_left]
  · show t.ColLen - _ = _
    rw [hw.2]
    have := sumCols_split (h.chars.read t.Chars) k
    omega
  · exact hv.1.from k hk
  · exact hv.2.from _ (prefix_bytes_le h t hv hw k)

/-- What the two-argument slice shows. -/
theorem Text.Slice_two_spec (h : Heap) (t : Text) (k1 k2 : Nat)
    (hv : t.Valid h) (hw : t.WellFormed h) (h12 : k1 ≤ k2) (hk : k2 ≤ t.Chars.len) :
    ∃ r, t.Slice [prefixPos (h.chars.read t.Chars) k1, prefixPos (h.chars.read t.Chars) k2]
        = some r ∧
      h.chars.read r.Chars = ((h.chars.read t.Chars).take k2).drop k1 ∧
      h.bytes.read r.Bytes = concatP (((h.chars.read t.Chars).take k2).drop k1) ∧
      r.ColLen = sumCols (((h.chars.read t.Chars).take k2).drop k1) ∧ r.Valid h := by
  have htt : (h.chars.read t.Chars).take k1 = ((h.chars.read t.Chars).take k2).take k1 := by
    rw [List.take_take, Nat.min_eq_left h12]
  refine ⟨_, Text.Slice_two_eq h t k1 k2 hv hw h12 hk, ?_, ?_, ?_, ?_, ?_⟩
  · exact Store.read_range _ _ _ _ hk
  · show h.bytes.read ⟨_, _, _, _⟩ = _
    rw [Store.read_range _ _ _ _ (prefix_bytes_le h t hv hw k2), hw.1, concatP_take_left, htt,
      concatP_drop_left]
  · show _ - _ = _
    have := sumCols_split ((h.chars.read t.Chars).take k2) k1
    rw [← htt] at this
    omega
  · exact hv.1.range k1 k2 h12 (by have := hv.1.1; omega)
  · exact hv.2.range _ _ (prefix_bytes_mono _ k1 k2 h12)
      (by have := prefix_bytes_le h t hv hw k2; have := hv.2.1; omega)

theorem Store.index_eq {α : Type} (m : Store α) (s : Slice) (k : Nat) (hk : k < s.len) :
    m.index s (k : Int) = (m.read s)[k]? := by
  unfold Store.index
  rw [if_pos ⟨by omega, by omega⟩]
  simp

theorem take_succ_of_getElem? {α : Type} (l : List α) (k : Nat) (c : α) (h : l[k]? = some c) :
    l.take (k + 1) = l.take k ++ [c] := by
  rw [List.take_succ, h]
  rfl

theorem drop_of_getElem? {α : Type} (l : List α) (k : Nat) (c : α) (h : l[k]? = some c) :
    l.drop k = c :: l.drop (k + 1) := by
  have hlt : k < l.length := by
    by_contra hge
    rw [List.getElem?_eq_none (Nat.le_of_not_lt hge)] at h
    cases h
  rw [List.drop_eq_getElem_cons hlt]
  rw [List.getElem?_eq_getElem hlt] at h
  cases h
  rfl

theorem concatP_take_succ (cs : List Char) (k : Nat) (c : Char) (h : cs[k]? = some c) :
    concatP (cs.take (k + 1)) = concatP (cs.take k) ++ c.P := by
  rw [take_succ_of_getElem? cs k c h, concatP_append, concatP_singleton]

theorem sumCols_take_succ (cs : List Char) (k : Nat) (c : Char) (h : cs[k]? = some c) :
    sumCols (cs.take (k + 1)) = sumCols (cs.take k) + c.ColLen := by
  rw [take_succ_of_getElem? cs k c h, sumCols_append, sumCols_singleton]

/-- What `RemoveCharAt` returns at a valid position before the end. -/
theorem Text.RemoveCharAt_spec (E : Env) (h : Heap) (t : Text) (k : Nat) (c : Char)
    (hv : t.Valid h) (hw : t.WellFormed h) (hc : (h.chars.read t.Chars)[k]? = some c) :
    ∃ r, t.RemoveCharAt E h (prefixPos (h.chars.read t.Chars) k) = some r ∧
      r.1.chars.read r.2.Chars = (h.chars.read t.Chars).take k ++ (h.chars.read t.Chars).drop (k + 1) ∧
      r.1.bytes.read r.2.Bytes = concatP ((h.chars.read t.Chars).take k)
        ++ concatP ((h.chars.read t.Chars).drop (k + 1)) ∧
      r.2.ColLen = t.ColLen - c.ColLen ∧ r.2.Valid r.1 := by
  have hlen : (h.chars.read t.Chars).length = t.Chars.len := Store.read_length hv.1
  have hklt : k < t.Chars.len := by
    rw [← hlen]
    by_contra hge
    rw [List.getElem?_eq_none (Nat.le_of_not_lt hge)] at hc
    cases hc
  have hb : h.bytes.read t.Bytes = concatP (h.chars.read t.Chars) := hw.1
  have hB1 := prefix_bytes_le h t hv hw (k + 1)
  have hts := concatP_take_succ _ k c hc
  have hB : (concatP ((h.chars.read t.Chars).take k)).length + c.P.length ≤ t.Bytes.len := by
    rw [hts] at hB1
    simpa using hB1
  have hcast : ((concatP ((h.chars.read t.Chars).take k)).length : Int) + (c.P.length : Int)
      = (((concatP ((h.chars.read t.Chars).take k)).length + c.P.length : Nat) : Int) := by
    push_cast; rfl
  have hcast1 : (k : Int) + 1 = ((k + 1 : Nat) : Int) := by push_cast; rfl
  have hto : Slice.Valid h.bytes ⟨t.Bytes.arr, t.Bytes.off,
      (concatP ((h.chars.read t.Chars).take k)).length, t.Bytes.cap⟩ :=
    hv.2.to _ (by have := hv.2.1; omega)
  have htoc : Slice.Valid h.chars ⟨t.Chars.arr, t.Chars.off, k, t.Chars.cap⟩ :=
    hv.1.to _ (by have := hv.1.1; omega)
  unfold Text.RemoveCharAt prefixPos
  dsimp only
  rw [Store.index_eq _ _ _ hklt, hc]
  simp only [Option.bind_eq_bind, Option.some_bind]
  rw [Slice.sliceTo_eq _ _ (by have := hv.2.1; omega), hcast, Slice.sliceFrom_eq _ _ hB,
    Slice.sliceTo_eq _ k (by have := hv.1.1; omega), hcast1, Slice.sliceFrom_eq _ (k + 1) hklt]
  simp only [Option.some_bind]
  refine ⟨_, rfl, ?_, ?_, rfl, ?_, ?_⟩
  · show (h.chars.append _ _ _).1.read (h.chars.append _ _ _).2 = _
    rw [Store.append_read _ htoc, Store.read_to _ _ _ (Nat.le_of_lt hklt), Store.read_from]
  · show (h.bytes.append _ _ _).1.read (h.bytes.append _ _ _).2 = _
    rw [Store.append_read _ hto, Store.read_to _ _ _ (by omega), Store.read_from, hb,
      concatP_take_left]
    congr 1
    have := concatP_drop_left (h.chars.read t.Chars) (k + 1)
    rw [hts] at this
    simpa using this
  · exact Store.append_valid _ htoc _
  · exact Store.append_valid _ hto _

theorem Store.make_valid {α : Type} [Inhabited α] (m : Store α) (cap : Nat) :
    Slice.Valid (m.make 0 cap).1 (m.make 0 cap).2 := by
  simp [Store.make, Slice.Valid, Store.array_push_self]

theorem Store.make_read {α : Type} [Inhabited α] (m : Store α) (cap : Nat) :
    (m.make 0 cap).1.read (m.make 0 cap).2 = [] := by
  simp [Store.make, Store.read]

theorem TextFromString.step_eq (E : Env) (acc : Heap × Text) (r : Nat) :
    TextFromString.step E acc r = acc.2.AppendChar E acc.1 (CharFromRune E r) := rfl

theorem TextFromString.fold_spec (E : Env) (rs : List Nat) :
    ∀ acc : Heap × Text, acc.2.Valid acc.1 → acc.2.WellFormed acc.1 →
      (rs.foldl (TextFromString.step E) acc).2.Valid (rs.foldl (TextFromString.step E) acc).1 ∧
      (rs.foldl (TextFromString.step E) acc).2.WellFormed
        (rs.foldl (TextFromString.step E) acc).1 ∧
      (rs.foldl (TextFromString.step E) acc).1.chars.read
          (rs.foldl (TextFromString.step E) acc).2.Chars
        = acc.1.chars.read acc.2.Chars ++ rs.map (CharFromRune E) := by
  induction rs with
  | nil => intro acc hv hw; simp [hv, hw]
  | cons r rs ih =>
    intro acc hv hw
    simp only [List.foldl_cons]
    have hv2 : (TextFromString.step E acc r).2.Valid (TextFromString.step E acc r).1 :=
      Text.AppendChar_valid E acc.1 acc.2 _ hv
    have hw2 : (TextFromString.step E acc r).2.WellFormed (TextFromString.step E acc r).1 :=
      Text.AppendChar_wf E acc.1 acc.2 _ hv hw
    have hr : (TextFromString.step E acc r).1.chars.read (TextFromString.step E acc r).2.Chars
        = acc.1.chars.read acc.2.Chars ++ [CharFromRune E r] :=
      Text.AppendChar_chars E acc.1 acc.2 _ hv
    obtain ⟨h1, h2, h3⟩ := ih _ hv2 hw2
    refine ⟨h1, h2, ?_⟩
    rw [h3, hr]
    simp

/-- The text of a string: valid, well-formed, and showing the characters of the
decoded runes. -/
theorem TextFromString_spec (E : Env) (h : Heap) (s : List Nat) :
    (TextFromString E h s).2.Valid (TextFromString E h s).1 ∧
    (TextFromString E h s).2.WellFormed (TextFromString E h s).1 ∧
    (TextFromString E h s).1.chars.read (TextFromString E h s).2.Chars
      = (decodeRunes s).map (CharFromRune E) := by
  have hv0 : Text.Valid ⟨(h.chars.make 0 s.length).1, (h.bytes.make 0 s.length).1⟩
      ⟨(h.chars.make 0 s.length).2, (h.bytes.make 0 s.length).2, 0⟩ :=
    ⟨Store.make_valid _ _, Store.make_valid _ _⟩
  have hw0 : Text.WellFormed ⟨(h.chars.make 0 s.length).1, (h.bytes.make 0 s.length).1⟩
      ⟨(h.chars.make 0 s.length).2, (h.bytes.make 0 s.length).2, 0⟩ := by
    refine Text.wf_of_reads _ _ [] (Store.make_read _ _) ?_ rfl
    exact Store.make_read _ _
  obtain ⟨h1, h2, h3⟩ := TextFromString.fold_spec E (decodeRunes s)
    (⟨(h.chars.make 0 s.length).1, (h.bytes.make 0 s.length).1⟩,
     ⟨(h.chars.make 0 s.length).2, (h.bytes.make 0 s.length).2, 0⟩) hv0 hw0
  refine ⟨h1, h2, ?_⟩
  unfold TextFromString
  rw [h3]
  show (h.chars.make 0 s.length).1.read (h.chars.make 0 s.length).2 ++ _ = _
  rw [Store.make_read]
  rfl

theorem Position.At.eq {h : Heap} {t : Text} {pos : Position} (ha : pos.At h t) :
    pos = prefixPos (h.chars.read t.Chars) pos.Runes.toNat ∧ pos.Runes.toNat ≤ t.Chars.len ∧
      pos.Runes = (pos.Runes.toNat : Int) := by
  obtain ⟨h0, h1, h2⟩ := ha
  refine ⟨h2, by omega, by omega⟩

theorem Text.InsertCharAt_wf (h : Heap) (t : Text) (c : Char) (pos : Position)
    (hv : t.Valid h) (hw : t.WellFormed h) (hp : pos.At h t) :
    ∃ r, t.InsertCharAt h pos c = some r ∧ r.2.WellFormed r.1 := by
  obtain ⟨he, hk, _⟩ := hp.eq
  rw [he]
  refine ⟨_, Text.InsertCharAt_eq h t c _ hv hw hk, ?_⟩
  apply Text.wf_of_reads _ _ _ (Store.alloc_read _ _)
  · show (h.bytes.alloc _).1.read (h.bytes.alloc _).2 = _
    rw [Store.alloc_read]
    simp [concatP_append, concatP_singleton, concatP]
  · show t.ColLen + c.ColLen = _
    rw [hw.2]
    have := sumCols_split (h.chars.read t.Chars) pos.Runes.toNat
    simp only [sumCols_append, sumCols_singleton]
    omega

theorem Text.InsertTextAt_wf (h : Heap) (t n : Text) (pos : Position)
    (hv : t.Valid h) (hw : t.WellFormed h) (hnv : n.Valid h) (hnw : n.WellFormed h)
    (hp : pos.At h t) :
    ∃ r, t.InsertTextAt h pos n = some r ∧ r.2.WellFormed r.1 := by
  obtain ⟨he, hk, _⟩ := hp.eq
  rw [he]
  refine ⟨_, Text.InsertTextAt_eq h t n _ hv hw hnv hk, ?_⟩
  apply Text.wf_of_reads _ _ _ (Store.alloc_read _ _)
  · show (h.bytes.alloc _).1.read (h.bytes.alloc _).2 = _
    rw [Store.alloc_read, hnw.1]
    simp [concatP_append]
  · show t.ColLen + n.ColLen = _
    rw [hw.2, hnw.2]
    have := sumCols_split (h.chars.read t.Chars) pos.Runes.toNat
    simp only [sumCols_append]
    omega

theorem getElem?_of_lt_len (h : Heap) (t : Text) (hv : t.Valid h) (k : Nat)
    (hk : k < t.Chars.len) : ∃ c, (h.chars.read t.Chars)[k]? = some c := by
  have hlen : (h.chars.read t.Chars).length = t.Chars.len := Store.read_length hv.1
  exact ⟨_, List.getElem?_eq_getElem (by omega)⟩

theorem Text.RemoveCharAt_wf (E : Env) (h : Heap) (t : Text) (pos : Position)
    (hv : t.Valid h) (hw : t.WellFormed h) (hp : pos.At h t) (hlt : pos.Runes < t.Chars.len) :
    ∃ r, t.RemoveCharAt E h pos = some r ∧ r.2.WellFormed r.1 := by
  obtain ⟨he, hk, hr⟩ := hp.eq
  obtain ⟨c, hc⟩ := getElem?_of_lt_len h t hv pos.Runes.toNat (by omega)
  obtain ⟨r, h1, h2, h3, h4, _⟩ := Text.RemoveCharAt_spec E h t _ c hv hw hc
  rw [he]
  refine ⟨r, h1, ?_⟩
  apply Text.wf_of_reads _ _ _ h2
  · rw [h3, concatP_append]
  · rw [h4, hw.2, sumCols_append]
    have h5 := sumCols_split (h.chars.read t.Chars) pos.Runes.toNat
    have h6 := congrArg sumCols (drop_of_getElem? _ _ _ hc)
    simp only [sumCols] at h6
    omega

/-- C2. Text well-formedness is preserved by every Text operation: for every
string, `TextFromString` returns a well-formed Text (in every memory); and for a
well-formed Text `t`, a well-formed Text `n`, a Char `c` and prefix-sum positions
`a ≤ b` of `t`, each of `AppendChar`, `AppendText`, `InsertCharAt`, `InsertTextAt`,
`RemoveCharAt` (rune index below the length), `Slice` with one argument, `Slice`
with two arguments and `Clone` returns, without panicking, a well-formed Text. -/
theorem text_ops_wellformed (E : Env) (h : Heap) (t n : Text) (c : Char) (a b : Position)
    (hv : t.Valid h) (hw : t.WellFormed h) (hnv : n.Valid h) (hnw : n.WellFormed h)
    (ha : a.At h t) (hb : b.At h t) (hab : a.Runes ≤ b.Runes) :
    (∀ s, (TextFromString E h s).2.WellFormed (TextFromString E h s).1) ∧
    (t.AppendChar E h c).2.WellFormed (t.AppendChar E h c).1 ∧
    (t.AppendText E h n).2.WellFormed (t.AppendText E h n).1 ∧
    (∃ r, t.InsertCharAt h b c = some r ∧ r.2.WellFormed r.1) ∧
    (∃ r, t.InsertTextAt h b n = some r ∧ r.2.WellFormed r.1) ∧
    (a.Runes < t.Chars.len → ∃ r, t.RemoveCharAt E h a = some r ∧ r.2.WellFormed r.1) ∧
    (∃ r, t.Slice [b] = some r ∧ r.WellFormed h) ∧
    (∃ r, t.Slice [a, b] = some r ∧ r.WellFormed h) ∧
    (t.Clone h).2.WellFormed (t.Clone h).1 := by
  refine ⟨fun s => (TextFromString_spec E h s).2.1, Text.AppendChar_wf E h t c hv hw,
    Text.AppendText_wf E h t n hv hw hnw, Text.InsertCharAt_wf h t c b hv hw hb,
    Text.InsertTextAt_wf h t n b hv hw hnv hnw hb,
    fun hlt => Text.RemoveCharAt_wf E h t a hv hw ha hlt, ?_, ?_, Text.Clone_wf h t hv hw⟩
  · obtain ⟨he, hk, _⟩ := hb.eq
    obtain ⟨r, h1, h2, h3, h4, _⟩ := Text.Slice_one_spec h t _ hv hw hk
    rw [he]
    exact ⟨r, h1, Text.wf_of_reads _ _ _ h2 h3 h4⟩
  · obtain ⟨hea, hka, hra⟩ := ha.eq
    obtain ⟨heb, hkb, hrb⟩ := hb.eq
    obtain ⟨r, h1, h2, h3, h4, _⟩ := Text.Slice_two_spec h t _ _ hv hw
      (show a.Runes.toNat ≤ b.Runes.toNat by omega) hkb
    rw [hea, heb]
    exact ⟨r, h1, Text.wf_of_reads _ _ _ h2 h3 h4⟩

/-- C2, at the text `aéb`, the positions after `a` and after `é`, the text `b`
and the character `é`. -/
theorem text_ops_wellformed_witness :
    exText.Valid exHeap ∧ exText.WellFormed exHeap ∧ exTextB.Valid exHeap ∧
    exTextB.WellFormed exHeap ∧ exPos1.At exHeap exText ∧ exPos2.At exHeap exText ∧
    exPos1.Runes ≤ exPos2.Runes ∧
    (exText.AppendChar sampleEnv exHeap exCharE).2.WellFormed
      (exText.AppendChar sampleEnv exHeap exCharE).1 :=
  ⟨by decide!, by decide!, by decide!, by decide!, by decide!, by decide!, by decide!,
    (text_ops_wellformed sampleEnv exHeap exText exTextB exCharE exPos1 exPos2
      (by decide!) (by decide!) (by decide!) (by decide!) (by decide!) (by decide!)
      (by decide!)).2.1⟩

/-! ## The claims -/

/-- C1, evaluated on three runs that start from the start-of-scan state. After
`é`, Ctrl-E the cursor has rune index 2 in a buffer of one character; after `a`,
`é`, Ctrl-T and after `a`, U+0301, Ctrl-B, `x` the cursor is not a prefix-sum
position of the buffer either. None of the runs panics. -/
theorem position_invariant_broken :
    (runMoveEnd.2 = none ∧ runMoveEnd.1.Buf.Chars.len = 1 ∧ runMoveEnd.1.Pos.Runes = 2 ∧
      ¬ runMoveEnd.1.Pos.At runMoveEnd.1.Mem runMoveEnd.1.Buf) ∧
    (runSwapAE.2 = none ∧ ¬ runSwapAE.1.Pos.At runSwapAE.1.Mem runSwapAE.1.Buf) ∧
    (runAccentLeft.2 = none ∧ (runAccentLeft.1.Insert sampleEnv exCharX).2 = none ∧
      ¬ (runAccentLeft.1.Insert sampleEnv exCharX).1.Pos.At
          (runAccentLeft.1.Insert sampleEnv exCharX).1.Mem
          (runAccentLeft.1.Insert sampleEnv exCharX).1.Buf) := by
  decide!

/-- C3, evaluated where it fails. After the keys `a`, U+0301, Ctrl-B the state is
well-formed with the cursor at the valid position of rune index 1; `Insert(x)`
then appends `x` at index 2 instead of inserting it at index 1, and leaves a
cursor that is not a prefix-sum position. The claim's own scenario (`a`, `b`,
Ctrl-B, `c`) does give `acb` with the cursor at rune index 2. -/
theorem insert_zero_width_misplaced :
    (runAccentLeft.1.Buf.Valid runAccentLeft.1.Mem ∧
      runAccentLeft.1.Buf.WellFormed runAccentLeft.1.Mem ∧
      runAccentLeft.1.Pos.At runAccentLeft.1.Mem runAccentLeft.1.Buf ∧
      runAccentLeft.1.Pos.Runes = 1 ∧ runAccentLeft.1.chars = [exCharA, exAccent]) ∧
    ((runAccentLeft.1.Insert sampleEnv exCharX).1.chars = [exCharA, exAccent, exCharX] ∧
      (runAccentLeft.1.Insert sampleEnv exCharX).1.Pos = ⟨2, 2, 2⟩ ∧
      prefixPos (runAccentLeft.1.Insert sampleEnv exCharX).1.chars 2 = ⟨3, 2, 1⟩) ∧
    (runACB.2 = none ∧ runACB.1.bytes = [0x61, 0x63, 0x62] ∧ runACB.1.Pos.Runes = 2) := by
  decide!

/-- C4, evaluated where it fails: after `é`, Ctrl-E the buffer has 1 character
and 2 bytes, and the cursor has `Runes = 2` and `Bytes = 1`. -/
theorem moveEnd_swaps_runes_and_bytes :
    runMoveEnd.2 = none ∧ runMoveEnd.1.Buf.Chars.len = 1 ∧ runMoveEnd.1.Buf.Bytes.len = 2 ∧
    runMoveEnd.1.Buf.ColLen = 1 ∧ runMoveEnd.1.Pos = ⟨1, 2, 1⟩ := by
  decide!

/-- C5, evaluated where it fails. With the buffer `aé` and the cursor at its end
(a well-formed state, valid cursor), `SwapChars` exchanges the two characters
but only the two bytes at offsets 0 and 1: the bytes are C3 61 A9, not the
encoding C3 A9 61 of `éa`, and the cursor has byte offset 2, not 3. On `ab` the
bytes do come out as `ba`. -/
theorem swapChars_multibyte_corrupts :
    (runTypeAE.2 = none ∧ runTypeAE.1.Buf.Valid runTypeAE.1.Mem ∧
      runTypeAE.1.Buf.WellFormed runTypeAE.1.Mem ∧
      runTypeAE.1.Pos.At runTypeAE.1.Mem runTypeAE.1.Buf ∧
      runTypeAE.1.Pos.Runes = 2 ∧ runTypeAE.1.chars = [exCharA, exCharE]) ∧
    (runTypeAE.1.SwapChars.2 = none ∧ runTypeAE.1.SwapChars.1.chars = [exCharE, exCharA] ∧
      runTypeAE.1.SwapChars.1.bytes = [0xC3, 0x61, 0xA9] ∧
      concatP runTypeAE.1.SwapChars.1.chars = [0xC3, 0xA9, 0x61] ∧
      runTypeAE.1.SwapChars.1.Pos = ⟨2, 2, 2⟩ ∧
      prefixPos runTypeAE.1.SwapChars.1.chars 2 = ⟨3, 2, 2⟩) ∧
    (runSwapAB.2 = none ∧ runSwapAB.1.bytes = [0x62, 0x61]) := by
  decide!

/-- C6, evaluated where it fails: `LoadHistory` of a one-line file on a new
scanner, then the start of a scan. Inside the scan `Tmp` has 3 entries and
`Saved` has 1. -/
theorem history_length_after_load :
    runLoadThenScan.H.Saved = [[0x61]] ∧ runLoadThenScan.H.Tmp = [[0x61], [], []] ∧
    runLoadThenScan.H.Tmp.length ≠ runLoadThenScan.H.Saved.length + 1 := by
  decide!

/-- C7, evaluated where it fails: on a new scanner `SaveHistory` panics; after
`AddToHistory("a")`, and also after a following scan ended by Enter, `Saved` is
the one line `a` and `SaveHistory` writes no line. -/
theorem saveHistory_drops_last :
    Scanner.SaveHistory Internals.new = none ∧
    (runAddA.H.Saved = [[0x61]] ∧ Scanner.SaveHistory runAddA = some []) ∧
    (runAddThenEnter.2 = none ∧ runAddThenEnter.1.Stop = true ∧
      runAddThenEnter.1.H.Saved = [[0x61]] ∧
      Scanner.SaveHistory runAddThenEnter.1 = some []) := by
  decide!

theorem goCopy_same_length {α : Type} (dst src : List α) (h : dst.length = src.length) :
    goCopy dst src = src := by
  have := goCopy_eq dst [] src h.symm
  simpa using this

/-- C8. Enter discards in-scan history edits: in a state with
`len(Tmp) = len(Saved) + 1`, whatever the entries of `Tmp` are, `Enter` returns
normally, leaves `Tmp` equal to `Saved`, sets the stop flag, and changes neither
`Saved` nor the buffer nor the memory it points into. The next scan then starts
with `Tmp = Saved ++ [""]`, and with `Saved = []` its `HistoryBack` does what
`Bell` does: it writes the bell and changes nothing else. -/
theorem enter_discards_history_edits (E : Env) (i : Internals) (prompt : List Nat) (width : Int)
    (hlen : i.H.Tmp.length = i.H.Saved.length + 1) :
    i.Enter.2 = none ∧ i.Enter.1.H.Tmp = i.H.Saved ∧ i.Enter.1.H.Saved = i.H.Saved ∧
    i.Enter.1.Stop = true ∧ i.Enter.1.Buf = i.Buf ∧ i.Enter.1.Mem = i.Mem ∧
    (Scan.start E i.Enter.1 prompt width).H.Tmp = i.H.Saved ++ [[]] ∧
    (i.H.Saved = [] →
      (Scan.start E i.Enter.1 prompt width).HistoryBack E
        = (Scan.start E i.Enter.1 prompt width).Bell) := by
  have hne : ¬ i.H.Tmp.length = 0 := by omega
  have htmp : goCopy (i.H.Tmp.take (i.H.Tmp.length - 1)) i.H.Saved = i.H.Saved := by
    apply goCopy_same_length
    simp [List.length_take]
    omega
  have hE : i.Enter = ({ i with H := { i.H with Tmp := i.H.Saved }, Stop := true }, none) := by
    unfold Internals.Enter
    rw [if_neg hne, htmp]
  rw [hE]
  refine ⟨rfl, rfl, rfl, rfl, rfl, rfl, rfl, ?_⟩
  intro hs
  unfold Internals.HistoryBack
  have : ¬ (Scan.start E
      ({ i with H := { i.H with Tmp := i.H.Saved }, Stop := true }, (none : Option Signal)).1
      prompt width).H.Index > 0 := by
    simp [Scan.start, Internals.write, hs]
  rw [if_neg this]

/-- C8, at the state reached by typing `x` in the first scan of a new scanner. -/
theorem enter_discards_history_edits_witness :
    runTypeX.1.H.Tmp.length = runTypeX.1.H.Saved.length + 1 ∧
    runTypeX.1.Enter.1.H.Tmp = runTypeX.1.H.Saved ∧
    (runTypeX.1.H.Saved = [] →
      (Scan.start sampleEnv runTypeX.1.Enter.1 exPrompt 80).HistoryBack sampleEnv
        = (Scan.start sampleEnv runTypeX.1.Enter.1 exPrompt 80).Bell) :=
  ⟨by decide!,
   (enter_discards_history_edits sampleEnv runTypeX.1 exPrompt 80 (by decide!)).2.1,
   (enter_discards_history_edits sampleEnv runTypeX.1 exPrompt 80 (by decide!)).2.2.2.2.2.2.2⟩

theorem leadInfo_three (r : Nat) (h1 : 0x800 ≤ r) (h2 : r < 0x10000) (hs : IsScalar r) :
    ∃ lo hi, leadInfo (0xE0 + r / 4096) = some (3, lo, hi) ∧
      lo ≤ 0x80 + r / 64 % 64 ∧ 0x80 + r / 64 % 64 ≤ hi := by
  unfold IsScalar at hs
  unfold leadInfo
  by_cases c1 : r < 0x1000
  · refine ⟨0xA0, 0xBF, ?_, by omega, by omega⟩
    rw [if_neg (by omega), if_pos (by omega)]
  · by_cases c2 : r < 0xD000
    · refine ⟨0x80, 0xBF, ?_, by omega, by omega⟩
      rw [if_neg (by omega), if_neg (by omega), if_pos (by omega)]
    · by_cases c3 : r < 0xD800
      · refine ⟨0x80, 0x9F, ?_, by omega, by omega⟩
        rw [if_neg (by omega), if_neg (by omega), if_neg (by omega), if_pos (by omega)]
      · refine ⟨0x80, 0xBF, ?_, by omega, by omega⟩
        rw [if_neg (by omega), if_neg (by omega), if_neg (by omega), if_neg (by omega),
          if_pos (by omega)]

theorem leadInfo_four (r : Nat) (h1 : 0x10000 ≤ r) (h2 : r ≤ 0x10FFFF) :
    ∃ lo hi, leadInfo (0xF0 + r / 262144) = some (4, lo, hi) ∧
      lo ≤ 0x80 + r / 4096 % 64 ∧ 0x80 + r / 4096 % 64 ≤ hi := by
  unfold leadInfo
  by_cases c1 : r < 0x40000
  · refine ⟨0x90, 0xBF, ?_, by omega, by omega⟩
    rw [if_neg (by omega), if_neg (by omega), if_neg (by omega), if_neg (by omega),
      if_neg (by omega), if_pos (by omega)]
  · by_cases c2 : r < 0x100000
    · refine ⟨0x80, 0xBF, ?_, by omega, by omega⟩
      rw [if_neg (by omega), if_neg (by omega), if_neg (by omega), if_neg (by omega),
        if_neg (by omega), if_neg (by omega), if_pos (by omega)]
    · refine ⟨0x80, 0x8F, ?_, by omega, by omega⟩
      rw [if_neg (by omega), if_neg (by omega), if_neg (by omega), if_neg (by omega),
        if_neg (by omega), if_neg (by omega), if_neg (by omega), if_pos (by omega)]

/-- Decoding the encoding of a scalar value gives it back, with its width. -/
theorem decodeRune_encode (r : Nat) (hr : IsScalar r) (rest : List Nat) :
    decodeRune (encodeRune r ++ rest) = (r, (encodeRune r).length) := by
  have hr0 := hr
  unfold IsScalar at hr
  unfold encodeRune
  split
  · rename_i h1
    simp [decodeRune, h1]
  · split
    · rename_i h1 h2
      have hl : leadInfo (0xC0 + r / 64) = some (2, 0x80, 0xBF) := by
        unfold leadInfo
        rw [if_pos (by omega)]
      simp only [List.cons_append, List.nil_append, decodeRune, hl]
      rw [if_neg (by omega), if_neg (by omega)]
      simp
      omega
    · split
      · omega
      · split
        · rename_i h1 h2 h3 h4
          obtain ⟨lo, hi, hl, hlo, hhi⟩ := leadInfo_three r (by omega) h4 hr0
          simp only [List.cons_append, List.nil_append, decodeRune, hl]
          rw [if_neg (by omega), if_neg (by omega)]
          have hc : isCont (0x80 + r % 64) = true := by
            unfold isCont; simp; omega
          simp [hc]
          omega
        · rename_i h1 h2 h3 h4
          obtain ⟨lo, hi, hl, hlo, hhi⟩ := leadInfo_four r (by omega) (by omega)
          simp only [List.cons_append, List.nil_append, decodeRune, hl]
          rw [if_neg (by omega), if_neg (by omega)]
          have hc : isCont (0x80 + r % 64) = true := by
            unfold isCont; simp; omega
          have hc2 : isCont (0x80 + r / 64 % 64) = true := by
            unfold isCont; simp; omega
          simp [hc, hc2]
          omega

theorem encodeRune_length_pos (r : Nat) : 0 < (encodeRune r).length := by
  unfold encodeRune
  split
  · simp
  · split
    · simp
    · split
      · simp
      · split <;> simp

/-- The bytes of a sequence of runes. -/
theorem decodeAux_encode (rs : List Nat) (hrs : ∀ r ∈ rs, IsScalar r) :
    ∀ fuel, (rs.flatMap encodeRune).length ≤ fuel →
      decodeAux fuel (rs.flatMap encodeRune) = rs := by
  induction rs with
  | nil =>
    intro fuel _
    cases fuel <;> simp [decodeAux]
  | cons r rs ih =>
    intro fuel hf
    have hpos := encodeRune_length_pos r
    have hsc : IsScalar r := hrs r (by simp)
    simp only [List.flatMap_cons, List.length_append] at hf
    cases fuel with
    | zero => omega
    | succ f =>
      have hne : ∃ b bs, encodeRune r ++ rs.flatMap encodeRune = b :: bs := by
        cases hE : encodeRune r with
        | nil => rw [hE] at hpos; simp at hpos
        | cons b bs => exact ⟨b, bs ++ rs.flatMap encodeRune, rfl⟩
      obtain ⟨b, bs, hbs⟩ := hne
      simp only [List.flatMap_cons]
      have hd := decodeRune_encode r hsc (rs.flatMap encodeRune)
      rw [hbs] at hd ⊢
      simp only [decodeAux]
      rw [hd]
      simp only
      rw [← hbs, List.drop_left]
      rw [ih (fun x hx => hrs x (by simp [hx])) f (by omega)]

theorem decodeRunes_encode (rs : List Nat) (hrs : ∀ r ∈ rs, IsScalar r) :
    decodeRunes (rs.flatMap encodeRune) = rs :=
  decodeAux_encode rs hrs _ (Nat.le_refl _)

/-- `Refresh` only writes: every field but the output is left as it is. -/
theorem Internals.Refresh_fields (i : Internals) :
    i.Refresh.1.Mem = i.Mem ∧ i.Refresh.1.H = i.H ∧ i.Refresh.1.Prompt = i.Prompt ∧
    i.Refresh.1.Cb = i.Cb ∧ i.Refresh.1.Pos = i.Pos ∧ i.Refresh.1.Cols = i.Cols ∧
    i.Refresh.1.Buf = i.Buf ∧ i.Refresh.1.Stop = i.Stop := by
  unfold Internals.Refresh
  repeat' split
  all_goals simp [Internals.write]

theorem decoded_list (E : Env) (cs : List Char)
    (hd : ∀ c ∈ cs, IsScalar c.R ∧ c = CharFromRune E c.R) :
    concatP cs = (cs.map Char.R).flatMap encodeRune ∧
    (cs.map Char.R).map (CharFromRune E) = cs ∧ (∀ r ∈ cs.map Char.R, IsScalar r) := by
  induction cs with
  | nil => simp [concatP]
  | cons c cs ih =>
    obtain ⟨h1, h2, h3⟩ := ih (fun x hx => hd x (by simp [hx]))
    obtain ⟨hs, hc⟩ := hd c (by simp)
    refine ⟨?_, ?_, ?_⟩
    · simp only [concatP, List.map_cons, List.flatMap_cons, h1]
      congr 1
      conv => lhs; rw [hc]
      rfl
    · simp only [List.map_cons, h2]
      rw [← hc]
    · intro r hr
      simp only [List.map_cons, List.mem_cons] at hr
      rcases hr with hr | hr
      · rw [hr]; exact hs
      · exact h3 r hr

/-- The text of the bytes of a decoded, well-formed text shows the same
characters. -/
theorem TextFromString_of_decoded (E : Env) (h h2 : Heap) (t : Text)
    (hw : t.WellFormed h) (hd : t.Decoded E h) :
    (TextFromString E h2 (t.String h)).1.chars.read (TextFromString E h2 (t.String h)).2.Chars
      = h.chars.read t.Chars := by
  obtain ⟨h1, h3, h4⟩ := decoded_list E _ hd
  rw [(TextFromString_spec E h2 _).2.2]
  unfold Text.String
  rw [hw.1, h1, decodeRunes_encode _ h4, h3]

theorem listAt_eq {α : Type} (l : List α) (k : Int) (h0 : 0 ≤ k) (h1 : k < l.length) :
    listAt l k = l[k.toNat]? := by
  unfold listAt
  rw [if_pos ⟨h0, h1⟩]

theorem setAt_some {α : Type} (l : List α) (k : Int) (x : α) (h0 : 0 ≤ k) (h1 : k < l.length) :
    setAt l k x = some (l.set k.toNat x) := by
  unfold setAt
  rw [if_pos ⟨h0, h1⟩]

/-- What `HistoryBack` does to the history, the buffer and the memory. -/
theorem Internals.HistoryBack_spec (E : Env) (i : Internals) (h0 : 0 < i.H.Index)
    (h1 : i.H.Index < i.H.Tmp.length) :
    ∃ line, listAt i.H.Tmp (i.H.Index - 1) = some line ∧
      (i.HistoryBack E).1.H
        = ⟨i.H.Saved, i.H.Tmp.set i.H.Index.toNat (i.Buf.String i.Mem), i.H.Index - 1⟩ ∧
      (i.HistoryBack E).1.Mem = (TextFromString E i.Mem line).1 ∧
      (i.HistoryBack E).1.Buf = (TextFromString E i.Mem line).2 := by
  have hlt : (i.H.Index - 1).toNat < i.H.Tmp.length := by omega
  have hline : listAt i.H.Tmp (i.H.Index - 1) = some (i.H.Tmp[(i.H.Index - 1).toNat]) := by
    rw [listAt_eq _ _ (by omega) (by omega), List.getElem?_eq_getElem hlt]
  have hline2 : listAt (i.H.Tmp.set i.H.Index.toNat (i.Buf.String i.Mem)) (i.H.Index - 1)
      = some (i.H.Tmp[(i.H.Index - 1).toNat]) := by
    rw [listAt_eq _ _ (by omega) (by simp; omega), List.getElem?_set_ne (by omega),
      List.getElem?_eq_getElem hlt]
  refine ⟨_, hline, ?_⟩
  unfold Internals.HistoryBack
  rw [if_pos h0, setAt_some _ _ _ (by omega) h1]
  simp only [hline2]
  obtain ⟨e1, e2, _, _, _, _, e7, _⟩ := Internals.Refresh_fields
    { i with Mem := (TextFromString E i.Mem (i.H.Tmp[(i.H.Index - 1).toNat])).1,
             H := { i.H with Tmp := i.H.Tmp.set i.H.Index.toNat (i.Buf.String i.Mem),
                             Index := i.H.Index - 1 },
             Buf := (TextFromString E i.Mem (i.H.Tmp[(i.H.Index - 1).toNat])).2,
             Pos := ⟨(TextFromString E i.Mem (i.H.Tmp[(i.H.Index - 1).toNat])).2.Chars.len,
                     (TextFromString E i.Mem (i.H.Tmp[(i.H.Index - 1).toNat])).2.Bytes.len,
                     (TextFromString E i.Mem (i.H.Tmp[(i.H.Index - 1).toNat])).2.ColLen⟩ }
  exact ⟨e2, e1, e7⟩

/-- What `HistoryForward` does to the history, the buffer and the memory. -/
theorem Internals.HistoryForward_spec (E : Env) (i : Internals) (h0 : 0 ≤ i.H.Index)
    (h1 : i.H.Index < (i.H.Tmp.length : Int) - 1) :
    ∃ line, listAt i.H.Tmp (i.H.Index + 1) = some line ∧
      (i.HistoryForward E).1.H
        = ⟨i.H.Saved, i.H.Tmp.set i.H.Index.toNat (i.Buf.String i.Mem), i.H.Index + 1⟩ ∧
      (i.HistoryForward E).1.Mem = (TextFromString E i.Mem line).1 ∧
      (i.HistoryForward E).1.Buf = (TextFromString E i.Mem line).2 := by
  have hlt : (i.H.Index + 1).toNat < i.H.Tmp.length := by omega
  have hline : listAt i.H.Tmp (i.H.Index + 1) = some (i.H.Tmp[(i.H.Index + 1).toNat]) := by
    rw [listAt_eq _ _ (by omega) (by omega), List.getElem?_eq_getElem hlt]
  have hline2 : listAt (i.H.Tmp.set i.H.Index.toNat (i.Buf.String i.Mem)) (i.H.Index + 1)
      = some (i.H.Tmp[(i.H.Index + 1).toNat]) := by
    rw [listAt_eq _ _ (by omega) (by simp; omega), List.getElem?_set_ne (by omega),
      List.getElem?_eq_getElem hlt]
  refine ⟨_, hline, ?_⟩
  unfold Internals.HistoryForward
  rw [if_pos h1, setAt_some _ _ _ h0 (by omega)]
  simp only [hline2]
  obtain ⟨e1, e2, _, _, _, _, e7, _⟩ := Internals.Refresh_fields
    { i with Mem := (TextFromString E i.Mem (i.H.Tmp[(i.H.Index + 1).toNat])).1,
             H := { i.H with Tmp := i.H.Tmp.set i.H.Index.toNat (i.Buf.String i.Mem),
                             Index := i.H.Index + 1 },
             Buf := (TextFromString E i.Mem (i.H.Tmp[(i.H.Index + 1).toNat])).2,
             Pos := ⟨(TextFromString E i.Mem (i.H.Tmp[(i.H.Index + 1).toNat])).2.Chars.len,
                     (TextFromString E i.Mem (i.H.Tmp[(i.H.Index + 1).toNat])).2.Bytes.len,
                     (TextFromString E i.Mem (i.H.Tmp[(i.H.Index + 1).toNat])).2.ColLen⟩ }
  exact ⟨e2, e1, e7⟩

theorem Internals.back_then_forward (E : Env) (i : Internals) (h0 : 0 < i.H.Index)
    (h1 : i.H.Index < i.H.Tmp.length) (hw : i.Buf.WellFormed i.Mem)
    (hd : i.Buf.Decoded E i.Mem) :
    ((i.HistoryBack E).1.HistoryForward E).1.H.Index = i.H.Index ∧
    ((i.HistoryBack E).1.HistoryForward E).1.H.Saved = i.H.Saved ∧
    ((i.HistoryBack E).1.HistoryForward E).1.chars = i.chars ∧
    ((i.HistoryBack E).1.HistoryForward E).1.bytes = i.bytes ∧
    ((i.HistoryBack E).1.HistoryForward E).1.Buf.ColLen = i.Buf.ColLen := by
  obtain ⟨line1, _, hH1, hM1, hB1⟩ := Internals.HistoryBack_spec E i h0 h1
  have hidx : (i.HistoryBack E).1.H.Index = i.H.Index - 1 := by rw [hH1]
  have htmp : (i.HistoryBack E).1.H.Tmp = i.H.Tmp.set i.H.Index.toNat (i.Buf.String i.Mem) := by
    rw [hH1]
  have hsav : (i.HistoryBack E).1.H.Saved = i.H.Saved := by rw [hH1]
  obtain ⟨line2, hl2, hH2, hM2, hB2⟩ := Internals.HistoryForward_spec E (i.HistoryBack E).1
    (by rw [hidx]; omega) (by rw [hidx, htmp]; simp; omega)
  have hline : line2 = i.Buf.String i.Mem := by
    rw [hidx, htmp, listAt_eq _ _ (by omega) (by simp; omega)] at hl2
    have : (i.H.Index - 1 + 1).toNat = i.H.Index.toNat := by omega
    rw [this, List.getElem?_set_self (by omega)] at hl2
    exact (Option.some.inj hl2).symm
  subst hline
  have hchars := TextFromString_of_decoded E i.Mem (i.HistoryBack E).1.Mem i.Buf hw hd
  have hwf := (TextFromString_spec E (i.HistoryBack E).1.Mem (i.Buf.String i.Mem)).2.1
  refine ⟨by rw [hH2, hidx]; simp, by rw [hH2, hsav], ?_, ?_, ?_⟩
  · unfold Internals.chars
    rw [hM2, hB2, hchars]
  · unfold Internals.bytes
    rw [hM2, hB2, hwf.1, hchars, hw.1]
  · rw [hB2, hwf.2, hchars, hw.2]

theorem Internals.forward_then_back (E : Env) (i : Internals) (h0 : 0 ≤ i.H.Index)
    (h1 : i.H.Index < (i.H.Tmp.length : Int) - 1) (hw : i.Buf.WellFormed i.Mem)
    (hd : i.Buf.Decoded E i.Mem) :
    ((i.HistoryForward E).1.HistoryBack E).1.H.Index = i.H.Index ∧
    ((i.HistoryForward E).1.HistoryBack E).1.H.Saved = i.H.Saved ∧
    ((i.HistoryForward E).1.HistoryBack E).1.chars = i.chars ∧
    ((i.HistoryForward E).1.HistoryBack E).1.bytes = i.bytes ∧
    ((i.HistoryForward E).1.HistoryBack E).1.Buf.ColLen = i.Buf.ColLen := by
  obtain ⟨line1, _, hH1, hM1, hB1⟩ := Internals.HistoryForward_spec E i h0 h1
  have hidx : (i.HistoryForward E).1.H.Index = i.H.Index + 1 := by rw [hH1]
  have htmp : (i.HistoryForward E).1.H.Tmp
      = i.H.Tmp.set i.H.Index.toNat (i.Buf.String i.Mem) := by
    rw [hH1]
  have hsav : (i.HistoryForward E).1.H.Saved = i.H.Saved := by rw [hH1]
  obtain ⟨line2, hl2, hH2, hM2, hB2⟩ := Internals.HistoryBack_spec E (i.HistoryForward E).1
    (by rw [hidx]; omega) (by rw [hidx, htmp]; simp; omega)
  have hline : line2 = i.Buf.String i.Mem := by
    rw [hidx, htmp, listAt_eq _ _ (by omega) (by simp; omega)] at hl2
    have : (i.H.Index + 1 - 1).toNat = i.H.Index.toNat := by omega
    rw [this, List.getElem?_set_self (by omega)] at hl2
    exact (Option.some.inj hl2).symm
  subst hline
  have hchars := TextFromString_of_decoded E i.Mem (i.HistoryForward E).1.Mem i.Buf hw hd
  have hwf := (TextFromString_spec E (i.HistoryForward E).1.Mem (i.Buf.String i.Mem)).2.1
  refine ⟨by rw [hH2, hidx]; simp, by rw [hH2, hsav], ?_, ?_, ?_⟩
  · unfold Internals.chars
    rw [hM2, hB2, hchars]
  · unfold Internals.bytes
    rw [hM2, hB2, hwf.1, hchars, hw.1]
  · rw [hB2, hwf.2, hchars, hw.2]

/-- C9 as stated fails: in a state with `0 < Index < len(Tmp)`, `HistoryBack`
followed by `HistoryForward` does not restore the buffer's text when its bytes
are not valid UTF-8. After the keys `a`, `é`, Ctrl-T the bytes are C3 61 A9 and
come back as EF BF BD 61 EF BF BD; a well-formed buffer holding one character
with the byte FF comes back as EF BF BD. -/
theorem history_round_trip_counterexample :
    (runHistSwap.2 = none ∧ 0 < runHistSwap.1.H.Index ∧
      runHistSwap.1.H.Index < runHistSwap.1.H.Tmp.length ∧
      runHistSwap.1.bytes = [0xC3, 0x61, 0xA9] ∧
      ((runHistSwap.1.HistoryBack sampleEnv).1.HistoryForward sampleEnv).1.bytes
        = [0xEF, 0xBF, 0xBD, 0x61, 0xEF, 0xBF, 0xBD] ∧
      ((runHistSwap.1.HistoryBack sampleEnv).1.HistoryForward sampleEnv).1.bytes
        ≠ runHistSwap.1.bytes) ∧
    (runHistRaw.2 = none ∧ 0 < runHistRaw.1.H.Index ∧
      runHistRaw.1.H.Index < runHistRaw.1.H.Tmp.length ∧
      runHistRaw.1.Buf.WellFormed runHistRaw.1.Mem ∧
      runHistRaw.1.bytes = [0xFF] ∧
      ((runHistRaw.1.HistoryBack sampleEnv).1.HistoryForward sampleEnv).1.bytes
        = [0xEF, 0xBF, 0xBD] ∧
      ((runHistRaw.1.HistoryBack sampleEnv).1.HistoryForward sampleEnv).1.bytes
        ≠ runHistRaw.1.bytes) := by
  decide!

/-- C9, amended. In a state with `0 < Index < len(Tmp)`: `HistoryBack` stores the
buffer's bytes into `Tmp[Index]`, lowers `Index` by one and makes the buffer
`TextFromString(Tmp[Index-1])` (the characters of the decoded runes), leaving
`Saved` and the other entries of `Tmp` as they are; `HistoryForward`, when
`Index < len(Tmp) - 1`, does the same with `Index + 1`. If moreover the buffer is
well-formed and made of characters of scalar values (so that its bytes are valid
UTF-8), `HistoryBack` followed by `HistoryForward`, and `HistoryForward`
followed by `HistoryBack`, restore the index and the buffer's characters, bytes
and width. -/
theorem history_back_forward (E : Env) (i : Internals) (h0 : 0 < i.H.Index)
    (h1 : i.H.Index < i.H.Tmp.length) :
    (∃ line, listAt i.H.Tmp (i.H.Index - 1) = some line ∧
      (i.HistoryBack E).1.H
        = ⟨i.H.Saved, i.H.Tmp.set i.H.Index.toNat (i.Buf.String i.Mem), i.H.Index - 1⟩ ∧
      (i.HistoryBack E).1.Mem = (TextFromString E i.Mem line).1 ∧
      (i.HistoryBack E).1.Buf = (TextFromString E i.Mem line).2 ∧
      (i.HistoryBack E).1.chars = (decodeRunes line).map (CharFromRune E)) ∧
    (i.H.Index < (i.H.Tmp.length : Int) - 1 →
      ∃ line, listAt i.H.Tmp (i.H.Index + 1) = some line ∧
        (i.HistoryForward E).1.H
          = ⟨i.H.Saved, i.H.Tmp.set i.H.Index.toNat (i.Buf.String i.Mem), i.H.Index + 1⟩ ∧
        (i.HistoryForward E).1.Mem = (TextFromString E i.Mem line).1 ∧
        (i.HistoryForward E).1.Buf = (TextFromString E i.Mem line).2 ∧
        (i.HistoryForward E).1.chars = (decodeRunes line).map (CharFromRune E)) ∧
    (i.Buf.WellFormed i.Mem → i.Buf.Decoded E i.Mem →
      ((i.HistoryBack E).1.HistoryForward E).1.H.Index = i.H.Index ∧
      ((i.HistoryBack E).1.HistoryForward E).1.H.Saved = i.H.Saved ∧
      ((i.HistoryBack E).1.HistoryForward E).1.chars = i.chars ∧
      ((i.HistoryBack E).1.HistoryForward E).1.bytes = i.bytes ∧
      ((i.HistoryBack E).1.HistoryForward E).1.Buf.ColLen = i.Buf.ColLen) ∧
    (i.H.Index < (i.H.Tmp.length : Int) - 1 → i.Buf.WellFormed i.Mem → i.Buf.Decoded E i.Mem →
      ((i.HistoryForward E).1.HistoryBack E).1.H.Index = i.H.Index ∧
      ((i.HistoryForward E).1.HistoryBack E).1.H.Saved = i.H.Saved ∧
      ((i.HistoryForward E).1.HistoryBack E).1.chars = i.chars ∧
      ((i.HistoryForward E).1.HistoryBack E).1.bytes = i.bytes ∧
      ((i.HistoryForward E).1.HistoryBack E).1.Buf.ColLen = i.Buf.ColLen) := by
  refine ⟨?_, ?_, fun hw hd => Internals.back_then_forward E i h0 h1 hw hd,
    fun h2 hw hd => Internals.forward_then_back E i (by omega) h2 hw hd⟩
  · obtain ⟨line, hl, hH, hM, hB⟩ := Internals.HistoryBack_spec E i h0 h1
    refine ⟨line, hl, hH, hM, hB, ?_⟩
    unfold Internals.chars
    rw [hM, hB]
    exact (TextFromString_spec E i.Mem line).2.2
  · intro h2
    obtain ⟨line, hl, hH, hM, hB⟩ := Internals.HistoryForward_spec E i (by omega) h2
    refine ⟨line, hl, hH, hM, hB, ?_⟩
    unfold Internals.chars
    rw [hM, hB]
    exact (TextFromString_spec E i.Mem line).2.2

/-- C9 amended, at the state of a scanner with the history line `a` after the
key `x`: `HistoryBack` then `HistoryForward` shows `x` again. -/
theorem history_back_forward_witness :
    0 < runHistTypeX.1.H.Index ∧ runHistTypeX.1.H.Index < runHistTypeX.1.H.Tmp.length ∧
    runHistTypeX.1.Buf.WellFormed runHistTypeX.1.Mem ∧
    runHistTypeX.1.Buf.Decoded sampleEnv runHistTypeX.1.Mem ∧
    ((runHistTypeX.1.HistoryBack sampleEnv).1.HistoryForward sampleEnv).1.bytes
      = runHistTypeX.1.bytes :=
  ⟨by decide!, by decide!, by decide!, by decide!,
   ((history_back_forward sampleEnv runHistTypeX.1 (by decide!) (by decide!)).2.2.1
      (by decide!) (by decide!)).2.2.2.1⟩

theorem overwrite_nil {α : Type} (a : List α) (k : Nat) : overwrite a k [] = a := by
  simp [overwrite]

/-- The slice `t` shows the same elements after an append to `s` when it lies in
another array, ends before the written region, is empty, or `s` has no
capacity. -/
theorem Store.append_read_sep {α : Type} [Inhabited α] (g : Nat → Nat → Nat) {m : Store α}
    {s t : Slice} (hv : Slice.Valid m s) (ht : Slice.Valid m t) (xs : List α)
    (hsep : t.arr ≠ s.arr ∨ t.off + t.len ≤ s.off + s.len ∨ s.cap = 0 ∨ t.len = 0) :
    (m.append g s xs).1.read t = m.read t := by
  rcases hsep with h | h | h | h
  · exact Store.append_read_other g hv ht xs (Or.inl h)
  · exact Store.append_read_other g hv ht xs (Or.inr h)
  · unfold Store.append
    split
    · rename_i hfit
      have hx : xs = [] := by
        apply List.eq_nil_of_length_eq_zero; omega
      subst hx
      rw [overwrite_nil]
      apply Store.read_congr
      rcases Nat.lt_or_ge s.arr m.arrays.length with hlt | hge
      · by_cases hab : s.arr = t.arr
        · rw [← hab, Store.array_set_self m s.arr _ hlt]
        · rw [Store.array_set_ne m s.arr t.arr _ hab]
      · rw [List.set_eq_of_length_le hge]
    · exact Store.read_push ht _
  · rw [Store.read_of_len_zero _ _ h, Store.read_of_len_zero _ _ h]

theorem Store.append_arr {α : Type} [Inhabited α] (g : Nat → Nat → Nat) (m : Store α)
    (s : Slice) (xs : List α) :
    (m.append g s xs).2.arr = s.arr ∨ (m.append g s xs).2.arr = m.arrays.length := by
  unfold Store.append
  split
  · exact Or.inl rfl
  · exact Or.inr rfl

theorem Store.append_length_le {α : Type} [Inhabited α] (g : Nat → Nat → Nat) (m : Store α)
    (s : Slice) (xs : List α) :
    m.arrays.length ≤ (m.append g s xs).1.arrays.length := by
  unfold Store.append
  split
  · simp
  · simp

theorem Store.alloc_length {α : Type} (m : Store α) (xs : List α) :
    (m.alloc xs).1.arrays.length = m.arrays.length + 1 := by
  simp [Store.alloc]

theorem Store.alloc_arr {α : Type} (m : Store α) (xs : List α) :
    (m.alloc xs).2.arr = m.arrays.length := rfl

/-- A valid slice that shows something lies in an existing array. -/
theorem Slice.Valid.arr_lt_of_len {α : Type} {m : Store α} {s : Slice} (hv : Slice.Valid m s)
    (hl : 0 < s.len) : s.arr < m.arrays.length :=
  hv.arr_lt (by have := hv.1; omega)

/-- An old slice and a slice in a newer array are apart. -/
theorem sep_of_old {α : Type} {m : Store α} {s t : Slice} (ht : Slice.Valid m t)
    (hs : m.arrays.length ≤ s.arr) : t.arr ≠ s.arr ∨ t.len = 0 := by
  rcases Nat.eq_zero_or_pos t.len with h | h
  · exact Or.inr h
  · have := ht.arr_lt_of_len h
    exact Or.inl (by omega)

theorem sep_of_new {α : Type} {m : Store α} {s t : Slice} (hs : Slice.Valid m s)
    (ht : m.arrays.length ≤ t.arr) : t.arr ≠ s.arr ∨ s.cap = 0 := by
  rcases Nat.eq_zero_or_pos s.cap with h | h
  · exact Or.inr h
  · have := hs.arr_lt h
    exact Or.inl (by omega)

/-- `Clone` leaves every other valid text as it is. -/
theorem Text.Clone_frame (h : Heap) (t u : Text) (hu : u.Valid h) :
    u.Valid (t.Clone h).1 ∧ (t.Clone h).1.chars.read u.Chars = h.chars.read u.Chars ∧
    (t.Clone h).1.bytes.read u.Bytes = h.bytes.read u.Bytes :=
  ⟨⟨Store.alloc_valid_old hu.1 _, Store.alloc_valid_old hu.2 _⟩,
   Store.alloc_read_old hu.1 _, Store.alloc_read_old hu.2 _⟩

/-- `AppendText` leaves a valid text apart from the receiver as it is. -/
theorem Text.AppendText_frame (E : Env) (h : Heap) (t n u : Text) (ht : t.Valid h)
    (hu : u.Valid h)
    (hc : u.Chars.arr ≠ t.Chars.arr ∨ u.Chars.off + u.Chars.len ≤ t.Chars.off + t.Chars.len ∨
      t.Chars.cap = 0 ∨ u.Chars.len = 0)
    (hb : u.Bytes.arr ≠ t.Bytes.arr ∨ u.Bytes.off + u.Bytes.len ≤ t.Bytes.off + t.Bytes.len ∨
      t.Bytes.cap = 0 ∨ u.Bytes.len = 0) :
    u.Valid (t.AppendText E h n).1 ∧
    (t.AppendText E h n).1.chars.read u.Chars = h.chars.read u.Chars ∧
    (t.AppendText E h n).1.bytes.read u.Bytes = h.bytes.read u.Bytes :=
  ⟨⟨Store.append_valid_other _ ht.1 hu.1 _, Store.append_valid_other _ ht.2 hu.2 _⟩,
   Store.append_read_sep _ ht.1 hu.1 _ hc, Store.append_read_sep _ ht.2 hu.2 _ hb⟩

theorem prefixPos_zero (cs : List Char) : prefixPos cs 0 = Position.zero := by
  simp [prefixPos, Position.zero, concatP, sumCols]

theorem prefixPos_sub (cs : List Char) (k : Nat) (c : Char) (h : cs[k]? = some c) :
    (prefixPos cs (k + 1)).Subtract [c] = prefixPos cs k := by
  simp only [Position.Subtract, List.foldl, prefixPos, concatP_take_succ cs k c h,
    sumCols_take_succ cs k c h, List.length_append]
  congr 1
  · push_cast; omega
  · push_cast; omega
  · omega

theorem prefixPos_add (cs : List Char) (k : Nat) (c : Char) (h : cs[k]? = some c) :
    (prefixPos cs k).Add [c] = prefixPos cs (k + 1) := by
  simp only [Position.Add, List.foldl, prefixPos, concatP_take_succ cs k c h,
    sumCols_take_succ cs k c h, List.length_append]
  congr 1

/-- The loop of `CutPrevWord` from a prefix-sum position ends at a prefix-sum
position, strictly before when it starts after the beginning with the flag
clear. -/
theorem CutPrevWord.loop_spec (m : Store Char) (chars : Slice) (hv : Slice.Valid m chars) :
    ∀ fuel k seen, k ≤ fuel → k ≤ chars.len →
      ∃ q, q ≤ k ∧ (seen = false → 0 < k → q < k) ∧
        CutPrevWord.loop m chars fuel seen (prefixPos (m.read chars) k)
          = .done (prefixPos (m.read chars) q) := by
  intro fuel
  induction fuel with
  | zero =>
    intro k seen hk _
    have : k = 0 := by omega
    subst this
    refine ⟨0, Nat.le_refl _, fun _ h => absurd h (by omega), ?_⟩
    unfold CutPrevWord.loop
    simp [prefixPos]
  | succ f ih =>
    intro k seen hk hkl
    cases k with
    | zero =>
      refine ⟨0, Nat.le_refl _, fun _ h => absurd h (by omega), ?_⟩
      unfold CutPrevWord.loop
      simp [prefixPos]
    | succ k =>
      have hlen := Store.read_length hv
      obtain ⟨c, hc⟩ : ∃ c, (m.read chars)[k]? = some c :=
        ⟨_, List.getElem?_eq_getElem (by omega)⟩
      have hidx : m.index chars ((prefixPos (m.read chars) (k + 1)).Runes - 1)
          = some c := by
        have : (prefixPos (m.read chars) (k + 1)).Runes - 1 = (k : Int) := by
          simp [prefixPos]
        rw [this, Store.index_eq _ _ _ (by omega), hc]
      have hpos : (prefixPos (m.read chars) (k + 1)).Runes > 0 := by
        simp only [prefixPos]; omega
      unfold CutPrevWord.loop
      rw [if_pos hpos]
      simp only [hidx]
      rw [prefixPos_sub _ _ _ hc]
      by_cases hsp : IsSpace c.R = true
      · rw [if_pos hsp]
        cases seen with
        | true =>
          exact ⟨k + 1, Nat.le_refl _, fun h => Bool.noConfusion h, by simp⟩
        | false =>
          obtain ⟨q, hq, _, hl⟩ := ih k false (by omega) (by omega)
          refine ⟨q, by omega, fun _ _ => by omega, ?_⟩
          simp [hl]
      · rw [if_neg hsp]
        obtain ⟨q, hq, _, hl⟩ := ih k true (by omega) (by omega)
        exact ⟨q, by omega, fun _ _ => by omega, hl⟩

theorem Internals.Refresh_Mem (i : Internals) : i.Refresh.1.Mem = i.Mem :=
  (Internals.Refresh_fields i).1
theorem Internals.Refresh_H (i : Internals) : i.Refresh.1.H = i.H :=
  (Internals.Refresh_fields i).2.1
theorem Internals.Refresh_Prompt (i : Internals) : i.Refresh.1.Prompt = i.Prompt :=
  (Internals.Refresh_fields i).2.2.1
theorem Internals.Refresh_Cb (i : Internals) : i.Refresh.1.Cb = i.Cb :=
  (Internals.Refresh_fields i).2.2.2.1
theorem Internals.Refresh_Pos (i : Internals) : i.Refresh.1.Pos = i.Pos :=
  (Internals.Refresh_fields i).2.2.2.2.1
theorem Internals.Refresh_Cols (i : Internals) : i.Refresh.1.Cols = i.Cols :=
  (Internals.Refresh_fields i).2.2.2.2.2.1
theorem Internals.Refresh_Buf (i : Internals) : i.Refresh.1.Buf = i.Buf :=
  (Internals.Refresh_fields i).2.2.2.2.2.2.1
theorem Internals.Refresh_Stop (i : Internals) : i.Refresh.1.Stop = i.Stop :=
  (Internals.Refresh_fields i).2.2.2.2.2.2.2

theorem sep4_of_new {α : Type} {m : Store α} {s t : Slice} (hs : Slice.Valid m s)
    (ht : m.arrays.length ≤ t.arr) :
    t.arr ≠ s.arr ∨ t.off + t.len ≤ s.off + s.len ∨ s.cap = 0 ∨ t.len = 0 := by
  rcases sep_of_new hs ht with h | h
  · exact Or.inl h
  · exact Or.inr (Or.inr (Or.inl h))

theorem sep4_of_old {α : Type} {m : Store α} {s t : Slice} (ht : Slice.Valid m t)
    (hs : m.arrays.length ≤ s.arr) :
    t.arr ≠ s.arr ∨ t.off + t.len ≤ s.off + s.len ∨ s.cap = 0 ∨ t.len = 0 := by
  rcases sep_of_old ht hs with h | h
  · exact Or.inl h
  · exact Or.inr (Or.inr (Or.inr h))

/-- What `CutPrevWord` does from a valid cursor after the beginning: the cursor
moves to an earlier prefix-sum position `q`, the buffer loses the span `[q, p)`,
and the clipboard receives that span, before its former content when the flag
was set. -/
theorem Internals.CutPrevWord_spec (E : Env) (i : Internals) (p : Nat)
    (hv : i.Buf.Valid i.Mem) (hw : i.Buf.WellFormed i.Mem)
    (hp : i.Pos = prefixPos i.chars p) (hp0 : 0 < p) (hpl : p ≤ i.Buf.Chars.len)
    (hcv : i.Cb.Partial = true → i.Cb.Text.Valid i.Mem) :
    ∃ q, q < p ∧
      (i.CutPrevWord E).1.Pos = prefixPos i.chars q ∧
      (i.CutPrevWord E).1.chars = i.chars.take q ++ i.chars.drop p ∧
      (i.CutPrevWord E).1.Buf.Valid (i.CutPrevWord E).1.Mem ∧
      (i.CutPrevWord E).1.Buf.WellFormed (i.CutPrevWord E).1.Mem ∧
      (i.CutPrevWord E).1.Cb.Partial = true ∧
      (i.CutPrevWord E).1.Cb.Text.Valid (i.CutPrevWord E).1.Mem ∧
      (i.CutPrevWord E).1.Mem.chars.read (i.CutPrevWord E).1.Cb.Text.Chars
        = (i.chars.take p).drop q
            ++ (if i.Cb.Partial then i.Mem.chars.read i.Cb.Text.Chars else []) ∧
      (i.CutPrevWord E).1.Mem.bytes.read (i.CutPrevWord E).1.Cb.Text.Bytes
        = concatP ((i.chars.take p).drop q)
            ++ (if i.Cb.Partial then i.Mem.bytes.read i.Cb.Text.Bytes else []) ∧
      (i.CutPrevWord E).1.Cb.Text.ColLen
        = sumCols ((i.chars.take p).drop q) + (if i.Cb.Partial then i.Cb.Text.ColLen else 0) ∧
      (i.CutPrevWord E).1.H = i.H ∧ (i.CutPrevWord E).1.Prompt = i.Prompt ∧
      (i.CutPrevWord E).1.Cols = i.Cols ∧ (i.CutPrevWord E).1.Stop = i.Stop := by
  unfold Internals.chars at *
  obtain ⟨q, hq, hqlt, hloop⟩ :=
    CutPrevWord.loop_spec i.Mem.chars i.Buf.Chars hv.1 p p false (Nat.le_refl _) hpl
  have hqp : q < p := hqlt rfl hp0
  obtain ⟨cut, hcut, hcutc, hcutb, hcutw, hcutv⟩ :=
    Text.Slice_two_spec i.Mem i.Buf q p hv hw (Nat.le_of_lt hqp) hpl
  obtain ⟨head, hhead, hheadc, hheadb, hheadw, hheadv⟩ :=
    Text.Slice_two_spec i.Mem i.Buf 0 q hv hw (Nat.zero_le _) (by omega)
  obtain ⟨tail, htail, htailc, htailb, htailw, htailv⟩ :=
    Text.Slice_one_spec i.Mem i.Buf p hv hw hpl
  rw [prefixPos_zero] at hhead
  simp only [List.drop_zero] at hheadc hheadb hheadw
  have hRpos : i.Pos.Runes > 0 := by rw [hp]; simp only [prefixPos]; omega
  have hR : i.Pos.Runes.toNat = p := by rw [hp]; simp [prefixPos]
  refine ⟨q, hqp, ?_⟩
  unfold Internals.CutPrevWord
  rw [if_pos hRpos, hR]
  cases hpar : i.Cb.Partial
  · rw [hp, hloop]
    simp only [hcut, Bool.false_eq_true, if_false, hhead, htail, Internals.Refresh_Mem,
      Internals.Refresh_H, Internals.Refresh_Prompt, Internals.Refresh_Cb, Internals.Refresh_Pos,
      Internals.Refresh_Cols, Internals.Refresh_Buf, Internals.Refresh_Stop]
    obtain ⟨fhv, fhc, fhb⟩ := Text.Clone_frame i.Mem cut head hheadv
    obtain ⟨ftv, ftc, ftb⟩ := Text.Clone_frame i.Mem cut tail htailv
    have hclv := Text.Clone_valid i.Mem cut
    have hhw : head.WellFormed (cut.Clone i.Mem).1 :=
      Text.wf_of_reads _ _ _ (fhc.trans hheadc) (fhb.trans hheadb) hheadw
    have htw : tail.WellFormed (cut.Clone i.Mem).1 :=
      Text.wf_of_reads _ _ _ (ftc.trans htailc) (ftb.trans htailb) htailw
    obtain ⟨fcv, fcc, fcb⟩ := Text.AppendText_frame E (cut.Clone i.Mem).1 head tail
      (cut.Clone i.Mem).2 fhv hclv
      (sep4_of_new hheadv.1 (Nat.le_of_eq (Store.alloc_arr _ _).symm))
      (sep4_of_new hheadv.2 (Nat.le_of_eq (Store.alloc_arr _ _).symm))
    refine ⟨trivial, ?_, Text.AppendText_valid E _ head tail fhv,
      Text.AppendText_wf E _ head tail fhv hhw htw, trivial, fcv, ?_, ?_, ?_, trivial, trivial,
      trivial, trivial⟩
    · rw [Text.AppendText_chars E _ head tail fhv, fhc, ftc, hheadc, htailc]
    · rw [fcc, Text.Clone_chars, hcutc]; simp
    · rw [fcb, Text.Clone_bytes _ _ hcutv, hcutb]; simp
    · show cut.ColLen = _
      rw [hcutw]; simp
  · rw [hp, hloop]
    simp only [hcut, if_true, hhead, htail, Internals.Refresh_Mem,
      Internals.Refresh_H, Internals.Refresh_Prompt, Internals.Refresh_Cb, Internals.Refresh_Pos,
      Internals.Refresh_Cols, Internals.Refresh_Buf, Internals.Refresh_Stop]
    obtain ⟨fhv, fhc, fhb⟩ := Text.Clone_frame i.Mem cut head hheadv
    obtain ⟨ftv, ftc, ftb⟩ := Text.Clone_frame i.Mem cut tail htailv
    obtain ⟨fbv, fbc, fbb⟩ := Text.Clone_frame i.Mem cut i.Cb.Text (hcv hpar)
    have hclv := Text.Clone_valid i.Mem cut
    have hNc : i.Mem.chars.arrays.length ≤ (cut.Clone i.Mem).2.Chars.arr :=
      Nat.le_of_eq (Store.alloc_arr _ _).symm
    have hNb : i.Mem.bytes.arrays.length ≤ (cut.Clone i.Mem).2.Bytes.arr :=
      Nat.le_of_eq (Store.alloc_arr _ _).symm
    obtain ⟨ghv, ghc, ghb⟩ := Text.AppendText_frame E (cut.Clone i.Mem).1 (cut.Clone i.Mem).2
      i.Cb.Text head hclv fhv (sep4_of_old hheadv.1 hNc) (sep4_of_old hheadv.2 hNb)
    obtain ⟨gtv, gtc, gtb⟩ := Text.AppendText_frame E (cut.Clone i.Mem).1 (cut.Clone i.Mem).2
      i.Cb.Text tail hclv ftv (sep4_of_old htailv.1 hNc) (sep4_of_old htailv.2 hNb)
    have huv := Text.AppendText_valid E (cut.Clone i.Mem).1 (cut.Clone i.Mem).2 i.Cb.Text hclv
    have huc := Text.AppendText_chars E (cut.Clone i.Mem).1 (cut.Clone i.Mem).2 i.Cb.Text hclv
    have hub := Text.AppendText_bytes E (cut.Clone i.Mem).1 (cut.Clone i.Mem).2 i.Cb.Text hclv
    have hUc : i.Mem.chars.arrays.length
        ≤ ((cut.Clone i.Mem).2.AppendText E (cut.Clone i.Mem).1 i.Cb.Text).2.Chars.arr := by
      rcases Store.append_arr E.growChars (cut.Clone i.Mem).1.chars (cut.Clone i.Mem).2.Chars
        ((cut.Clone i.Mem).1.chars.read i.Cb.Text.Chars) with h | h
      · exact Nat.le_trans hNc (Nat.le_of_eq h.symm)
      · refine Nat.le_trans ?_ (Nat.le_of_eq h.symm)
        show _ ≤ (i.Mem.chars.alloc _).1.arrays.length
        rw [Store.alloc_length]; omega
    have hUb : i.Mem.bytes.arrays.length
        ≤ ((cut.Clone i.Mem).2.AppendText E (cut.Clone i.Mem).1 i.Cb.Text).2.Bytes.arr := by
      rcases Store.append_arr E.growBytes (cut.Clone i.Mem).1.bytes (cut.Clone i.Mem).2.Bytes
        ((cut.Clone i.Mem).1.bytes.read i.Cb.Text.Bytes) with h | h
      · exact Nat.le_trans hNb (Nat.le_of_eq h.symm)
      · refine Nat.le_trans ?_ (Nat.le_of_eq h.symm)
        show _ ≤ (i.Mem.bytes.alloc _).1.arrays.length
        rw [Store.alloc_length]; omega
    have hhw : head.WellFormed ((cut.Clone i.Mem).2.AppendText E (cut.Clone i.Mem).1 i.Cb.Text).1 :=
      Text.wf_of_reads _ _ _ (ghc.trans (fhc.trans hheadc)) (ghb.trans (fhb.trans hheadb)) hheadw
    have htw : tail.WellFormed ((cut.Clone i.Mem).2.AppendText E (cut.Clone i.Mem).1 i.Cb.Text).1 :=
      Text.wf_of_reads _ _ _ (gtc.trans (ftc.trans htailc)) (gtb.trans (ftb.trans htailb)) htailw
    obtain ⟨fcv, fcc, fcb⟩ := Text.AppendText_frame E
      ((cut.Clone i.Mem).2.AppendText E (cut.Clone i.Mem).1 i.Cb.Text).1 head tail
      ((cut.Clone i.Mem).2.AppendText E (cut.Clone i.Mem).1 i.Cb.Text).2 ghv huv
      (sep4_of_new hheadv.1 hUc) (sep4_of_new hheadv.2 hUb)
    refine ⟨trivial, ?_, Text.AppendText_valid E _ head tail ghv,
      Text.AppendText_wf E _ head tail ghv hhw htw, trivial, fcv, ?_, ?_, ?_, trivial, trivial,
      trivial, trivial⟩
    · rw [Text.AppendText_chars E _ head tail ghv, ghc, gtc, fhc, ftc, hheadc, htailc]
    · rw [fcc, huc, Text.Clone_chars, hcutc, fbc]
    · rw [fcb, hub, Text.Clone_bytes _ _ hcutv, hcutb, fbb]
    · show cut.ColLen + i.Cb.Text.ColLen = _
      rw [hcutw]
theorem DefaultKeymap_ctrlW :
    DefaultKeymap [0x17] = Binding.action (fun E i => i.CutPrevWord E) := by
  rfl

theorem getRune_ctrlW : getRune [0x17] = some 23 := by decide!

theorem IsPrint_ctrlW (E : Env) : IsPrint E 23 = false := by
  simp [IsPrint]

/-- The decoder on the key Ctrl-W with nothing accumulated: `CutPrevWord` runs,
the flag of the clipboard is not cleared, nothing stays accumulated. -/
theorem Scan.body_ctrlW (E : Env) (i : Internals) :
    Scan.body E DefaultKeymap i none [0x17]
      = match i.CutPrevWord E with
        | (i1, some sig) => ((i1, some sig), some [0x17])
        | (i1, none) => ((i1, none), none) := by
  unfold Scan.body
  simp only [getRune_ctrlW, IsPrint_ctrlW, isCompleteAnsiCode, DefaultKeymap_ctrlW]
  rcases hres : i.CutPrevWord E with ⟨i1, _ | sig⟩
  · simp
  · simp

theorem prefixPos_congr (cs cs2 : List Char) (k : Nat) (h : cs2.take k = cs.take k) :
    prefixPos cs2 k = prefixPos cs k := by
  simp [prefixPos, h]

theorem take_take_append_drop {α : Type} (l : List α) (q p : Nat) (hq : q ≤ l.length) :
    (l.take q ++ l.drop p).take q = l.take q := by
  rw [List.take_append_of_le_length (by simp [List.length_take]; omega), List.take_take,
    Nat.min_self]

theorem drop_take_split {α : Type} (l : List α) (q2 q1 p : Nat) (h1 : q2 ≤ q1) (h2 : q1 ≤ p)
    (h3 : p ≤ l.length) :
    (l.take p).drop q2 = (l.take q1).drop q2 ++ (l.take p).drop q1 := by
  have e : l.take q1 = (l.take p).take q1 := by
    rw [List.take_take, Nat.min_eq_left h2]
  rw [e]
  conv => lhs; rw [← List.take_append_drop q1 (l.take p)]
  rw [List.drop_append_of_le_length (by simp [List.length_take]; omega)]

/-- C10. Consecutive word cuts merge newest-first. In a well-formed state with
the clipboard's flag clear and the cursor at the prefix-sum position of rune
index `p > 0`, feed the key Ctrl-W (0x17) twice to the decoder with the default
key map, the first key being processed without a panic and leaving the cursor
after the beginning. Then the cursor is at index `q1 < p` after the first key
and at `q2 < q1` after the second; the clipboard holds the span cut second
followed by the span cut first, which is the span `[q2, p)` of the original
buffer, in characters, bytes and width; and the flag is set. -/
theorem consecutive_word_cuts_merge (E : Env) (i : Internals) (p : Nat)
    (hv : i.Buf.Valid i.Mem) (hw : i.Buf.WellFormed i.Mem) (hpar : i.Cb.Partial = false)
    (hp : i.Pos = prefixPos i.chars p) (hp0 : 0 < p) (hpl : p ≤ i.Buf.Chars.len)
    (h1 : (Scan.body E DefaultKeymap i none [0x17]).1.2 = none)
    (hc : 0 < (Scan.body E DefaultKeymap i none [0x17]).1.1.Pos.Runes) :
    ∃ q1 q2, q2 < q1 ∧ q1 < p ∧
      (Scan.body E DefaultKeymap i none [0x17]).1.1.Pos = prefixPos i.chars q1 ∧
      (afterTwoCuts E i).Pos = prefixPos i.chars q2 ∧
      (afterTwoCuts E i).Cb.Partial = true ∧
      (afterTwoCuts E i).Mem.chars.read (afterTwoCuts E i).Cb.Text.Chars
        = (i.chars.take q1).drop q2 ++ (i.chars.take p).drop q1 ∧
      (afterTwoCuts E i).Mem.chars.read (afterTwoCuts E i).Cb.Text.Chars
        = (i.chars.take p).drop q2 ∧
      (afterTwoCuts E i).Mem.bytes.read (afterTwoCuts E i).Cb.Text.Bytes
        = concatP ((i.chars.take p).drop q2) ∧
      (afterTwoCuts E i).Cb.Text.ColLen = sumCols ((i.chars.take p).drop q2) := by
  have hlen : i.chars.length = i.Buf.Chars.len := Store.read_length hv.1
  obtain ⟨q1, hq1, a1, a2, a3, a4, a5, a6, a7, a8, a9, _⟩ :=
    Internals.CutPrevWord_spec E i p hv hw hp hp0 hpl (fun h => by rw [hpar] at h; cases h)
  simp only [hpar, Bool.false_eq_true, if_false, List.append_nil, add_zero] at a7 a8 a9
  have hb1 : Scan.body E DefaultKeymap i none [0x17] = (((i.CutPrevWord E).1, none), none) := by
    have hb := Scan.body_ctrlW E i
    rcases hres : i.CutPrevWord E with ⟨i1, _ | sig⟩
    · rw [hres] at hb; exact hb
    · rw [hres] at hb
      rw [hb] at h1
      cases h1
  rw [hb1] at hc
  simp only at hc
  have hq0 : 0 < q1 := by
    rw [a1] at hc
    simp only [prefixPos] at hc
    omega
  have hlen1 : (i.CutPrevWord E).1.chars.length = (i.CutPrevWord E).1.Buf.Chars.len :=
    Store.read_length a3.1
  have hql : q1 ≤ (i.CutPrevWord E).1.Buf.Chars.len := by
    rw [← hlen1, a2]
    simp [List.length_take]
    omega
  have htk : (i.CutPrevWord E).1.chars.take q1 = i.chars.take q1 := by
    rw [a2]
    exact take_take_append_drop _ _ _ (by omega)
  have hp1 : (i.CutPrevWord E).1.Pos = prefixPos (i.CutPrevWord E).1.chars q1 := by
    rw [a1]
    exact (prefixPos_congr _ _ _ htk).symm
  obtain ⟨q2, hq2, b1, _, _, _, b5, _, b7, b8, b9, _⟩ :=
    Internals.CutPrevWord_spec E (i.CutPrevWord E).1 q1 a3 a4 hp1 hq0 hql (fun _ => a6)
  simp only [a5, if_true, htk, a7, a8, a9] at b7 b8 b9
  have hb2 : afterTwoCuts E i = ((i.CutPrevWord E).1.CutPrevWord E).1 := by
    unfold afterTwoCuts
    rw [hb1]
    simp only
    rw [Scan.body_ctrlW]
    rcases hres : (i.CutPrevWord E).1.CutPrevWord E with ⟨i2, _ | sig⟩ <;> simp
  have htk2 : (i.CutPrevWord E).1.chars.take q2 = i.chars.take q2 := by
    have := congrArg (List.take q2) htk
    rw [List.take_take, List.take_take, Nat.min_eq_left (Nat.le_of_lt hq2)] at this
    exact this
  have hsplit := drop_take_split i.chars q2 q1 p (Nat.le_of_lt hq2) (Nat.le_of_lt hq1)
    (by omega)
  refine ⟨q1, q2, hq2, hq1, ?_, ?_, ?_, ?_, ?_, ?_, ?_⟩
  · rw [hb1]; exact a1
  · rw [hb2, b1]; exact prefixPos_congr _ _ _ htk2
  · rw [hb2]; exact b5
  · rw [hb2]; exact b7
  · rw [hb2, b7, hsplit]
  · rw [hb2, b8, hsplit, concatP_append]
  · rw [hb2, b9, hsplit, sumCols_append]

/-- C10, at the buffer `foo bar ` with the cursor at its end: the clipboard ends
as `foo bar `. -/
theorem consecutive_word_cuts_merge_witness :
    runFooBar.1.Buf.Valid runFooBar.1.Mem ∧ runFooBar.1.Buf.WellFormed runFooBar.1.Mem ∧
    runFooBar.1.Cb.Partial = false ∧ runFooBar.1.Pos = prefixPos runFooBar.1.chars 8 ∧
    (Scan.body sampleEnv DefaultKeymap runFooBar.1 none [0x17]).1.2 = none ∧
    0 < (Scan.body sampleEnv DefaultKeymap runFooBar.1 none [0x17]).1.1.Pos.Runes ∧
    (afterTwoCuts sampleEnv runFooBar.1).Mem.bytes.read
        (afterTwoCuts sampleEnv runFooBar.1).Cb.Text.Bytes
      = [0x66, 0x6F, 0x6F, 0x20, 0x62, 0x61, 0x72, 0x20] ∧
    (∃ q1 q2, q2 < q1 ∧ q1 < 8 ∧
      (Scan.body sampleEnv DefaultKeymap runFooBar.1 none [0x17]).1.1.Pos
        = prefixPos runFooBar.1.chars q1 ∧
      (afterTwoCuts sampleEnv runFooBar.1).Pos = prefixPos runFooBar.1.chars q2 ∧
      (afterTwoCuts sampleEnv runFooBar.1).Cb.Partial = true ∧
      (afterTwoCuts sampleEnv runFooBar.1).Mem.chars.read
          (afterTwoCuts sampleEnv runFooBar.1).Cb.Text.Chars
        = (runFooBar.1.chars.take q1).drop q2 ++ (runFooBar.1.chars.take 8).drop q1 ∧
      (afterTwoCuts sampleEnv runFooBar.1).Mem.chars.read
          (afterTwoCuts sampleEnv runFooBar.1).Cb.Text.Chars
        = (runFooBar.1.chars.take 8).drop q2 ∧
      (afterTwoCuts sampleEnv runFooBar.1).Mem.bytes.read
          (afterTwoCuts sampleEnv runFooBar.1).Cb.Text.Bytes
        = concatP ((runFooBar.1.chars.take 8).drop q2) ∧
      (afterTwoCuts sampleEnv runFooBar.1).Cb.Text.ColLen
        = sumCols ((runFooBar.1.chars.take 8).drop q2)) :=
  ⟨by decide!, by decide!, by decide!, by decide!, by decide!, by decide!, by decide!,
   consecutive_word_cuts_merge sampleEnv runFooBar.1 8 (by decide!) (by decide!) (by decide!)
     (by decide!) (by decide!) (by decide!) (by decide!) (by decide!)⟩

/-! ## The decoder and the key map -/

/-- C11, evaluated where it fails. After the keys `a`, Ctrl-W, `b` the decoder
has processed the printable `b`, which is none of the three cut keys, and the
clipboard's flag is still set; a following Ctrl-W merges: the clipboard is `ba`
instead of `b`. With a command key in between (Ctrl-B, Ctrl-F) the flag is
cleared and the second cut replaces the clipboard. -/
theorem fast_path_keeps_partial :
    (runCutType.2 = none ∧ runCutType.1.bytes = [0x62] ∧ runCutType.1.Cb.Partial = true) ∧
    (runCutTypeCut.2 = none ∧
      runCutTypeCut.1.Mem.bytes.read runCutTypeCut.1.Cb.Text.Bytes = [0x62, 0x61]) ∧
    (runCutMoveCut.2 = none ∧
      runCutMoveCut.1.Mem.bytes.read runCutMoveCut.1.Cb.Text.Bytes = [0x62]) := by
  decide!

/-- C12, evaluated where it fails. Of the keys the default map binds to an
action, exactly ESC `[1;3D` and ESC `[1;3C` have a proper prefix without a nil
entry: ESC `[1` is absent. Fed to the decoder after `a b`, meta-left runs no
action (nothing is redrawn) and inserts `;3D` at the cursor, where
`MoveWordLeft` would move the cursor to rune index 2; meta-right after Ctrl-A
inserts `;3C`. ESC `b` does move the cursor to rune index 2. -/
theorem meta_arrows_unreachable :
    (defaultBound.all (fun k => (DefaultKeymap k).isAction) = true ∧
      defaultBound.filter (fun k => !prefixesPending DefaultKeymap k)
        = [ansi.META_LEFT, ansi.META_RIGHT] ∧
      (DefaultKeymap [0x1B, 0x5B]).isPending = true ∧
      (DefaultKeymap [0x1B, 0x5B, 0x31]).isAbsent = true) ∧
    (runASpaceB.2 = none ∧ runMetaLeft.2 = none ∧
      runMetaLeft.1.bytes = [0x61, 0x20, 0x62, 0x3B, 0x33, 0x44] ∧
      runMetaLeft.1.Pos = ⟨6, 6, 6⟩ ∧
      runMetaLeft.1.Output = runASpaceB.1.Output ++ [.raw [0x3B], .raw [0x33], .raw [0x44]] ∧
      runASpaceB.1.MoveWordLeft.2 = none ∧ runASpaceB.1.MoveWordLeft.1.Pos = ⟨2, 2, 2⟩ ∧
      runASpaceB.1.MoveWordLeft.1.bytes = [0x61, 0x20, 0x62]) ∧
    (runMetaRight.2 = none ∧
      runMetaRight.1.bytes = [0x3B, 0x33, 0x43, 0x61, 0x20, 0x62] ∧
      runMetaRight.1.Pos = ⟨3, 3, 3⟩) ∧
    (runMetaB.2 = none ∧ runMetaB.1.bytes = [0x61, 0x20, 0x62] ∧
      runMetaB.1.Pos = ⟨2, 2, 2⟩) := by
  decide!

/-! ## Insert then remove -/

theorem take_insert_mid {α : Type} (l : List α) (k : Nat) (c : α) (hk : k ≤ l.length) :
    (l.take k ++ [c] ++ l.drop k).take k = l.take k := by
  rw [List.append_assoc, List.take_append_of_le_length (by simp [List.length_take]; omega),
    List.take_take, Nat.min_self]

theorem drop_insert_mid {α : Type} (l : List α) (k : Nat) (c : α) (hk : k ≤ l.length) :
    (l.take k ++ [c] ++ l.drop k).drop (k + 1) = l.drop k := by
  have h1 : (l.take k ++ [c]).length = k + 1 := by
    simp [List.length_take]; omega
  rw [← h1, List.drop_left]

theorem getElem?_insert_mid {α : Type} (l : List α) (k : Nat) (c : α) (hk : k ≤ l.length) :
    (l.take k ++ [c] ++ l.drop k)[k]? = some c := by
  have h1 : (l.take k).length = k := by
    simp [List.length_take]; omega
  rw [List.append_assoc, List.getElem?_append_right (by omega), h1]
  simp

/-- C13. Insert/remove round trip on Text: for a well-formed Text `t` (with
valid slice headers), a prefix-sum position `pos` of `t` and a Char `c`,
`t.InsertCharAt(pos, c)` returns, `RemoveCharAt(pos)` on the result returns, and
the Text obtained has the characters, the bytes and the width of `t`. -/
theorem insert_remove_round_trip (E : Env) (h : Heap) (t : Text) (pos : Position) (c : Char)
    (hv : t.Valid h) (hw : t.WellFormed h) (hp : pos.At h t) :
    ∃ r s, t.InsertCharAt h pos c = some r ∧ r.2.RemoveCharAt E r.1 pos = some s ∧
      s.1.chars.read s.2.Chars = h.chars.read t.Chars ∧
      s.1.bytes.read s.2.Bytes = h.bytes.read t.Bytes ∧
      s.2.ColLen = t.ColLen := by
  obtain ⟨he, hk, _⟩ := hp.eq
  have hlen : (h.chars.read t.Chars).length = t.Chars.len := Store.read_length hv.1
  have hkl : pos.Runes.toNat ≤ (h.chars.read t.Chars).length := by omega
  have hins := Text.InsertCharAt_eq h t c pos.Runes.toNat hv hw hk
  rw [← he] at hins
  obtain ⟨r, hr, hrw⟩ := Text.InsertCharAt_wf h t c pos hv hw hp
  have hrc : r.1.chars.read r.2.Chars
      = (h.chars.read t.Chars).take pos.Runes.toNat ++ [c]
          ++ (h.chars.read t.Chars).drop pos.Runes.toNat := by
    rw [hins] at hr
    rw [← Option.some.inj hr]
    exact Store.alloc_read _ _
  have hrv : r.2.Valid r.1 := by
    rw [hins] at hr
    rw [← Option.some.inj hr]
    exact ⟨Store.alloc_valid _ _, Store.alloc_valid _ _⟩
  have hrl : r.2.ColLen = t.ColLen + c.ColLen := by
    rw [hins] at hr
    rw [← Option.some.inj hr]
  have hc : (r.1.chars.read r.2.Chars)[pos.Runes.toNat]? = some c := by
    rw [hrc]
    exact getElem?_insert_mid _ _ _ hkl
  obtain ⟨s, hs, hsc, hsb, hsl, _⟩ :=
    Text.RemoveCharAt_spec E r.1 r.2 pos.Runes.toNat c hrv hrw hc
  have hpos : prefixPos (r.1.chars.read r.2.Chars) pos.Runes.toNat = pos := by
    rw [prefixPos_congr (h.chars.read t.Chars) (r.1.chars.read r.2.Chars) pos.Runes.toNat
      (by rw [hrc]; exact take_insert_mid _ _ _ hkl)]
    exact he.symm
  rw [hpos] at hs
  rw [hrc, take_insert_mid _ _ _ hkl, drop_insert_mid _ _ _ hkl] at hsc hsb
  refine ⟨r, s, hr, hs, ?_, ?_, ?_⟩
  · rw [hsc, List.take_append_drop]
  · rw [hsb, hw.1, ← concatP_append, List.take_append_drop]
  · rw [hsl, hrl]
    omega

/-- C13, at the text `aéb`, the position after `a` and the character `x`. -/
theorem insert_remove_round_trip_witness :
    exText.Valid exHeap ∧ exText.WellFormed exHeap ∧ exPos1.At exHeap exText ∧
    (∃ r s, exText.InsertCharAt exHeap exPos1 exCharX = some r ∧
      r.2.RemoveCharAt sampleEnv r.1 exPos1 = some s ∧
      s.1.chars.read s.2.Chars = exHeap.chars.read exText.Chars ∧
      s.1.bytes.read s.2.Bytes = exHeap.bytes.read exText.Bytes ∧
      s.2.ColLen = exText.ColLen) :=
  ⟨by decide!, by decide!, by decide!,
   insert_remove_round_trip sampleEnv exHeap exText exPos1 exCharX
     (by decide!) (by decide!) (by decide!)⟩

/-! ## Cut and paste -/

/-- C14, evaluated where it fails. After the keys `x`, space, `y`, `z`, Ctrl-B,
Ctrl-W the state is well-formed, the buffer is `x z` with the cursor at rune
index 2, the clipboard is `y` with the flag set. `CutLineLeft` then leaves the
clipboard `x y`, the cursor at zero and the flag set, as claimed, but the buffer
is `y` and not the tail `z`: the cut span is a slice of the buffer's own array
and appending the clipboard to it overwrites the tail. With the flag clear (keys
`a`, `b`, Ctrl-B) the clipboard is `a` and the buffer is the tail `b`. -/
theorem cutLineLeft_overwrites_tail :
    (runCutWord.2 = none ∧ runCutWord.1.Buf.Valid runCutWord.1.Mem ∧
      runCutWord.1.Buf.WellFormed runCutWord.1.Mem ∧
      runCutWord.1.Cb.Text.Valid runCutWord.1.Mem ∧
      runCutWord.1.Cb.Text.WellFormed runCutWord.1.Mem ∧
      runCutWord.1.Pos.At runCutWord.1.Mem runCutWord.1.Buf ∧ runCutWord.1.Pos.Runes = 2 ∧
      runCutWord.1.bytes = [0x78, 0x20, 0x7A] ∧ runCutWord.1.Cb.Partial = true ∧
      runCutWord.1.Mem.bytes.read runCutWord.1.Cb.Text.Bytes = [0x79]) ∧
    ((runCutWord.1.CutLineLeft sampleEnv).2 = none ∧
      (runCutWord.1.CutLineLeft sampleEnv).1.Mem.bytes.read
          (runCutWord.1.CutLineLeft sampleEnv).1.Cb.Text.Bytes = [0x78, 0x20, 0x79] ∧
      (runCutWord.1.CutLineLeft sampleEnv).1.Pos = Position.zero ∧
      (runCutWord.1.CutLineLeft sampleEnv).1.Cb.Partial = true ∧
      (runCutWord.1.CutLineLeft sampleEnv).1.bytes = [0x79] ∧
      (runCutWord.1.CutLineLeft sampleEnv).1.chars = [CharFromRune sampleEnv 0x79] ∧
      runCutWord.1.chars.drop 2 = [CharFromRune sampleEnv 0x7A]) ∧
    (runABLeft.2 = none ∧ runABLeft.1.Cb.Partial = false ∧
      (runABLeft.1.CutLineLeft sampleEnv).2 = none ∧
      (runABLeft.1.CutLineLeft sampleEnv).1.Mem.bytes.read
          (runABLeft.1.CutLineLeft sampleEnv).1.Cb.Text.Bytes = [0x61] ∧
      (runABLeft.1.CutLineLeft sampleEnv).1.bytes = [0x62] ∧
      (runABLeft.1.CutLineLeft sampleEnv).1.Pos = Position.zero ∧
      (runABLeft.1.CutLineLeft sampleEnv).1.Cb.Partial = false) := by
  decide!

/-! ## Refresh -/

theorem Position.Subtract_append (pos : Position) (l1 l2 : List Char) :
    pos.Subtract (l1 ++ l2) = (pos.Subtract l1).Subtract l2 := by
  simp [Position.Subtract, List.foldl_append]

theorem Position.Subtract_columns (l : List Char) :
    ∀ pos : Position, (pos.Subtract l).Columns = pos.Columns - sumCols l := by
  induction l with
  | nil => intro pos; simp [Position.Subtract, sumCols]
  | cons c l ih =>
    intro pos
    have h := ih ⟨pos.Bytes - c.P.length, pos.Runes - 1, pos.Columns - c.ColLen⟩
    simp only [Position.Subtract, List.foldl_cons, sumCols] at h ⊢
    rw [h]
    omega

theorem Position.Subtract_nil (pos : Position) : pos.Subtract [] = pos := by
  simp [Position.Subtract]

/-- The first loop of `Refresh`, started after `k` characters have been trimmed
with the cursor at rune index `p`, ends after `k2 ≤ p` characters, `k2` being the
first count at which the cursor column fits. -/
theorem Refresh.trimLeft_spec (m : Store Char) (chars : Slice) (hv : Slice.Valid m chars)
    (P W : Int) (pos : Position) (x : Int) (p : Nat)
    (hp : pos.Columns = sumCols ((m.read chars).take p)) (hpl : p ≤ chars.len) (hPW : P < W) :
    ∀ fuel k, k ≤ p → p - k ≤ fuel →
      ∃ k2, k ≤ k2 ∧ k2 ≤ p ∧
        Refresh.trimLeft m chars P W fuel
            (pos.Subtract ((m.read chars).take k), prefixPos (m.read chars) k,
              x - sumCols ((m.read chars).take k))
          = .done (pos.Subtract ((m.read chars).take k2), prefixPos (m.read chars) k2,
              x - sumCols ((m.read chars).take k2)) ∧
        P + (pos.Columns - sumCols ((m.read chars).take k2)) < W ∧
        (∀ j, k ≤ j → j < k2 → P + (pos.Columns - sumCols ((m.read chars).take j)) ≥ W) := by
  have hlen := Store.read_length hv
  intro fuel
  induction fuel with
  | zero =>
    intro k hk hf
    have hkp : k = p := by omega
    subst hkp
    refine ⟨k, Nat.le_refl _, Nat.le_refl _, ?_, by omega, fun j h1 h2 => absurd h2 (by omega)⟩
    unfold Refresh.trimLeft
    rw [if_neg]
    simp only [Position.Subtract_columns]
    omega
  | succ f ih =>
    intro k hk hf
    by_cases hcond : P + (pos.Columns - sumCols ((m.read chars).take k)) ≥ W
    · have hkp : k < p := by
        by_contra hge
        have hkp : k = p := by omega
        rw [hkp, hp] at hcond
        omega
      obtain ⟨c, hc⟩ : ∃ c, (m.read chars)[k]? = some c :=
        ⟨_, List.getElem?_eq_getElem (by omega)⟩
      obtain ⟨k2, h1, h2, h3, h4, h5⟩ := ih (k + 1) (by omega) (by omega)
      refine ⟨k2, by omega, h2, ?_, h4, ?_⟩
      · unfold Refresh.trimLeft
        rw [if_pos (by simp only [Position.Subtract_columns]; exact hcond)]
        have hidx : m.index chars (prefixPos (m.read chars) k).Runes = some c := by
          show m.index chars (k : Int) = some c
          rw [Store.index_eq _ _ _ (by omega), hc]
        simp only [hidx]
        rw [← Position.Subtract_append, ← take_succ_of_getElem? _ _ _ hc,
          prefixPos_add _ _ _ hc, sub_sub, ← sumCols_take_succ _ _ _ hc]
        exact h3
      · intro j hj1 hj2
        by_cases hjk : j = k
        · rw [hjk]; exact hcond
        · exact h5 j (by omega) hj2
    · refine ⟨k, Nat.le_refl _, hk, ?_, by omega, fun j h1 h2 => absurd h2 (by omega)⟩
      unfold Refresh.trimLeft
      rw [if_neg (by simp only [Position.Subtract_columns]; exact hcond)]

/-- The second loop of `Refresh`, started at rune index `j`, ends at the first
index `j3 ≥ j` whose prefix width reaches the width of the buffer. -/
theorem Refresh.toEnd_spec (m : Store Char) (chars : Slice) (hv : Slice.Valid m chars)
    (L : Int) (hL : L = sumCols (m.read chars)) :
    ∀ fuel j, j ≤ chars.len → chars.len - j ≤ fuel →
      ∃ j3, j ≤ j3 ∧ j3 ≤ chars.len ∧
        Refresh.toEnd m chars L fuel (prefixPos (m.read chars) j)
          = .done (prefixPos (m.read chars) j3) ∧
        L ≤ sumCols ((m.read chars).take j3) ∧
        (∀ t, j ≤ t → t < j3 → sumCols ((m.read chars).take t) < L) := by
  have hlen := Store.read_length hv
  have hfull : sumCols ((m.read chars).take chars.len) = L := by
    rw [hL, ← hlen, List.take_length]
  intro fuel
  induction fuel with
  | zero =>
    intro j hj hf
    have hjl : j = chars.len := by omega
    subst hjl
    refine ⟨chars.len, Nat.le_refl _, Nat.le_refl _, ?_, by omega,
      fun t h1 h2 => absurd h2 (by omega)⟩
    unfold Refresh.toEnd
    rw [if_neg]
    show ¬ sumCols ((m.read chars).take chars.len) < L
    omega
  | succ f ih =>
    intro j hj hf
    by_cases hcond : sumCols ((m.read chars).take j) < L
    · have hjl : j < chars.len := by
        by_contra hge
        have hjl : j = chars.len := by omega
        rw [hjl] at hcond
        omega
      obtain ⟨c, hc⟩ : ∃ c, (m.read chars)[j]? = some c :=
        ⟨_, List.getElem?_eq_getElem (by omega)⟩
      obtain ⟨j3, h1, h2, h3, h4, h5⟩ := ih (j + 1) (by omega) (by omega)
      refine ⟨j3, by omega, h2, ?_, h4, ?_⟩
      · unfold Refresh.toEnd
        rw [if_pos (show (prefixPos (m.read chars) j).Columns < L from hcond)]
        have hidx : m.index chars (prefixPos (m.read chars) j).Runes = some c := by
          show m.index chars (j : Int) = some c
          rw [Store.index_eq _ _ _ (by omega), hc]
        simp only [hidx]
        rw [prefixPos_add _ _ _ hc]
        exact h3
      · intro t ht1 ht2
        by_cases htj : t = j
        · rw [htj]; exact hcond
        · exact h5 t (by omega) ht2
    · refine ⟨j, Nat.le_refl _, hj, ?_, by omega, fun t h1 h2 => absurd h2 (by omega)⟩
      unfold Refresh.toEnd
      rw [if_neg (show ¬ (prefixPos (m.read chars) j).Columns < L from hcond)]

/-- The third loop of `Refresh`, started at rune index `j` with
`x = D + width of the first j characters`, ends at the largest index `j2 ≤ j` at
which the trailing edge fits; it does not pass below an index `kmin` at which the
edge fits. -/
theorem Refresh.trimRight_spec (m : Store Char) (chars : Slice) (hv : Slice.Valid m chars)
    (P W D : Int) (kmin : Nat)
    (hstop : P + (D + sumCols ((m.read chars).take kmin)) < W) :
    ∀ fuel j, kmin ≤ j → j ≤ chars.len → j - kmin ≤ fuel →
      ∃ j2, kmin ≤ j2 ∧ j2 ≤ j ∧
        Refresh.trimRight m chars P W fuel
            (prefixPos (m.read chars) j, D + sumCols ((m.read chars).take j))
          = .done (prefixPos (m.read chars) j2, D + sumCols ((m.read chars).take j2)) ∧
        P + (D + sumCols ((m.read chars).take j2)) < W ∧
        (∀ t, j2 < t → t ≤ j → P + (D + sumCols ((m.read chars).take t)) ≥ W) := by
  have hlen := Store.read_length hv
  intro fuel
  induction fuel with
  | zero =>
    intro j hj hjl hf
    have hjk : j = kmin := by omega
    subst hjk
    refine ⟨j, Nat.le_refl _, Nat.le_refl _, ?_, hstop, fun t h1 h2 => absurd h2 (by omega)⟩
    unfold Refresh.trimRight
    rw [if_neg (show ¬ P + (D + sumCols ((m.read chars).take j)) ≥ W by omega)]
  | succ f ih =>
    intro j hj hjl hf
    by_cases hcond : P + (D + sumCols ((m.read chars).take j)) ≥ W
    · have hjk : kmin < j := by
        by_contra hge
        have hjk : j = kmin := by omega
        rw [hjk] at hcond
        omega
      obtain ⟨j1, hj1⟩ : ∃ j1, j = j1 + 1 := ⟨j - 1, by omega⟩
      subst hj1
      obtain ⟨c, hc⟩ : ∃ c, (m.read chars)[j1]? = some c :=
        ⟨_, List.getElem?_eq_getElem (by omega)⟩
      obtain ⟨j2, h1, h2, h3, h4, h5⟩ := ih j1 (by omega) (by omega) (by omega)
      refine ⟨j2, h1, by omega, ?_, h4, ?_⟩
      · unfold Refresh.trimRight
        rw [if_pos hcond]
        have hidx : m.index chars ((prefixPos (m.read chars) (j1 + 1)).Runes - 1) = some c := by
          have : (prefixPos (m.read chars) (j1 + 1)).Runes - 1 = (j1 : Int) := by
            simp [prefixPos]
          rw [this, Store.index_eq _ _ _ (by omega), hc]
        simp only [hidx]
        rw [prefixPos_sub _ _ _ hc]
        have hx : D + sumCols ((m.read chars).take (j1 + 1)) - c.ColLen
            = D + sumCols ((m.read chars).take j1) := by
          rw [sumCols_take_succ _ _ _ hc]
          omega
        rw [hx]
        exact h3
      · intro t ht1 ht2
        by_cases htj : t = j1 + 1
        · rw [htj]; exact hcond
        · exact h5 t ht1 (by omega)
    · refine ⟨j, hj, Nat.le_refl _, ?_, by omega, fun t h1 h2 => absurd h2 (by omega)⟩
      unfold Refresh.trimRight
      rw [if_neg hcond]

/-- What `Refresh` does when the prompt is narrower than the terminal, on a
well-formed buffer with the cursor column at the prefix width of index `p`:
it returns after one write. `k` characters are trimmed on the left, `k ≤ p` being
the first count at which the cursor column fits; `j3` is the first index from
`k` on whose prefix width reaches the width of the buffer; the window ends at
`j`, the largest index up to `j3` at which the trailing edge fits. -/
theorem Internals.Refresh_spec (i : Internals) (p : Nat)
    (hv : i.Buf.Valid i.Mem) (hw : i.Buf.WellFormed i.Mem)
    (hp : i.Pos.Columns = sumCols (i.chars.take p)) (hpl : p ≤ i.Buf.Chars.len)
    (hPW : i.Prompt.ColLen < i.Cols) :
    ∃ k j3 j vis, k ≤ p ∧ k ≤ j ∧ j ≤ j3 ∧ j3 ≤ i.Buf.Chars.len ∧
      i.Buf.Slice [prefixPos i.chars k, prefixPos i.chars j] = some vis ∧
      i.Mem.bytes.read vis.Bytes = concatP ((i.chars.take j).drop k) ∧
      i.Refresh = (i.write (.redraw (i.Mem.bytes.read i.Prompt.Bytes)
          (i.Mem.bytes.read vis.Bytes)
          (i.Prompt.ColLen + (i.Pos.Columns - sumCols (i.chars.take k)))), none) ∧
      i.Prompt.ColLen + (i.Pos.Columns - sumCols (i.chars.take k)) < i.Cols ∧
      (∀ t, t < k → i.Prompt.ColLen + (i.Pos.Columns - sumCols (i.chars.take t)) ≥ i.Cols) ∧
      i.Buf.ColLen ≤ sumCols (i.chars.take j3) ∧
      (∀ t, k ≤ t → t < j3 → sumCols (i.chars.take t) < i.Buf.ColLen) ∧
      i.Prompt.ColLen + (i.Buf.ColLen - sumCols (i.chars.take k) - sumCols (i.chars.take j3)
          + sumCols (i.chars.take j)) < i.Cols ∧
      (∀ t, j < t → t ≤ j3 →
        i.Prompt.ColLen + (i.Buf.ColLen - sumCols (i.chars.take k) - sumCols (i.chars.take j3)
          + sumCols (i.chars.take t)) ≥ i.Cols) := by
  unfold Internals.chars at *
  obtain ⟨k, _, hk2, hl1, hfit1, hmin1⟩ :=
    Refresh.trimLeft_spec i.Mem.chars i.Buf.Chars hv.1 i.Prompt.ColLen i.Cols i.Pos i.Buf.ColLen
      p hp hpl hPW (i.Buf.Chars.len + 1) 0 (Nat.zero_le _) (by omega)
  rw [prefixPos_zero] at hl1
  simp only [List.take_zero, Position.Subtract_nil, sumCols, sub_zero] at hl1
  obtain ⟨j3, hkj3, hj3l, hl2, hreach, hbelow⟩ :=
    Refresh.toEnd_spec i.Mem.chars i.Buf.Chars hv.1 i.Buf.ColLen hw.2 (i.Buf.Chars.len + 1) k
      (by omega) (by omega)
  have hstop : i.Prompt.ColLen + ((i.Buf.ColLen - sumCols ((i.Mem.chars.read i.Buf.Chars).take k)
      - sumCols ((i.Mem.chars.read i.Buf.Chars).take j3))
      + sumCols ((i.Mem.chars.read i.Buf.Chars).take k)) < i.Cols := by omega
  obtain ⟨j, hkj, hjj3, hl3, hfit3, hmin3⟩ :=
    Refresh.trimRight_spec i.Mem.chars i.Buf.Chars hv.1 i.Prompt.ColLen i.Cols
      (i.Buf.ColLen - sumCols ((i.Mem.chars.read i.Buf.Chars).take k)
        - sumCols ((i.Mem.chars.read i.Buf.Chars).take j3)) k hstop
      (i.Buf.Chars.len + 1) j3 hkj3 hj3l (by omega)
  have hx : i.Buf.ColLen - sumCols ((i.Mem.chars.read i.Buf.Chars).take k)
        - sumCols ((i.Mem.chars.read i.Buf.Chars).take j3)
        + sumCols ((i.Mem.chars.read i.Buf.Chars).take j3)
      = i.Buf.ColLen - sumCols ((i.Mem.chars.read i.Buf.Chars).take k) := by omega
  rw [hx] at hl3
  obtain ⟨vis, hs, _, hvb, _, _⟩ :=
    Text.Slice_two_spec i.Mem i.Buf k j hv hw hkj (by omega)
  refine ⟨k, j3, j, vis, hk2, hkj, hjj3, hj3l, hs, hvb, ?_, hfit1,
    fun t ht => hmin1 t (Nat.zero_le _) ht, hreach, hbelow, hfit3, hmin3⟩
  unfold Internals.Refresh
  rw [hl1]
  simp only
  rw [hl2]
  simp only
  rw [hl3]
  simp only
  rw [hs]
  simp only [Position.Subtract_columns]

theorem sumCols_nonneg (l : List Char) (h : ∀ c ∈ l, 0 ≤ c.ColLen) : 0 ≤ sumCols l := by
  induction l with
  | nil => simp [sumCols]
  | cons c l ih =>
    have h1 := h c (List.mem_cons_self _ _)
    have h2 := ih (fun d hd => h d (List.mem_cons_of_mem _ hd))
    simp only [sumCols]
    omega

theorem sumCols_take_mono (cs : List Char) (h : ∀ c ∈ cs, 0 ≤ c.ColLen) (a b : Nat)
    (hab : a ≤ b) : sumCols (cs.take a) ≤ sumCols (cs.take b) := by
  have h1 := sumCols_split (cs.take b) a
  rw [List.take_take, Nat.min_eq_left hab] at h1
  have h2 : 0 ≤ sumCols ((cs.take b).drop a) :=
    sumCols_nonneg _ (fun c hc => h c (List.mem_of_mem_take (List.mem_of_mem_drop hc)))
  omega

theorem sumCols_take_le (cs : List Char) (h : ∀ c ∈ cs, 0 ≤ c.ColLen) (a : Nat) :
    sumCols (cs.take a) ≤ sumCols cs := by
  have h1 := sumCols_split cs a
  have h2 : 0 ≤ sumCols (cs.drop a) :=
    sumCols_nonneg _ (fun c hc => h c (List.mem_of_mem_drop hc))
  omega

/-- C19 as stated fails on a character of negative width. With the history line
of one tab, Ctrl-P makes the buffer that tab (width -1) with the cursor at its
end; the state is well-formed, the cursor valid, the prompt narrower than the
terminal. `Refresh` writes an empty window and the forward count 1, and no pair
of prefix-sum positions satisfies the claim. -/
theorem refresh_window_counterexample :
    runTabHistory.2 = none ∧ runTabHistory.1.Buf.Valid runTabHistory.1.Mem ∧
    runTabHistory.1.Buf.WellFormed runTabHistory.1.Mem ∧
    runTabHistory.1.Pos.At runTabHistory.1.Mem runTabHistory.1.Buf ∧
    runTabHistory.1.Prompt.ColLen < runTabHistory.1.Cols ∧
    runTabHistory.1.bytes = [0x09] ∧ runTabHistory.1.Pos = ⟨1, 1, -1⟩ ∧
    runTabHistory.1.Refresh
      = (runTabHistory.1.write (.redraw [0x3E, 0x20] [] 1), none) ∧
    ¬ Refresh.Window runTabHistory.1 := by
  decide!

/-- C19, amended. For a well-formed state with a valid cursor, a prompt narrower
than the terminal and no character of negative width in the buffer, `Refresh`
returns after one write, and what it writes between the prompt and
erase-to-end-of-line is `Buf.Slice(a, b)` for two prefix-sum positions `a ≤ b`
of the buffer with `a.Columns ≤ Pos.Columns ≤ b.Columns`,
`Prompt.ColLen + (Pos.Columns - a.Columns) < Cols` and
`Prompt.ColLen + (b.Columns - a.Columns) < Cols`; the forward count written is
`Prompt.ColLen + Pos.Columns - a.Columns`. -/
theorem refresh_window (i : Internals)
    (hv : i.Buf.Valid i.Mem) (hw : i.Buf.WellFormed i.Mem) (hp : i.Pos.At i.Mem i.Buf)
    (hPW : i.Prompt.ColLen < i.Cols) (hnn : ∀ c ∈ i.chars, 0 ≤ c.ColLen) :
    Refresh.Window i := by
  obtain ⟨he, hpl, _⟩ := hp.eq
  have hcol : i.Pos.Columns = sumCols (i.chars.take i.Pos.Runes.toNat) :=
    congrArg Position.Columns he
  obtain ⟨k, j3, j, vis, hkp, hkj, hjj3, hj3l, hs, _, hR, hfit1, _, hreach, _, hfit3, hmin3⟩ :=
    Internals.Refresh_spec i i.Pos.Runes.toNat hv hw hcol hpl hPW
  have hlen : i.chars.length = i.Buf.Chars.len := Store.read_length hv.1
  have htot : sumCols i.chars = i.Buf.ColLen := hw.2.symm
  have m1 := sumCols_take_mono i.chars hnn k i.Pos.Runes.toNat hkp
  have m2 := sumCols_take_le i.chars hnn j3
  have m3 := sumCols_take_le i.chars hnn i.Pos.Runes.toNat
  have hin : i.Pos.Columns ≤ sumCols (i.chars.take j) := by
    rcases Nat.lt_or_ge j i.Pos.Runes.toNat with hlt | hge
    · rcases Nat.lt_or_ge j3 i.Pos.Runes.toNat with hlt3 | hge3
      · have m5 := sumCols_take_mono i.chars hnn j3 i.Pos.Runes.toNat (Nat.le_of_lt hlt3)
        rcases Nat.lt_or_ge j j3 with hjlt | hjge
        · have := hmin3 j3 hjlt (Nat.le_refl _)
          omega
        · have hj : j = j3 := by omega
          rw [hj]
          omega
      · have := hmin3 i.Pos.Runes.toNat hlt hge3
        omega
    · have := sumCols_take_mono i.chars hnn i.Pos.Runes.toNat j hge
      omega
  refine ⟨k, List.mem_range.mpr (by omega), j, List.mem_range.mpr (by omega), hkj,
    by omega, ?_, ?_, ?_, ?_, ?_⟩
  · show sumCols (i.chars.take k) ≤ i.Pos.Columns
    omega
  · exact hin
  · exact hfit1
  · show i.Prompt.ColLen + (sumCols (i.chars.take j) - sumCols (i.chars.take k)) < i.Cols
    omega
  · rw [hs, hR]
    rfl

/-- C19 amended, at the state after the keys `a`, U+0301: the window of
`Refresh` exists. -/
theorem refresh_window_witness :
    runAccent.1.Buf.Valid runAccent.1.Mem ∧ runAccent.1.Buf.WellFormed runAccent.1.Mem ∧
    runAccent.1.Pos.At runAccent.1.Mem runAccent.1.Buf ∧
    runAccent.1.Prompt.ColLen < runAccent.1.Cols ∧
    (∀ c ∈ runAccent.1.chars, 0 ≤ c.ColLen) ∧
    Refresh.Window runAccent.1 :=
  ⟨by decide!, by decide!, by decide!, by decide!, by decide!,
   refresh_window runAccent.1 (by decide!) (by decide!) (by decide!) (by decide!)
     (by decide!)⟩

/-- When the line fits and no character has negative width, `Refresh` writes the
buffer up to the first index whose prefix width is the width of the buffer, and
the whole buffer when no shorter prefix has that width. -/
theorem Internals.Refresh_fits (i : Internals)
    (hv : i.Buf.Valid i.Mem) (hw : i.Buf.WellFormed i.Mem) (hp : i.Pos.At i.Mem i.Buf)
    (hfit : i.Prompt.ColLen + i.Buf.ColLen < i.Cols) (hnn : ∀ c ∈ i.chars, 0 ≤ c.ColLen) :
    ∃ j3, j3 ≤ i.Buf.Chars.len ∧
      sumCols (i.chars.take j3) = i.Buf.ColLen ∧
      (∀ t, t < j3 → sumCols (i.chars.take t) < i.Buf.ColLen) ∧
      i.Refresh = (i.write (.redraw (i.Mem.bytes.read i.Prompt.Bytes)
          (concatP (i.chars.take j3)) (i.Prompt.ColLen + i.Pos.Columns)), none) ∧
      ((∀ t, t < i.Buf.Chars.len → sumCols (i.chars.take t) < i.Buf.ColLen) →
        i.Refresh = (i.write (.redraw (i.Mem.bytes.read i.Prompt.Bytes) i.bytes
          (i.Prompt.ColLen + i.Pos.Columns)), none)) := by
  obtain ⟨he, hpl, _⟩ := hp.eq
  have hcol : i.Pos.Columns = sumCols (i.chars.take i.Pos.Runes.toNat) :=
    congrArg Position.Columns he
  have hlen : i.chars.length = i.Buf.Chars.len := Store.read_length hv.1
  have htot : sumCols i.chars = i.Buf.ColLen := hw.2.symm
  have m0 : 0 ≤ sumCols i.chars := sumCols_nonneg _ hnn
  have m3 := sumCols_take_le i.chars hnn i.Pos.Runes.toNat
  obtain ⟨k, j3, j, vis, hkp, hkj, hjj3, hj3l, hs, hvb, hR, hfit1, hmin1, hreach, hbelow, hfit3,
    hmin3⟩ := Internals.Refresh_spec i i.Pos.Runes.toNat hv hw hcol hpl (by omega)
  have m2 := sumCols_take_le i.chars hnn j3
  have hk0 : k = 0 := by
    by_contra hne
    have := hmin1 0 (by omega)
    simp only [List.take_zero, sumCols] at this
    omega
  subst hk0
  have hj : j = j3 := by
    rcases Nat.lt_or_ge j j3 with hlt | hge
    · have := hmin3 j3 hlt (Nat.le_refl _)
      simp only [List.take_zero, sumCols] at this
      omega
    · omega
  subst hj
  simp only [List.take_zero, sumCols, sub_zero, List.drop_zero] at hR hvb
  rw [hvb] at hR
  refine ⟨j, hj3l, by omega, fun t ht => hbelow t (Nat.zero_le _) ht, hR, ?_⟩
  intro hall
  have hjl : j = i.Buf.Chars.len := by
    rcases Nat.lt_or_ge j i.Buf.Chars.len with hlt | hge
    · have := hall j hlt
      omega
    · omega
  rw [hR, hjl, ← hlen, List.take_length]
  unfold Internals.bytes
  rw [hw.1]
  rfl

/-- C20, evaluated where it fails. After the keys `a`, U+0301 the state is
well-formed, the cursor is at the end and the line fits (prompt 2 columns, buffer
1 column, terminal 80 columns); the buffer's bytes are 61 CC 81 and `Refresh`
writes only 61 between the prompt and erase-to-end-of-line: the second loop of
`Refresh` stops as soon as the width of the buffer is reached, before the
zero-width character at the end. Ctrl-L writes just that. After the keys `a`,
`b` the whole buffer is written. -/
theorem refresh_drops_trailing_zero_width :
    (runAccent.2 = none ∧ runAccent.1.Buf.Valid runAccent.1.Mem ∧
      runAccent.1.Buf.WellFormed runAccent.1.Mem ∧
      runAccent.1.Pos.At runAccent.1.Mem runAccent.1.Buf ∧
      runAccent.1.Prompt.ColLen + runAccent.1.Buf.ColLen < runAccent.1.Cols ∧
      runAccent.1.chars.map Char.ColLen = [1, 0] ∧
      runAccent.1.bytes = [0x61, 0xCC, 0x81] ∧
      runAccent.1.Refresh = (runAccent.1.write (.redraw [0x3E, 0x20] [0x61] 3), none)) ∧
    (runAccentClear.2 = none ∧
      runAccentClear.1.Output
        = runAccent.1.Output ++ [.clearScreen, .redraw [0x3E, 0x20] [0x61] 3]) ∧
    (runAB.2 = none ∧ runAB.1.bytes = [0x61, 0x62] ∧
      runAB.1.Refresh = (runAB.1.write (.redraw [0x3E, 0x20] [0x61, 0x62] 4), none)) := by
  decide!

theorem Position.Add_eq (l : List Char) :
    ∀ pos : Position, pos.Add l
      = ⟨pos.Bytes + (concatP l).length, pos.Runes + l.length, pos.Columns + sumCols l⟩ := by
  induction l with
  | nil => intro pos; simp [Position.Add, concatP, sumCols]
  | cons c l ih =>
    intro pos
    have h := ih ⟨pos.Bytes + c.P.length, pos.Runes + 1, pos.Columns + c.ColLen⟩
    simp only [Position.Add, List.foldl_cons] at h ⊢
    rw [h]
    simp only [concatP, sumCols, List.length_append, List.length_cons, Nat.cast_add,
      Nat.cast_one, Position.mk.injEq]
    omega

/-- What `InsertTextAt` returns at the prefix-sum position of index `k`: a text
in two fresh arrays, and every text valid before reads as before. -/
theorem Text.InsertTextAt_spec (h : Heap) (t n : Text) (k : Nat)
    (hv : t.Valid h) (hw : t.WellFormed h) (hnv : n.Valid h) (hnw : n.WellFormed h)
    (hk : k ≤ t.Chars.len) :
    ∃ r, t.InsertTextAt h (prefixPos (h.chars.read t.Chars) k) n = some r ∧
      r.1.chars.read r.2.Chars
        = (h.chars.read t.Chars).take k ++ h.chars.read n.Chars ++ (h.chars.read t.Chars).drop k ∧
      r.2.Valid r.1 ∧ r.2.WellFormed r.1 ∧
      (∀ u : Text, u.Valid h → u.Valid r.1 ∧ r.1.chars.read u.Chars = h.chars.read u.Chars ∧
        r.1.bytes.read u.Bytes = h.bytes.read u.Bytes) := by
  refine ⟨_, Text.InsertTextAt_eq h t n k hv hw hnv hk, Store.alloc_read _ _,
    ⟨Store.alloc_valid _ _, Store.alloc_valid _ _⟩, ?_, ?_⟩
  · apply Text.wf_of_reads _ _ _ (Store.alloc_read _ _)
    · show (h.bytes.alloc _).1.read (h.bytes.alloc _).2 = _
      rw [Store.alloc_read, hnw.1]
      simp [concatP_append]
    · show t.ColLen + n.ColLen = _
      rw [hw.2, hnw.2]
      have := sumCols_split (h.chars.read t.Chars) k
      simp only [sumCols_append]
      omega
  · intro u hu
    exact ⟨⟨Store.alloc_valid_old hu.1 _, Store.alloc_valid_old hu.2 _⟩,
      Store.alloc_read_old hu.1 _, Store.alloc_read_old hu.2 _⟩

theorem take_insert_list {α : Type} (l m : List α) (k : Nat) (hk : k ≤ l.length) :
    (l.take k ++ m ++ l.drop k).take (k + m.length) = l.take k ++ m := by
  have h1 : (l.take k ++ m).length = k + m.length := by
    simp [List.length_take]; omega
  rw [← h1, List.take_left]

theorem drop_insert_list {α : Type} (l m : List α) (k : Nat) (hk : k ≤ l.length) :
    (l.take k ++ m ++ l.drop k).drop (k + m.length) = l.drop k := by
  have h1 : (l.take k ++ m).length = k + m.length := by
    simp [List.length_take]; omega
  rw [← h1, List.drop_left]

/-- `Refresh` returns when the prompt is narrower than the terminal, the buffer
is well-formed and the cursor column is a prefix width of the buffer. -/
theorem Internals.Refresh_ok (i : Internals) (p : Nat)
    (hv : i.Buf.Valid i.Mem) (hw : i.Buf.WellFormed i.Mem)
    (hp : i.Pos.Columns = sumCols (i.chars.take p)) (hpl : p ≤ i.Buf.Chars.len)
    (hPW : i.Prompt.ColLen < i.Cols) : i.Refresh.2 = none := by
  obtain ⟨_, _, _, _, _, _, _, _, _, _, hR, _⟩ := Internals.Refresh_spec i p hv hw hp hpl hPW
  rw [hR]

/-- What `Paste` does on a well-formed state with a valid cursor at rune index
`p` and a well-formed clipboard. -/
theorem Internals.Paste_spec (i : Internals) (p : Nat)
    (hv : i.Buf.Valid i.Mem) (hw : i.Buf.WellFormed i.Mem)
    (hcv : i.Cb.Text.Valid i.Mem) (hcw : i.Cb.Text.WellFormed i.Mem)
    (hp : i.Pos = prefixPos i.chars p) (hpl : p ≤ i.Buf.Chars.len) :
    i.Paste.1.chars = i.chars.take p ++ i.Mem.chars.read i.Cb.Text.Chars ++ i.chars.drop p ∧
    i.Paste.1.Buf.Valid i.Paste.1.Mem ∧ i.Paste.1.Buf.WellFormed i.Paste.1.Mem ∧
    i.Paste.1.Pos = prefixPos i.Paste.1.chars (p + i.Cb.Text.Chars.len) ∧
    p + i.Cb.Text.Chars.len ≤ i.Paste.1.Buf.Chars.len ∧
    i.Paste.1.Pos = ⟨i.Pos.Bytes + i.Cb.Text.Bytes.len, i.Pos.Runes + i.Cb.Text.Chars.len,
      i.Pos.Columns + i.Cb.Text.ColLen⟩ ∧
    i.Paste.1.Cb = i.Cb ∧ i.Cb.Text.Valid i.Paste.1.Mem ∧
    i.Paste.1.Mem.chars.read i.Cb.Text.Chars = i.Mem.chars.read i.Cb.Text.Chars ∧
    i.Paste.1.Mem.bytes.read i.Cb.Text.Bytes = i.Mem.bytes.read i.Cb.Text.Bytes ∧
    i.Paste.1.H = i.H ∧ i.Paste.1.Prompt = i.Prompt ∧ i.Paste.1.Cols = i.Cols ∧
    i.Paste.1.Stop = i.Stop ∧
    (i.Prompt.ColLen < i.Cols → i.Paste.2 = none) := by
  unfold Internals.chars at *
  have hlen : (i.Mem.chars.read i.Buf.Chars).length = i.Buf.Chars.len := Store.read_length hv.1
  have hclen : (i.Mem.chars.read i.Cb.Text.Chars).length = i.Cb.Text.Chars.len :=
    Store.read_length hcv.1
  have hblen : (i.Mem.bytes.read i.Cb.Text.Bytes).length = i.Cb.Text.Bytes.len :=
    Store.read_length hcv.2
  obtain ⟨r, hr, hrc, hrv, hrw, hfr⟩ :=
    Text.InsertTextAt_spec i.Mem i.Buf i.Cb.Text p hv hw hcv hcw hpl
  obtain ⟨fcv, fcc, fcb⟩ := hfr i.Cb.Text hcv
  rw [← hp] at hr
  have hP : i.Paste
      = ({ i with Mem := r.1, Buf := r.2,
                  Pos := i.Pos.Add (r.1.chars.read i.Cb.Text.Chars) } : Internals).Refresh := by
    unfold Internals.Paste
    rw [hr]
  have hpos : i.Pos.Add (r.1.chars.read i.Cb.Text.Chars)
      = prefixPos (r.1.chars.read r.2.Chars) (p + i.Cb.Text.Chars.len) := by
    rw [fcc, Position.Add_eq, hp, hrc, ← hclen]
    simp only [prefixPos]
    rw [take_insert_list _ _ _ (by omega), concatP_append, sumCols_append]
    simp
  have hrl : (r.1.chars.read r.2.Chars).length = r.2.Chars.len := Store.read_length hrv.1
  have hple : p + i.Cb.Text.Chars.len ≤ r.2.Chars.len := by
    rw [← hrl, hrc]
    simp [List.length_take]
    omega
  rw [hP]
  simp only [Internals.Refresh_Mem, Internals.Refresh_H, Internals.Refresh_Prompt,
    Internals.Refresh_Cb, Internals.Refresh_Pos, Internals.Refresh_Cols, Internals.Refresh_Buf,
    Internals.Refresh_Stop]
  refine ⟨hrc, hrv, hrw, hpos, hple, ?_, trivial, fcv, fcc, fcb, trivial, trivial, trivial,
    trivial, ?_⟩
  · rw [fcc, Position.Add_eq, hclen, ← hblen, hcw.1, hcw.2]
  · intro hPW
    exact Internals.Refresh_ok
      ({ i with Mem := r.1, Buf := r.2,
                Pos := i.Pos.Add (r.1.chars.read i.Cb.Text.Chars) } : Internals)
      (p + i.Cb.Text.Chars.len) hrv hrw (congrArg Position.Columns hpos) hple hPW

/-- After `n` calls of `Paste` the buffer holds `n` copies of the clipboard at
the original cursor. -/
theorem pasteTimes_spec : ∀ (n : Nat) (i : Internals) (p : Nat),
    i.Buf.Valid i.Mem → i.Buf.WellFormed i.Mem →
    i.Cb.Text.Valid i.Mem → i.Cb.Text.WellFormed i.Mem →
    i.Pos = prefixPos i.chars p → p ≤ i.Buf.Chars.len →
    (pasteTimes n i).chars
      = i.chars.take p ++ (List.replicate n (i.Mem.chars.read i.Cb.Text.Chars)).flatten
          ++ i.chars.drop p ∧
    (pasteTimes n i).Cb = i.Cb := by
  intro n
  induction n with
  | zero =>
    intro i p _ _ _ _ _ _
    simp [pasteTimes]
  | succ n ih =>
    intro i p hv hw hcv hcw hp hpl
    obtain ⟨a1, a2, a3, a4, a5, _, a7, a8, a9, a10, _⟩ :=
      Internals.Paste_spec i p hv hw hcv hcw hp hpl
    have hlen : i.chars.length = i.Buf.Chars.len := Store.read_length hv.1
    have hclen : (i.Mem.chars.read i.Cb.Text.Chars).length = i.Cb.Text.Chars.len :=
      Store.read_length hcv.1
    have hcw2 : i.Paste.1.Cb.Text.WellFormed i.Paste.1.Mem := by
      rw [a7]
      exact Text.wf_of_reads _ _ _ a9 (by rw [a10, hcw.1]) hcw.2
    have hcv2 : i.Paste.1.Cb.Text.Valid i.Paste.1.Mem := by
      rw [a7]; exact a8
    have a4b : i.Paste.1.Pos = prefixPos i.Paste.1.chars (p + i.Cb.Text.Chars.len) := a4
    obtain ⟨b1, b2⟩ := ih i.Paste.1 (p + i.Cb.Text.Chars.len) a2 a3 hcv2 hcw2 a4b a5
    refine ⟨?_, b2.trans a7⟩
    show (pasteTimes n i.Paste.1).chars = _
    rw [b1, a7, a9, a1, ← hclen, take_insert_list _ _ _ (by omega),
      drop_insert_list _ _ _ (by omega)]
    simp [List.replicate_succ]

/-- C15. Paste: on a well-formed state with a valid cursor at rune index `p` and
a well-formed clipboard text `cb`, after `Paste` the buffer is
`Buf[0,p) ++ cb ++ Buf[p,end)` and well-formed, the cursor is the prefix-sum
position of the new buffer at rune index `p + len(cb.Chars)`, which is the old
cursor advanced by the rune, byte and column counts of `cb`, and the clipboard
(text and flag) is as before; `n` successive calls insert `n` copies of `cb`.
`Paste` returns when the prompt is narrower than the terminal. -/
theorem paste_inserts_clipboard (i : Internals) (p : Nat)
    (hv : i.Buf.Valid i.Mem) (hw : i.Buf.WellFormed i.Mem)
    (hcv : i.Cb.Text.Valid i.Mem) (hcw : i.Cb.Text.WellFormed i.Mem)
    (hp : i.Pos = prefixPos i.chars p) (hpl : p ≤ i.Buf.Chars.len) :
    i.Paste.1.chars = i.chars.take p ++ i.Mem.chars.read i.Cb.Text.Chars ++ i.chars.drop p ∧
    i.Paste.1.Buf.WellFormed i.Paste.1.Mem ∧
    i.Paste.1.Pos = prefixPos i.Paste.1.chars (p + i.Cb.Text.Chars.len) ∧
    p + i.Cb.Text.Chars.len ≤ i.Paste.1.Buf.Chars.len ∧
    i.Paste.1.Pos = ⟨i.Pos.Bytes + i.Cb.Text.Bytes.len, i.Pos.Runes + i.Cb.Text.Chars.len,
      i.Pos.Columns + i.Cb.Text.ColLen⟩ ∧
    i.Paste.1.Cb = i.Cb ∧
    i.Paste.1.Mem.chars.read i.Paste.1.Cb.Text.Chars = i.Mem.chars.read i.Cb.Text.Chars ∧
    i.Paste.1.Mem.bytes.read i.Paste.1.Cb.Text.Bytes = i.Mem.bytes.read i.Cb.Text.Bytes ∧
    (i.Prompt.ColLen < i.Cols → i.Paste.2 = none) ∧
    (∀ n, (pasteTimes n i).chars
      = i.chars.take p ++ (List.replicate n (i.Mem.chars.read i.Cb.Text.Chars)).flatten
          ++ i.chars.drop p) := by
  obtain ⟨a1, _, a3, a4, a5, a6, a7, _, a9, a10, _, _, _, _, a15⟩ :=
    Internals.Paste_spec i p hv hw hcv hcw hp hpl
  refine ⟨a1, a3, a4, a5, a6, a7, ?_, ?_, a15,
    fun n => (pasteTimes_spec n i p hv hw hcv hcw hp hpl).1⟩
  · rw [a7]; exact a9
  · rw [a7]; exact a10

/-- C15, at the state after the keys `x`, space, `y`, `z`, Ctrl-B, Ctrl-W
(buffer `x z`, cursor at rune index 2, clipboard `y`): `Paste` gives `x yz`. -/
theorem paste_inserts_clipboard_witness :
    runCutWord.1.Buf.Valid runCutWord.1.Mem ∧ runCutWord.1.Buf.WellFormed runCutWord.1.Mem ∧
    runCutWord.1.Cb.Text.Valid runCutWord.1.Mem ∧
    runCutWord.1.Cb.Text.WellFormed runCutWord.1.Mem ∧
    runCutWord.1.Pos = prefixPos runCutWord.1.chars 2 ∧ 2 ≤ runCutWord.1.Buf.Chars.len ∧
    runCutWord.1.Paste.1.bytes = [0x78, 0x20, 0x79, 0x7A] ∧
    runCutWord.1.Paste.1.chars
      = runCutWord.1.chars.take 2
          ++ runCutWord.1.Mem.chars.read runCutWord.1.Cb.Text.Chars
          ++ runCutWord.1.chars.drop 2 :=
  ⟨by decide!, by decide!, by decide!, by decide!, by decide!, by decide!, by decide!,
   (paste_inserts_clipboard runCutWord.1 2 (by decide!) (by decide!) (by decide!) (by decide!)
      (by decide!) (by decide!)).1⟩

/-! ## Word motion -/

/-- The loop of `MoveWordLeft` from the prefix-sum position of index `k` ends at
the prefix-sum position of an index `q ≤ k`: the characters of `[mid, k)` are
spaces, those of `[q, mid)` are not, and the loop stopped at the beginning or
after a space. -/
theorem MoveWordLeft.loop_left_spec (m : Store Char) (chars : Slice) (hv : Slice.Valid m chars) :
    ∀ k seen, k ≤ chars.len →
      ∃ q mid, q ≤ mid ∧ mid ≤ k ∧
        MoveWordLeft.loop m chars k seen (prefixPos (m.read chars) k)
          = .done (prefixPos (m.read chars) q) ∧
        (seen = true → mid = k) ∧
        (∀ t c, (m.read chars)[t]? = some c → q ≤ t → t < mid → IsSpace c.R = false) ∧
        (∀ t c, (m.read chars)[t]? = some c → mid ≤ t → t < k → IsSpace c.R = true) ∧
        (q = 0 ∨ ∃ c, (m.read chars)[q - 1]? = some c ∧ IsSpace c.R = true ∧
          (seen = true ∨ q < mid)) := by
  have hlen := Store.read_length hv
  intro k
  induction k with
  | zero =>
    intro seen _
    refine ⟨0, 0, Nat.le_refl _, Nat.le_refl _, ?_, fun _ => rfl,
      fun t c _ _ h => absurd h (by omega), fun t c _ _ h => absurd h (by omega), Or.inl rfl⟩
    unfold MoveWordLeft.loop
    rfl
  | succ k ih =>
    intro seen hk
    obtain ⟨c, hc⟩ : ∃ c, (m.read chars)[k]? = some c :=
      ⟨_, List.getElem?_eq_getElem (by omega)⟩
    have hidx : m.index chars (k : Int) = some c := by
      rw [Store.index_eq _ _ _ (by omega), hc]
    unfold MoveWordLeft.loop
    simp only [hidx]
    rw [prefixPos_sub _ _ _ hc]
    by_cases hsp : IsSpace c.R = true
    · rw [if_pos hsp]
      cases seen with
      | true =>
        refine ⟨k + 1, k + 1, Nat.le_refl _, Nat.le_refl _, by simp, fun _ => rfl,
          fun t c _ h1 h2 => absurd h2 (by omega), fun t c _ h1 h2 => absurd h2 (by omega),
          Or.inr ⟨c, by simpa using hc, hsp, Or.inl rfl⟩⟩
      | false =>
        obtain ⟨q, mid, h1, h2, h3, _, h5, h6, h7⟩ := ih false (by omega)
        refine ⟨q, mid, h1, by omega, by simpa using h3, fun h => Bool.noConfusion h, h5, ?_, h7⟩
        intro t d hd ht1 ht2
        by_cases htk : t = k
        · subst htk
          rw [hc] at hd
          rw [← Option.some.inj hd]
          exact hsp
        · exact h6 t d hd ht1 (by omega)
    · rw [if_neg hsp]
      obtain ⟨q, mid, h1, h2, h3, h4, h5, h6, h7⟩ := ih true (by omega)
      have hmid : mid = k := h4 rfl
      subst hmid
      refine ⟨q, mid + 1, by omega, Nat.le_refl _, h3, fun _ => rfl, ?_,
        fun t c _ ht1 ht2 => absurd ht2 (by omega), ?_⟩
      · intro t d hd ht1 ht2
        by_cases htk : t = mid
        · subst htk
          rw [hc] at hd
          rw [← Option.some.inj hd]
          simpa using hsp
        · exact h5 t d hd ht1 (by omega)
      · rcases h7 with h7 | ⟨d, hd1, hd2, _⟩
        · exact Or.inl h7
        · exact Or.inr ⟨d, hd1, hd2, Or.inr (by omega)⟩

/-- The loop of `MoveWordRight` from the prefix-sum position of index `k`, with
`n` characters left, ends at the prefix-sum position of an index `q ≥ k`: the
characters of `[k, mid)` are spaces, those of `[mid, q)` are not, and the loop
stopped at the end or before a space. -/
theorem MoveWordRight.loop_right_spec (m : Store Char) (chars : Slice) (hv : Slice.Valid m chars) :
    ∀ n k seen, k + n = chars.len →
      ∃ q mid, k ≤ mid ∧ mid ≤ q ∧ q ≤ chars.len ∧
        MoveWordRight.loop m chars n (k : Int) seen (prefixPos (m.read chars) k)
          = .done (prefixPos (m.read chars) q) ∧
        (seen = true → mid = k) ∧
        (∀ t c, (m.read chars)[t]? = some c → k ≤ t → t < mid → IsSpace c.R = true) ∧
        (∀ t c, (m.read chars)[t]? = some c → mid ≤ t → t < q → IsSpace c.R = false) ∧
        (q = chars.len ∨ ∃ c, (m.read chars)[q]? = some c ∧ IsSpace c.R = true ∧
          (seen = true ∨ mid < q)) := by
  have hlen := Store.read_length hv
  intro n
  induction n with
  | zero =>
    intro k seen hk
    refine ⟨k, k, Nat.le_refl _, Nat.le_refl _, by omega, ?_, fun _ => rfl,
      fun t c _ h1 h2 => absurd h2 (by omega), fun t c _ h1 h2 => absurd h2 (by omega),
      Or.inl (by omega)⟩
    unfold MoveWordRight.loop
    rfl
  | succ n ih =>
    intro k seen hk
    obtain ⟨c, hc⟩ : ∃ c, (m.read chars)[k]? = some c :=
      ⟨_, List.getElem?_eq_getElem (by omega)⟩
    have hidx : m.index chars (k : Int) = some c := by
      rw [Store.index_eq _ _ _ (by omega), hc]
    have hcast : (k : Int) + 1 = ((k + 1 : Nat) : Int) := by omega
    unfold MoveWordRight.loop
    simp only [hidx]
    rw [prefixPos_add _ _ _ hc, hcast]
    by_cases hsp : IsSpace c.R = true
    · rw [if_pos hsp]
      cases seen with
      | true =>
        refine ⟨k, k, Nat.le_refl _, Nat.le_refl _, by omega, by simp, fun _ => rfl,
          fun t c _ h1 h2 => absurd h2 (by omega), fun t c _ h1 h2 => absurd h2 (by omega),
          Or.inr ⟨c, hc, hsp, Or.inl rfl⟩⟩
      | false =>
        obtain ⟨q, mid, h1, h2, h2b, h3, _, h5, h6, h7⟩ := ih (k + 1) false (by omega)
        refine ⟨q, mid, by omega, h2, h2b, by simpa using h3, fun h => Bool.noConfusion h, ?_,
          h6, h7⟩
        intro t d hd ht1 ht2
        by_cases htk : t = k
        · subst htk
          rw [hc] at hd
          rw [← Option.some.inj hd]
          exact hsp
        · exact h5 t d hd (by omega) ht2
    · rw [if_neg hsp]
      obtain ⟨q, mid, h1, h2, h2b, h3, h4, h5, h6, h7⟩ := ih (k + 1) true (by omega)
      have hmid : mid = k + 1 := h4 rfl
      subst hmid
      refine ⟨q, k, Nat.le_refl _, by omega, h2b, h3, fun _ => rfl,
        fun t c _ ht1 ht2 => absurd ht2 (by omega), ?_, ?_⟩
      · intro t d hd ht1 ht2
        by_cases htk : t = k
        · subst htk
          rw [hc] at hd
          rw [← Option.some.inj hd]
          simpa using hsp
        · exact h6 t d hd (by omega) ht2
      · rcases h7 with h7 | ⟨d, hd1, hd2, _⟩
        · exact Or.inl h7
        · exact Or.inr ⟨d, hd1, hd2, Or.inr (by omega)⟩

/-- C16. Word motion. On a well-formed buffer with the cursor at the prefix-sum
position of rune index `p`: `MoveWordLeft` changes nothing but the cursor (and
the output), and moves the cursor to the prefix-sum position of an index `q ≤ p`
such that the characters of `[q, mid)` are not spaces, those of `[mid, p)` are
spaces, and either `q = 0` or the character before `q` is a space and the one at
`q` is not; at `p = 0` it returns the state as it is, nothing written.
`MoveWordRight` moves to an index `q ≥ p` such that the characters of `[p, mid)`
are spaces, those of `[mid, q)` are not, and either `q` is the length or the
character at `q` is a space and the one before is not; at `p = length` it
returns the state as it is. Both return when the prompt is narrower than the
terminal. -/
theorem word_motion (i : Internals) (p : Nat)
    (hv : i.Buf.Valid i.Mem) (hw : i.Buf.WellFormed i.Mem)
    (hp : i.Pos = prefixPos i.chars p) (hpl : p ≤ i.Buf.Chars.len) :
    (∃ q mid, q ≤ mid ∧ mid ≤ p ∧
      i.MoveWordLeft.1.Pos = prefixPos i.chars q ∧
      i.MoveWordLeft.1.Buf = i.Buf ∧ i.MoveWordLeft.1.Mem = i.Mem ∧
      i.MoveWordLeft.1.Cb = i.Cb ∧ i.MoveWordLeft.1.H = i.H ∧
      (∀ t c, i.chars[t]? = some c → q ≤ t → t < mid → IsSpace c.R = false) ∧
      (∀ t c, i.chars[t]? = some c → mid ≤ t → t < p → IsSpace c.R = true) ∧
      (q = 0 ∨ ∃ c d, i.chars[q - 1]? = some c ∧ i.chars[q]? = some d ∧
        IsSpace c.R = true ∧ IsSpace d.R = false) ∧
      (i.Prompt.ColLen < i.Cols → i.MoveWordLeft.2 = none)) ∧
    (p = 0 → i.MoveWordLeft = (i, none)) ∧
    (∃ q mid, p ≤ mid ∧ mid ≤ q ∧ q ≤ i.Buf.Chars.len ∧
      i.MoveWordRight.1.Pos = prefixPos i.chars q ∧
      i.MoveWordRight.1.Buf = i.Buf ∧ i.MoveWordRight.1.Mem = i.Mem ∧
      i.MoveWordRight.1.Cb = i.Cb ∧ i.MoveWordRight.1.H = i.H ∧
      (∀ t c, i.chars[t]? = some c → p ≤ t → t < mid → IsSpace c.R = true) ∧
      (∀ t c, i.chars[t]? = some c → mid ≤ t → t < q → IsSpace c.R = false) ∧
      (q = i.Buf.Chars.len ∨ ∃ c d, i.chars[q]? = some c ∧ i.chars[q - 1]? = some d ∧
        IsSpace c.R = true ∧ IsSpace d.R = false) ∧
      (i.Prompt.ColLen < i.Cols → i.MoveWordRight.2 = none)) ∧
    (p = i.Buf.Chars.len → i.MoveWordRight = (i, none)) := by
  unfold Internals.chars at *
  have hlen : (i.Mem.chars.read i.Buf.Chars).length = i.Buf.Chars.len := Store.read_length hv.1
  have hR : i.Pos.Runes = (p : Int) := by rw [hp]; rfl
  have hL0 : p = 0 → i.MoveWordLeft = (i, none) := by
    intro h0
    unfold Internals.MoveWordLeft
    rw [if_neg (by omega)]
  have hR0 : p = i.Buf.Chars.len → i.MoveWordRight = (i, none) := by
    intro h0
    unfold Internals.MoveWordRight
    rw [if_neg (by omega)]
  refine ⟨?_, hL0, ?_, hR0⟩
  · rcases Nat.eq_zero_or_pos p with h0 | hpos
    · rw [hL0 h0]
      refine ⟨0, 0, Nat.le_refl _, Nat.zero_le _, by rw [hp, h0], rfl, rfl, rfl, rfl,
        fun t c _ _ h => absurd h (by omega), fun t c _ _ h => absurd h (by omega), Or.inl rfl,
        fun _ => rfl⟩
    · obtain ⟨q, mid, h1, h2, h3, _, h5, h6, h7⟩ :=
        MoveWordLeft.loop_left_spec i.Mem.chars i.Buf.Chars hv.1 p false hpl
      have hM : i.MoveWordLeft
          = ({ i with Pos := prefixPos (i.Mem.chars.read i.Buf.Chars) q } : Internals).Refresh := by
        unfold Internals.MoveWordLeft
        rw [if_pos (by omega), hR, Int.toNat_ofNat, hp, h3]
      rw [hM]
      simp only [Internals.Refresh_Mem, Internals.Refresh_H, Internals.Refresh_Cb,
        Internals.Refresh_Pos, Internals.Refresh_Buf]
      refine ⟨q, mid, h1, h2, rfl, trivial, trivial, trivial, trivial, h5, h6, ?_, ?_⟩
      · rcases h7 with h7 | ⟨c, hc1, hc2, hc3⟩
        · exact Or.inl h7
        · have hqm : q < mid := by
            rcases hc3 with h | h
            · exact Bool.noConfusion h
            · exact h
          obtain ⟨d, hd⟩ : ∃ d, (i.Mem.chars.read i.Buf.Chars)[q]? = some d :=
            ⟨_, List.getElem?_eq_getElem (by omega)⟩
          exact Or.inr ⟨c, d, hc1, hd, hc2, h5 q d hd (Nat.le_refl _) hqm⟩
      · intro hPW
        exact Internals.Refresh_ok
          ({ i with Pos := prefixPos (i.Mem.chars.read i.Buf.Chars) q } : Internals) q hv hw rfl
          (show q ≤ i.Buf.Chars.len by omega) hPW
  · rcases Nat.eq_or_lt_of_le hpl with hend | hlt
    · rw [hR0 hend]
      refine ⟨p, p, Nat.le_refl _, Nat.le_refl _, hpl, hp, rfl, rfl, rfl, rfl,
        fun t c _ _ h => absurd h (by omega), fun t c _ _ h => absurd h (by omega),
        Or.inl hend, fun _ => rfl⟩
    · obtain ⟨q, mid, h1, h2, h2b, h3, _, h5, h6, h7⟩ :=
        MoveWordRight.loop_right_spec i.Mem.chars i.Buf.Chars hv.1 (i.Buf.Chars.len - p) p false
          (by omega)
      have hn : ((i.Buf.Chars.len : Int) - (p : Int)).toNat = i.Buf.Chars.len - p := by omega
      have hM : i.MoveWordRight
          = ({ i with Pos := prefixPos (i.Mem.chars.read i.Buf.Chars) q } : Internals).Refresh := by
        unfold Internals.MoveWordRight
        rw [if_pos (by omega), hR, hn, hp, h3]
      rw [hM]
      simp only [Internals.Refresh_Mem, Internals.Refresh_H, Internals.Refresh_Cb,
        Internals.Refresh_Pos, Internals.Refresh_Buf]
      refine ⟨q, mid, h1, h2, h2b, rfl, trivial, trivial, trivial, trivial, h5, h6, ?_, ?_⟩
      · rcases h7 with h7 | ⟨c, hc1, hc2, hc3⟩
        · exact Or.inl h7
        · have hqm : mid < q := by
            rcases hc3 with h | h
            · exact Bool.noConfusion h
            · exact h
          obtain ⟨d, hd⟩ : ∃ d, (i.Mem.chars.read i.Buf.Chars)[q - 1]? = some d :=
            ⟨_, List.getElem?_eq_getElem (by omega)⟩
          exact Or.inr ⟨c, d, hc1, hd, hc2, h6 (q - 1) d hd (by omega) (by omega)⟩
      · intro hPW
        exact Internals.Refresh_ok
          ({ i with Pos := prefixPos (i.Mem.chars.read i.Buf.Chars) q } : Internals) q hv hw rfl
          h2b hPW

/-- C16, at the state after the keys `a`, space, `b`: `MoveWordLeft` moves the
cursor from rune index 3 to rune index 2. -/
theorem word_motion_witness :
    runASpaceB.1.Buf.Valid runASpaceB.1.Mem ∧ runASpaceB.1.Buf.WellFormed runASpaceB.1.Mem ∧
    runASpaceB.1.Pos = prefixPos runASpaceB.1.chars 3 ∧ 3 ≤ runASpaceB.1.Buf.Chars.len ∧
    runASpaceB.1.MoveWordLeft.1.Pos = ⟨2, 2, 2⟩ ∧
    (3 = 0 → runASpaceB.1.MoveWordLeft = (runASpaceB.1, none)) :=
  ⟨by decide!, by decide!, by decide!, by decide!, by decide!,
   (word_motion runASpaceB.1 3 (by decide!) (by decide!) (by decide!) (by decide!)).2.1⟩

/-! ## Boundaries -/

/-- C17. Boundary violations ring the bell and change nothing. `Bell` returns
the state with the bell appended to the output and nothing else changed, and
raises nothing; and each of `Backspace` with the cursor at 0, `Delete` with the
cursor at the end, `MoveLeft` at 0, `MoveRight` at the end, `HistoryBack` at
index 0, `HistoryForward` at the last index, `CutLineLeft` at 0, `CutPrevWord`
at 0, and `SwapChars` with the cursor at 0 or fewer than two characters, is
exactly `Bell`. -/
theorem boundary_bell (E : Env) (i : Internals) :
    i.Bell = ({ i with Output := i.Output ++ [Emit.bell] }, none) ∧
    (i.Pos.Runes ≤ 0 → i.Backspace E = i.Bell) ∧
    ((i.Buf.Chars.len : Int) ≤ i.Pos.Runes → i.Delete E = i.Bell) ∧
    (i.Pos.Runes ≤ 0 → i.MoveLeft = i.Bell) ∧
    ((i.Buf.Chars.len : Int) ≤ i.Pos.Runes → i.MoveRight = i.Bell) ∧
    (i.H.Index ≤ 0 → i.HistoryBack E = i.Bell) ∧
    ((i.H.Tmp.length : Int) - 1 ≤ i.H.Index → i.HistoryForward E = i.Bell) ∧
    (i.Pos.Runes ≤ 0 → i.CutLineLeft E = i.Bell) ∧
    (i.Pos.Runes ≤ 0 → i.CutPrevWord E = i.Bell) ∧
    (i.Pos.Runes ≤ 0 ∨ i.Buf.Chars.len < 2 → i.SwapChars = i.Bell) := by
  refine ⟨rfl, ?_, ?_, ?_, ?_, ?_, ?_, ?_, ?_, ?_⟩
  · intro h
    unfold Internals.Backspace
    rw [if_neg (by omega)]
  · intro h
    unfold Internals.Delete
    rw [if_neg (by omega)]
  · intro h
    unfold Internals.MoveLeft
    rw [if_neg (by omega)]
  · intro h
    unfold Internals.MoveRight
    rw [if_neg (by omega)]
  · intro h
    unfold Internals.HistoryBack
    rw [if_neg (by omega)]
  · intro h
    unfold Internals.HistoryForward
    rw [if_neg (by omega)]
  · intro h
    unfold Internals.CutLineLeft
    rw [if_neg (by omega)]
  · intro h
    unfold Internals.CutPrevWord
    rw [if_neg (by omega)]
  · intro h
    unfold Internals.SwapChars
    rw [if_neg (by omega)]

/-- C17, at the start of the first scan of a new scanner (empty buffer, cursor
at 0, history index 0 of one working entry): `Backspace` and `HistoryForward`
are `Bell`. -/
theorem boundary_bell_witness :
    (Scan.start sampleEnv Internals.new exPrompt 80).Pos.Runes ≤ 0 ∧
    (((Scan.start sampleEnv Internals.new exPrompt 80).H.Tmp.length : Int) - 1
      ≤ (Scan.start sampleEnv Internals.new exPrompt 80).H.Index) ∧
    (Scan.start sampleEnv Internals.new exPrompt 80).Backspace sampleEnv
      = (Scan.start sampleEnv Internals.new exPrompt 80).Bell ∧
    (Scan.start sampleEnv Internals.new exPrompt 80).HistoryForward sampleEnv
      = (Scan.start sampleEnv Internals.new exPrompt 80).Bell :=
  ⟨by decide!, by decide!,
   (boundary_bell sampleEnv (Scan.start sampleEnv Internals.new exPrompt 80)).2.1 (by decide!),
   (boundary_bell sampleEnv (Scan.start sampleEnv Internals.new exPrompt 80)).2.2.2.2.2.2.1
     (by decide!)⟩

/-! ## The decoder step -/

/-- C18 as stated fails on an unbound first byte. After the keys `a`, Ctrl-W the
clipboard's flag is set; the byte 0x07 (Ctrl-G) is not printable and has no entry
in the default key map; the decode step on it, nothing accumulated, runs no
action and clears the accumulation, but the state is not unchanged: the flag is
cleared. -/
theorem decoder_absent_counterexample :
    runCutA.2 = none ∧ runCutA.1.Cb.Partial = true ∧
    getRune [0x07] = some 7 ∧ IsPrint sampleEnv 7 = false ∧
    (DefaultKeymap [0x07]).isAbsent = true ∧
    Scan.body sampleEnv DefaultKeymap runCutA.1 none [0x07]
      = (({ runCutA.1 with Cb := { runCutA.1.Cb with Partial := false } }, none), none) ∧
    (Scan.body sampleEnv DefaultKeymap runCutA.1 none [0x07]).1.1 ≠ runCutA.1 := by
  decide!

/-- C18, amended. One decode step, for every key map, state and input unit
`tok`. With nothing accumulated and `tok` a printable rune, the step is `Insert`
of that rune, whatever the key map holds, and nothing is accumulated. Otherwise
`tok` is appended to the accumulated bytes and the result is looked up: an action
found is applied once and, when it returns, the accumulation is cleared; on a nil
entry nothing is applied and the accumulation is kept; on no entry nothing is
applied and the accumulation is cleared. When nothing was accumulated before the
step, the clipboard's flag is cleared after the lookup unless the rune is 23, 21
or 11; the state is otherwise the one the action left, or unchanged. -/
theorem decoder_step (E : Env) (km : Keymap) (i : Internals) (tok : List Nat) :
    (∀ r, getRune tok = some r → IsPrint E r = true →
      Scan.body E km i none tok = (i.Insert E (CharFromRune E r), none)) ∧
    (∀ r, getRune tok = some r → IsPrint E r = false →
      (∀ f, km tok = .action f →
        Scan.body E km i none tok
          = match f E i with
            | (i1, some sig) => ((i1, some sig), some tok)
            | (i1, none) => ((clearPartial r i1, none), none)) ∧
      (km tok = .pending → Scan.body E km i none tok = ((clearPartial r i, none), some tok)) ∧
      (km tok = .absent → Scan.body E km i none tok = ((clearPartial r i, none), none))) ∧
    (∀ p0,
      (∀ f, km (p0 ++ tok) = .action f →
        Scan.body E km i (some p0) tok
          = match f E i with
            | (i1, some sig) => ((i1, some sig), some (p0 ++ tok))
            | (i1, none) => ((i1, none), none)) ∧
      (km (p0 ++ tok) = .pending →
        Scan.body E km i (some p0) tok = ((i, none), some (p0 ++ tok))) ∧
      (km (p0 ++ tok) = .absent → Scan.body E km i (some p0) tok = ((i, none), none))) := by
  refine ⟨?_, ?_, ?_⟩
  · intro r hr hp
    unfold Scan.body
    simp only [hr, hp, if_true]
  · intro r hr hp
    refine ⟨?_, ?_, ?_⟩
    · intro f hf
      unfold Scan.body
      simp only [hr, hp, isCompleteAnsiCode, hf, clearPartial]
      rcases hres : f E i with ⟨i1, _ | sig⟩ <;> simp
    · intro hk
      unfold Scan.body
      simp [hr, hp, isCompleteAnsiCode, hk, clearPartial]
    · intro hk
      unfold Scan.body
      simp [hr, hp, isCompleteAnsiCode, hk, clearPartial]
  · intro p0
    refine ⟨?_, ?_, ?_⟩
    · intro f hf
      unfold Scan.body
      simp only [isCompleteAnsiCode, hf]
      rcases hres : f E i with ⟨i1, _ | sig⟩ <;> simp
    · intro hk
      unfold Scan.body
      simp [isCompleteAnsiCode, hk]
    · intro hk
      unfold Scan.body
      simp [isCompleteAnsiCode, hk]

/-- C18 amended, at the state after the keys `a`, Ctrl-W with the default key
map: the byte 0x07 has no entry, and after ESC the byte `[` finds a nil entry. -/
theorem decoder_step_witness :
    getRune [0x07] = some 7 ∧ IsPrint sampleEnv 7 = false ∧
    Scan.body sampleEnv DefaultKeymap runCutA.1 none [0x07]
      = ((clearPartial 7 runCutA.1, none), none) ∧
    Scan.body sampleEnv DefaultKeymap runCutA.1 (some [0x1B]) [0x5B]
      = ((runCutA.1, none), some ([0x1B] ++ [0x5B])) :=
  ⟨by decide!, by decide!,
   ((decoder_step sampleEnv DefaultKeymap runCutA.1 [0x07]).2.1 7 (by decide!) (by decide!)).2.2
     rfl,
   ((decoder_step sampleEnv DefaultKeymap runCutA.1 [0x5B]).2.2 [0x1B]).2.1 rfl⟩

/-- What `CutLineLeft` does with the clipboard's flag clear, from a valid cursor
after the beginning: the clipboard is the span `[0, p)`, the buffer is the tail
`[p, end)`, the cursor is zero, the flag stays clear and the memory is not
written. -/
theorem Internals.CutLineLeft_clear (E : Env) (i : Internals) (p : Nat)
    (hv : i.Buf.Valid i.Mem) (hw : i.Buf.WellFormed i.Mem)
    (hp : i.Pos = prefixPos i.chars p) (hp0 : 0 < p) (hpl : p ≤ i.Buf.Chars.len)
    (hpar : i.Cb.Partial = false) :
    (i.CutLineLeft E).1.Mem = i.Mem ∧
    (i.CutLineLeft E).1.chars = i.chars.drop p ∧
    (i.CutLineLeft E).1.bytes = concatP (i.chars.drop p) ∧
    (i.CutLineLeft E).1.Buf.ColLen = sumCols (i.chars.drop p) ∧
    i.Mem.chars.read (i.CutLineLeft E).1.Cb.Text.Chars = i.chars.take p ∧
    i.Mem.bytes.read (i.CutLineLeft E).1.Cb.Text.Bytes = concatP (i.chars.take p) ∧
    (i.CutLineLeft E).1.Cb.Text.ColLen = sumCols (i.chars.take p) ∧
    (i.CutLineLeft E).1.Pos = Position.zero ∧
    (i.CutLineLeft E).1.Cb.Partial = false := by
  unfold Internals.chars Internals.bytes at *
  obtain ⟨cut, hcut, hcutc, hcutb, hcutw, _⟩ :=
    Text.Slice_two_spec i.Mem i.Buf 0 p hv hw (Nat.zero_le _) hpl
  obtain ⟨tail, htail, htailc, htailb, htailw, _⟩ :=
    Text.Slice_one_spec i.Mem i.Buf p hv hw hpl
  rw [prefixPos_zero] at hcut
  simp only [List.drop_zero] at hcutc hcutb hcutw
  have hRpos : i.Pos.Runes > 0 := by rw [hp]; simp only [prefixPos]; omega
  unfold Internals.CutLineLeft
  rw [if_pos hRpos, hp, hcut]
  simp only [hpar, Bool.false_eq_true, if_false, htail, Internals.Refresh_Mem,
    Internals.Refresh_Cb, Internals.Refresh_Pos, Internals.Refresh_Buf]
  exact ⟨trivial, htailc, htailb, htailw, hcutc, hcutb, hcutw, trivial, trivial⟩

/-! ## Refresh: termination and bounds -/

/-- The first loop of `Refresh` ends, with the same result whatever the
iteration bound from the cursor index on. -/
theorem Refresh.trimLeft_total (m : Store Char) (chars : Slice) (hv : Slice.Valid m chars)
    (P W : Int) (pos : Position) (x : Int) (p : Nat)
    (hp : pos.Columns = sumCols ((m.read chars).take p)) (hpl : p ≤ chars.len) (hPW : P < W) :
    ∃ k, k ≤ p ∧
      ∀ fuel, p ≤ fuel →
        Refresh.trimLeft m chars P W fuel (pos, Position.zero, x)
          = .done (pos.Subtract ((m.read chars).take k), prefixPos (m.read chars) k,
              x - sumCols ((m.read chars).take k)) := by
  obtain ⟨k, _, h2, _, h4, h5⟩ :=
    Refresh.trimLeft_spec m chars hv P W pos x p hp hpl hPW p 0 (Nat.zero_le _) (by omega)
  refine ⟨k, h2, ?_⟩
  intro fuel hf
  obtain ⟨k2, _, _, g3, g4, g5⟩ :=
    Refresh.trimLeft_spec m chars hv P W pos x p hp hpl hPW fuel 0 (Nat.zero_le _) (by omega)
  have hk : k2 = k := by
    rcases Nat.lt_trichotomy k2 k with h | h | h
    · have := h5 k2 (Nat.zero_le _) h
      omega
    · exact h
    · have := g5 k (Nat.zero_le _) h
      omega
  rw [hk, prefixPos_zero] at g3
  simpa only [List.take_zero, Position.Subtract_nil, sumCols, sub_zero] using g3

/-- The second loop of `Refresh` ends, with the same result whatever the
iteration bound from the length of the buffer on. -/
theorem Refresh.toEnd_total (m : Store Char) (chars : Slice) (hv : Slice.Valid m chars)
    (L : Int) (hL : L = sumCols (m.read chars)) (k : Nat) (hk : k ≤ chars.len) :
    ∃ j3, k ≤ j3 ∧ j3 ≤ chars.len ∧ L ≤ sumCols ((m.read chars).take j3) ∧
      ∀ fuel, chars.len ≤ fuel →
        Refresh.toEnd m chars L fuel (prefixPos (m.read chars) k)
          = .done (prefixPos (m.read chars) j3) := by
  obtain ⟨j3, h1, h2, _, h4, h5⟩ :=
    Refresh.toEnd_spec m chars hv L hL chars.len k hk (by omega)
  refine ⟨j3, h1, h2, h4, ?_⟩
  intro fuel hf
  obtain ⟨j, _, _, g3, g4, g5⟩ := Refresh.toEnd_spec m chars hv L hL fuel k hk (by omega)
  have hj : j = j3 := by
    rcases Nat.lt_trichotomy j j3 with h | h | h
    · have := h5 j (by omega) h
      omega
    · exact h
    · have := g5 j3 h1 h
      omega
  rw [hj] at g3
  exact g3

/-- The third loop of `Refresh` ends, with the same result whatever the
iteration bound from the length of the buffer on. -/
theorem Refresh.trimRight_total (m : Store Char) (chars : Slice) (hv : Slice.Valid m chars)
    (P W D : Int) (kmin j3 : Nat) (hkj : kmin ≤ j3) (hj3 : j3 ≤ chars.len)
    (hstop : P + (D + sumCols ((m.read chars).take kmin)) < W) :
    ∃ j, kmin ≤ j ∧ j ≤ j3 ∧
      ∀ fuel, chars.len ≤ fuel →
        Refresh.trimRight m chars P W fuel
            (prefixPos (m.read chars) j3, D + sumCols ((m.read chars).take j3))
          = .done (prefixPos (m.read chars) j, D + sumCols ((m.read chars).take j)) := by
  obtain ⟨j, h1, h2, _, h4, h5⟩ :=
    Refresh.trimRight_spec m chars hv P W D kmin hstop chars.len j3 hkj hj3 (by omega)
  refine ⟨j, h1, h2, ?_⟩
  intro fuel hf
  obtain ⟨j2, _, g2, g3, g4, g5⟩ :=
    Refresh.trimRight_spec m chars hv P W D kmin hstop fuel j3 hkj hj3 (by omega)
  have hj : j2 = j := by
    rcases Nat.lt_trichotomy j2 j with h | h | h
    · have := g5 j h h2
      omega
    · exact h
    · have := h5 j2 h g2
      omega
  rw [hj] at g3
  exact g3

/-- C21. `Refresh` is safe and terminates under its precondition. For a
well-formed state with a valid cursor and `Prompt.ColLen < Cols` (the widths may
be any), each of the three loops of `Refresh` ends without indexing out of
range, whatever the iteration bound from the length of the buffer on: the first
after trimming `k` characters, the second at rune index `j3`, the third at rune
index `j`, with `k ≤ j ≤ j3 ≤ len(Chars)`; the final `Slice` is taken between the
prefix-sum positions of `k` and `j`, within the characters and the bytes of the
buffer, and succeeds; and `Refresh` returns. -/
theorem refresh_safe (i : Internals)
    (hv : i.Buf.Valid i.Mem) (hw : i.Buf.WellFormed i.Mem) (hp : i.Pos.At i.Mem i.Buf)
    (hPW : i.Prompt.ColLen < i.Cols) :
    ∃ k j3 j vis, k ≤ j ∧ j ≤ j3 ∧ j3 ≤ i.Buf.Chars.len ∧
      (∀ fuel, i.Buf.Chars.len ≤ fuel →
        Refresh.trimLeft i.Mem.chars i.Buf.Chars i.Prompt.ColLen i.Cols fuel
            (i.Pos, Position.zero, i.Buf.ColLen)
          = .done (i.Pos.Subtract (i.chars.take k), prefixPos i.chars k,
              i.Buf.ColLen - sumCols (i.chars.take k))) ∧
      (∀ fuel, i.Buf.Chars.len ≤ fuel →
        Refresh.toEnd i.Mem.chars i.Buf.Chars i.Buf.ColLen fuel (prefixPos i.chars k)
          = .done (prefixPos i.chars j3)) ∧
      (∀ fuel, i.Buf.Chars.len ≤ fuel →
        Refresh.trimRight i.Mem.chars i.Buf.Chars i.Prompt.ColLen i.Cols fuel
            (prefixPos i.chars j3, i.Buf.ColLen - sumCols (i.chars.take k))
          = .done (prefixPos i.chars j,
              i.Buf.ColLen - sumCols (i.chars.take k) - sumCols (i.chars.take j3)
                + sumCols (i.chars.take j))) ∧
      i.Buf.Slice [prefixPos i.chars k, prefixPos i.chars j] = some vis ∧
      (prefixPos i.chars k).Bytes ≤ (prefixPos i.chars j).Bytes ∧
      (prefixPos i.chars j).Bytes ≤ i.Buf.Bytes.len ∧
      i.Refresh.2 = none := by
  obtain ⟨he, hpl, _⟩ := hp.eq
  have hcol : i.Pos.Columns = sumCols (i.chars.take i.Pos.Runes.toNat) :=
    congrArg Position.Columns he
  have hok := Internals.Refresh_ok i i.Pos.Runes.toNat hv hw hcol hpl hPW
  unfold Internals.chars at *
  obtain ⟨k, hkp, hl1⟩ :=
    Refresh.trimLeft_total i.Mem.chars i.Buf.Chars hv.1 i.Prompt.ColLen i.Cols i.Pos
      i.Buf.ColLen i.Pos.Runes.toNat hcol hpl hPW
  obtain ⟨j3, hkj3, hj3l, hreach, hl2⟩ :=
    Refresh.toEnd_total i.Mem.chars i.Buf.Chars hv.1 i.Buf.ColLen hw.2 k (by omega)
  have hstop : i.Prompt.ColLen + ((i.Buf.ColLen - sumCols ((i.Mem.chars.read i.Buf.Chars).take k)
      - sumCols ((i.Mem.chars.read i.Buf.Chars).take j3))
      + sumCols ((i.Mem.chars.read i.Buf.Chars).take k)) < i.Cols := by omega
  obtain ⟨j, hkj, hjj3, hl3⟩ :=
    Refresh.trimRight_total i.Mem.chars i.Buf.Chars hv.1 i.Prompt.ColLen i.Cols
      (i.Buf.ColLen - sumCols ((i.Mem.chars.read i.Buf.Chars).take k)
        - sumCols ((i.Mem.chars.read i.Buf.Chars).take j3)) k j3 hkj3 hj3l hstop
  have hx : i.Buf.ColLen - sumCols ((i.Mem.chars.read i.Buf.Chars).take k)
        - sumCols ((i.Mem.chars.read i.Buf.Chars).take j3)
        + sumCols ((i.Mem.chars.read i.Buf.Chars).take j3)
      = i.Buf.ColLen - sumCols ((i.Mem.chars.read i.Buf.Chars).take k) := by omega
  rw [hx] at hl3
  obtain ⟨vis, hs, _⟩ := Text.Slice_two_spec i.Mem i.Buf k j hv hw hkj (by omega)
  refine ⟨k, j3, j, vis, hkj, hjj3, hj3l, fun fuel hf => hl1 fuel (by omega), hl2, hl3, hs,
    ?_, ?_, hok⟩
  · exact Int.ofNat_le.mpr (prefix_bytes_mono _ k j hkj)
  · exact Int.ofNat_le.mpr (prefix_bytes_le i.Mem i.Buf hv hw j)

/-- C21, at the state after the keys `a` to `f` on a terminal 5 columns wide
with the prompt `> `: `Refresh` returns, and writes the window `ef`. -/
theorem refresh_safe_witness :
    runNarrow.1.Buf.Valid runNarrow.1.Mem ∧ runNarrow.1.Buf.WellFormed runNarrow.1.Mem ∧
    runNarrow.1.Pos.At runNarrow.1.Mem runNarrow.1.Buf ∧
    runNarrow.1.Prompt.ColLen < runNarrow.1.Cols ∧
    runNarrow.1.Refresh = (runNarrow.1.write (.redraw [0x3E, 0x20] [0x65, 0x66] 4), none) ∧
    (∃ k j3 j vis, k ≤ j ∧ j ≤ j3 ∧ j3 ≤ runNarrow.1.Buf.Chars.len ∧
      (∀ fuel, runNarrow.1.Buf.Chars.len ≤ fuel →
        Refresh.trimLeft runNarrow.1.Mem.chars runNarrow.1.Buf.Chars runNarrow.1.Prompt.ColLen
            runNarrow.1.Cols fuel (runNarrow.1.Pos, Position.zero, runNarrow.1.Buf.ColLen)
          = .done (runNarrow.1.Pos.Subtract (runNarrow.1.chars.take k),
              prefixPos runNarrow.1.chars k,
              runNarrow.1.Buf.ColLen - sumCols (runNarrow.1.chars.take k))) ∧
      (∀ fuel, runNarrow.1.Buf.Chars.len ≤ fuel →
        Refresh.toEnd runNarrow.1.Mem.chars runNarrow.1.Buf.Chars runNarrow.1.Buf.ColLen fuel
            (prefixPos runNarrow.1.chars k)
          = .done (prefixPos runNarrow.1.chars j3)) ∧
      (∀ fuel, runNarrow.1.Buf.Chars.len ≤ fuel →
        Refresh.trimRight runNarrow.1.Mem.chars runNarrow.1.Buf.Chars
            runNarrow.1.Prompt.ColLen runNarrow.1.Cols fuel
            (prefixPos runNarrow.1.chars j3,
              runNarrow.1.Buf.ColLen - sumCols (runNarrow.1.chars.take k))
          = .done (prefixPos runNarrow.1.chars j,
              runNarrow.1.Buf.ColLen - sumCols (runNarrow.1.chars.take k)
                - sumCols (runNarrow.1.chars.take j3) + sumCols (runNarrow.1.chars.take j))) ∧
      runNarrow.1.Buf.Slice [prefixPos runNarrow.1.chars k, prefixPos runNarrow.1.chars j]
        = some vis ∧
      (prefixPos runNarrow.1.chars k).Bytes ≤ (prefixPos runNarrow.1.chars j).Bytes ∧
      (prefixPos runNarrow.1.chars j).Bytes ≤ runNarrow.1.Buf.Bytes.len ∧
      runNarrow.1.Refresh.2 = none) :=
  ⟨by decide!, by decide!, by decide!, by decide!, by decide!,
   refresh_safe runNarrow.1 (by decide!) (by decide!) (by decide!) (by decide!)⟩

/-! ## CutPrevWord and MoveWordLeft -/

/-- The loops of `CutPrevWord` and `MoveWordLeft` compute the same position from
a prefix-sum position. -/
theorem CutPrevWord.loop_eq_moveWordLeft (m : Store Char) (chars : Slice)
    (hv : Slice.Valid m chars) :
    ∀ k fuel seen, k ≤ chars.len → k ≤ fuel →
      CutPrevWord.loop m chars fuel seen (prefixPos (m.read chars) k)
        = MoveWordLeft.loop m chars k seen (prefixPos (m.read chars) k) := by
  have hlen := Store.read_length hv
  intro k
  induction k with
  | zero =>
    intro fuel seen _ _
    unfold CutPrevWord.loop MoveWordLeft.loop
    simp [prefixPos]
  | succ k ih =>
    intro fuel seen hk hf
    obtain ⟨f, hfe⟩ : ∃ f, fuel = f + 1 := ⟨fuel - 1, by omega⟩
    subst hfe
    obtain ⟨c, hc⟩ : ∃ c, (m.read chars)[k]? = some c :=
      ⟨_, List.getElem?_eq_getElem (by omega)⟩
    have hidx : m.index chars (k : Int) = some c := by
      rw [Store.index_eq _ _ _ (by omega), hc]
    have hidx2 : m.index chars ((prefixPos (m.read chars) (k + 1)).Runes - 1) = some c := by
      have : (prefixPos (m.read chars) (k + 1)).Runes - 1 = (k : Int) := by
        simp [prefixPos]
      rw [this, hidx]
    have hpos : (prefixPos (m.read chars) (k + 1)).Runes > 0 := by
      simp only [prefixPos]; omega
    unfold CutPrevWord.loop MoveWordLeft.loop
    rw [if_pos hpos]
    simp only [hidx, hidx2]
    rw [prefixPos_sub _ _ _ hc]
    by_cases hsp : IsSpace c.R = true
    · rw [if_pos hsp, if_pos hsp]
      cases seen with
      | true => simp
      | false =>
        simp only [Bool.false_eq_true, if_false]
        exact ih f false (by omega) (by omega)
    · rw [if_neg hsp, if_neg hsp]
      exact ih f true (by omega) (by omega)

/-- The cursor `CutPrevWord` leaves is the position its loop ends at. -/
theorem Internals.CutPrevWord_pos (E : Env) (i : Internals) (p q : Nat)
    (hv : i.Buf.Valid i.Mem) (hw : i.Buf.WellFormed i.Mem)
    (hp : i.Pos = prefixPos i.chars p) (hp0 : 0 < p) (hpl : p ≤ i.Buf.Chars.len)
    (hqp : q ≤ p)
    (hloop : CutPrevWord.loop i.Mem.chars i.Buf.Chars p false (prefixPos i.chars p)
      = .done (prefixPos i.chars q)) :
    (i.CutPrevWord E).1.Pos = prefixPos i.chars q := by
  unfold Internals.chars at *
  obtain ⟨cut, hcut, _⟩ := Text.Slice_two_spec i.Mem i.Buf q p hv hw hqp hpl
  obtain ⟨head, hhead, _⟩ :=
    Text.Slice_two_spec i.Mem i.Buf 0 q hv hw (Nat.zero_le _) (by omega)
  obtain ⟨tail, htail, _⟩ := Text.Slice_one_spec i.Mem i.Buf p hv hw hpl
  rw [prefixPos_zero] at hhead
  have hRpos : i.Pos.Runes > 0 := by rw [hp]; simp only [prefixPos]; omega
  have hR : i.Pos.Runes.toNat = p := by rw [hp]; simp [prefixPos]
  unfold Internals.CutPrevWord
  rw [if_pos hRpos, hR]
  cases hpar : i.Cb.Partial
  · rw [hp, hloop]
    simp only [hcut, Bool.false_eq_true, if_false, hhead, htail, Internals.Refresh_Pos]
  · rw [hp, hloop]
    simp only [hcut, if_true, hhead, htail, Internals.Refresh_Pos]

/-- C22. `CutPrevWord` removes exactly the span `MoveWordLeft` would skip. On a
well-formed state with the cursor at the prefix-sum position of rune index
`p > 0` (and a valid clipboard when its flag is set), let `q` be the rune index
of the cursor `MoveWordLeft` produces from the same state. After `CutPrevWord`
the cursor is that same position, the buffer is `Buf[0,q) ++ Buf[p,end)` and
well-formed, the clipboard is `Buf[q,p)`, followed by its former content when
the flag was set, and the flag is set. -/
theorem cutPrevWord_cuts_moveWordLeft_span (E : Env) (i : Internals) (p : Nat)
    (hv : i.Buf.Valid i.Mem) (hw : i.Buf.WellFormed i.Mem)
    (hp : i.Pos = prefixPos i.chars p) (hp0 : 0 < p) (hpl : p ≤ i.Buf.Chars.len)
    (hcv : i.Cb.Partial = true → i.Cb.Text.Valid i.Mem) :
    ∃ q, q < p ∧ i.MoveWordLeft.1.Pos = prefixPos i.chars q ∧
      (i.CutPrevWord E).1.Pos = i.MoveWordLeft.1.Pos ∧
      (i.CutPrevWord E).1.chars = i.chars.take q ++ i.chars.drop p ∧
      (i.CutPrevWord E).1.Buf.WellFormed (i.CutPrevWord E).1.Mem ∧
      (i.CutPrevWord E).1.Mem.chars.read (i.CutPrevWord E).1.Cb.Text.Chars
        = (i.chars.take p).drop q
            ++ (if i.Cb.Partial then i.Mem.chars.read i.Cb.Text.Chars else []) ∧
      (i.CutPrevWord E).1.Mem.bytes.read (i.CutPrevWord E).1.Cb.Text.Bytes
        = concatP ((i.chars.take p).drop q)
            ++ (if i.Cb.Partial then i.Mem.bytes.read i.Cb.Text.Bytes else []) ∧
      (i.CutPrevWord E).1.Cb.Text.ColLen
        = sumCols ((i.chars.take p).drop q) + (if i.Cb.Partial then i.Cb.Text.ColLen else 0) ∧
      (i.CutPrevWord E).1.Cb.Partial = true := by
  obtain ⟨q, hq, a1, a2, _, a4, a5, _, a7, a8, a9, _⟩ :=
    Internals.CutPrevWord_spec E i p hv hw hp hp0 hpl hcv
  obtain ⟨q0, hq0, _, hloop⟩ :=
    CutPrevWord.loop_spec i.Mem.chars i.Buf.Chars hv.1 p p false (Nat.le_refl _) hpl
  have hposC := Internals.CutPrevWord_pos E i p q0 hv hw hp hp0 hpl hq0 hloop
  have hqq : q0 = q := by
    have h := congrArg Position.Runes (hposC.symm.trans a1)
    simp only [prefixPos] at h
    omega
  subst hqq
  have hML : MoveWordLeft.loop i.Mem.chars i.Buf.Chars p false
      (prefixPos (i.Mem.chars.read i.Buf.Chars) p)
      = .done (prefixPos (i.Mem.chars.read i.Buf.Chars) q0) := by
    rw [← CutPrevWord.loop_eq_moveWordLeft i.Mem.chars i.Buf.Chars hv.1 p p false hpl
      (Nat.le_refl _)]
    exact hloop
  have hR : i.Pos.Runes = (p : Int) := by rw [hp]; rfl
  have hM : i.MoveWordLeft.1.Pos = prefixPos i.chars q0 := by
    unfold Internals.MoveWordLeft Internals.chars
    rw [if_pos (by omega), hR, Int.toNat_ofNat]
    unfold Internals.chars at hp
    rw [hp, hML]
    simp only [Internals.Refresh_Pos]
  exact ⟨q0, hq, hM, a1.trans hM.symm, a2, a4, a7, a8, a9, a5⟩

/-- C22, at the buffer `foo bar ` with the cursor at its end: `MoveWordLeft`
and `CutPrevWord` both leave the cursor at rune index 4. -/
theorem cutPrevWord_cuts_moveWordLeft_span_witness :
    runFooBar.1.Buf.Valid runFooBar.1.Mem ∧ runFooBar.1.Buf.WellFormed runFooBar.1.Mem ∧
    runFooBar.1.Pos = prefixPos runFooBar.1.chars 8 ∧ 8 ≤ runFooBar.1.Buf.Chars.len ∧
    runFooBar.1.Cb.Partial = false ∧
    runFooBar.1.MoveWordLeft.1.Pos = ⟨4, 4, 4⟩ ∧
    (runFooBar.1.CutPrevWord sampleEnv).1.bytes = [0x66, 0x6F, 0x6F, 0x20] ∧
    (∃ q, q < 8 ∧ runFooBar.1.MoveWordLeft.1.Pos = prefixPos runFooBar.1.chars q ∧
      (runFooBar.1.CutPrevWord sampleEnv).1.Pos = runFooBar.1.MoveWordLeft.1.Pos ∧
      (runFooBar.1.CutPrevWord sampleEnv).1.chars
        = runFooBar.1.chars.take q ++ runFooBar.1.chars.drop 8 ∧
      (runFooBar.1.CutPrevWord sampleEnv).1.Buf.WellFormed
        (runFooBar.1.CutPrevWord sampleEnv).1.Mem ∧
      (runFooBar.1.CutPrevWord sampleEnv).1.Mem.chars.read
          (runFooBar.1.CutPrevWord sampleEnv).1.Cb.Text.Chars
        = (runFooBar.1.chars.take 8).drop q
            ++ (if runFooBar.1.Cb.Partial then
                  runFooBar.1.Mem.chars.read runFooBar.1.Cb.Text.Chars else []) ∧
      (runFooBar.1.CutPrevWord sampleEnv).1.Mem.bytes.read
          (runFooBar.1.CutPrevWord sampleEnv).1.Cb.Text.Bytes
        = concatP ((runFooBar.1.chars.take 8).drop q)
            ++ (if runFooBar.1.Cb.Partial then
                  runFooBar.1.Mem.bytes.read runFooBar.1.Cb.Text.Bytes else []) ∧
      (runFooBar.1.CutPrevWord sampleEnv).1.Cb.Text.ColLen
        = sumCols ((runFooBar.1.chars.take 8).drop q)
            + (if runFooBar.1.Cb.Partial then runFooBar.1.Cb.Text.ColLen else 0) ∧
      (runFooBar.1.CutPrevWord sampleEnv).1.Cb.Partial = true) :=
  ⟨by decide!, by decide!, by decide!, by decide!, by decide!, by decide!, by decide!,
   cutPrevWord_cuts_moveWordLeft_span sampleEnv runFooBar.1 8 (by decide!) (by decide!)
     (by decide!) (by decide!) (by decide!) (fun h => absurd h (by decide!))⟩

/-! ## Cut then paste -/

/-- `Refresh` returns when the state it leaves is well-formed with the cursor
column a prefix width and the prompt narrower than the terminal. -/
theorem Internals.Refresh_ok_of_result (X : Internals) (p : Nat)
    (hv : X.Refresh.1.Buf.Valid X.Refresh.1.Mem)
    (hw : X.Refresh.1.Buf.WellFormed X.Refresh.1.Mem)
    (hp : X.Refresh.1.Pos.Columns = sumCols (X.Refresh.1.chars.take p))
    (hpl : p ≤ X.Refresh.1.Buf.Chars.len)
    (hPW : X.Refresh.1.Prompt.ColLen < X.Refresh.1.Cols) : X.Refresh.2 = none := by
  unfold Internals.chars at hp
  simp only [Internals.Refresh_Mem, Internals.Refresh_Buf, Internals.Refresh_Pos,
    Internals.Refresh_Prompt, Internals.Refresh_Cols] at hv hw hp hpl hPW
  exact Internals.Refresh_ok X p hv hw hp hpl hPW

/-- From a valid cursor after the beginning, `CutPrevWord` reaches its call of
`Refresh`. -/
theorem Internals.CutPrevWord_reaches (E : Env) (i : Internals) (p : Nat)
    (hv : i.Buf.Valid i.Mem) (hw : i.Buf.WellFormed i.Mem)
    (hp : i.Pos = prefixPos i.chars p) (hp0 : 0 < p) (hpl : p ≤ i.Buf.Chars.len) :
    ∃ X : Internals, i.CutPrevWord E = X.Refresh := by
  unfold Internals.chars at *
  obtain ⟨q, hq, _, hloop⟩ :=
    CutPrevWord.loop_spec i.Mem.chars i.Buf.Chars hv.1 p p false (Nat.le_refl _) hpl
  obtain ⟨cut, hcut, _⟩ := Text.Slice_two_spec i.Mem i.Buf q p hv hw hq hpl
  obtain ⟨head, hhead, _⟩ :=
    Text.Slice_two_spec i.Mem i.Buf 0 q hv hw (Nat.zero_le _) (by omega)
  obtain ⟨tail, htail, _⟩ := Text.Slice_one_spec i.Mem i.Buf p hv hw hpl
  rw [prefixPos_zero] at hhead
  have hRpos : i.Pos.Runes > 0 := by rw [hp]; simp only [prefixPos]; omega
  have hR : i.Pos.Runes.toNat = p := by rw [hp]; simp [prefixPos]
  unfold Internals.CutPrevWord
  rw [if_pos hRpos, hR]
  cases hpar : i.Cb.Partial
  · rw [hp, hloop]
    simp only [hcut, Bool.false_eq_true, if_false, hhead, htail]
    exact ⟨_, rfl⟩
  · rw [hp, hloop]
    simp only [hcut, if_true, hhead, htail]
    exact ⟨_, rfl⟩

/-- What `CutLineLeft` does with the clipboard's flag clear, from a valid cursor
after the beginning: it reaches `Refresh` with the memory as it was, the
clipboard the span `[0, p)` and the buffer the tail `[p, end)`, both slices of the
old buffer, and the cursor at zero. -/
theorem Internals.CutLineLeft_clear_state (E : Env) (i : Internals) (p : Nat)
    (hv : i.Buf.Valid i.Mem) (hw : i.Buf.WellFormed i.Mem)
    (hp : i.Pos = prefixPos i.chars p) (hp0 : 0 < p) (hpl : p ≤ i.Buf.Chars.len)
    (hpar : i.Cb.Partial = false) :
    ∃ X : Internals, i.CutLineLeft E = X.Refresh ∧ X.Mem = i.Mem ∧
      X.Prompt = i.Prompt ∧ X.Cols = i.Cols ∧ X.Pos = Position.zero ∧
      X.Cb.Partial = false ∧
      X.Buf.Valid i.Mem ∧ i.Mem.chars.read X.Buf.Chars = i.chars.drop p ∧
      i.Mem.bytes.read X.Buf.Bytes = concatP (i.chars.drop p) ∧
      X.Buf.ColLen = sumCols (i.chars.drop p) ∧
      X.Cb.Text.Valid i.Mem ∧ i.Mem.chars.read X.Cb.Text.Chars = i.chars.take p ∧
      i.Mem.bytes.read X.Cb.Text.Bytes = concatP (i.chars.take p) ∧
      X.Cb.Text.ColLen = sumCols (i.chars.take p) := by
  unfold Internals.chars at *
  obtain ⟨cut, hcut, hcutc, hcutb, hcutw, hcutv⟩ :=
    Text.Slice_two_spec i.Mem i.Buf 0 p hv hw (Nat.zero_le _) hpl
  obtain ⟨tail, htail, htailc, htailb, htailw, htailv⟩ :=
    Text.Slice_one_spec i.Mem i.Buf p hv hw hpl
  rw [prefixPos_zero] at hcut
  simp only [List.drop_zero] at hcutc hcutb hcutw
  have hRpos : i.Pos.Runes > 0 := by rw [hp]; simp only [prefixPos]; omega
  unfold Internals.CutLineLeft
  rw [if_pos hRpos, hp, hcut]
  simp only [hpar, Bool.false_eq_true, if_false, htail]
  exact ⟨_, rfl, rfl, rfl, rfl, rfl, rfl, htailv, htailc, htailb, htailw, hcutv, hcutc, hcutb,
    hcutw⟩

/-- What `CutLineRight` does with the clipboard's flag clear, from a valid
cursor before the end: it reaches `Refresh` with the clipboard a clone of the
tail `[p, end)` in fresh arrays, its flag set, the buffer the head `[0, p)`, a
slice of the old buffer, and the cursor where it was. -/
theorem Internals.CutLineRight_clear_state (E : Env) (i : Internals) (p : Nat)
    (hv : i.Buf.Valid i.Mem) (hw : i.Buf.WellFormed i.Mem)
    (hp : i.Pos = prefixPos i.chars p) (hpl : p < i.Buf.Chars.len)
    (hpar : i.Cb.Partial = false) :
    ∃ X : Internals, i.CutLineRight E = X.Refresh ∧
      X.Prompt = i.Prompt ∧ X.Cols = i.Cols ∧ X.Pos = i.Pos ∧ X.Cb.Partial = true ∧
      X.Buf.Valid X.Mem ∧ X.Mem.chars.read X.Buf.Chars = i.chars.take p ∧
      X.Mem.bytes.read X.Buf.Bytes = concatP (i.chars.take p) ∧
      X.Buf.ColLen = sumCols (i.chars.take p) ∧
      X.Cb.Text.Valid X.Mem ∧ X.Mem.chars.read X.Cb.Text.Chars = i.chars.drop p ∧
      X.Mem.bytes.read X.Cb.Text.Bytes = concatP (i.chars.drop p) ∧
      X.Cb.Text.ColLen = sumCols (i.chars.drop p) := by
  unfold Internals.chars at *
  obtain ⟨head, hhead, hheadc, hheadb, hheadw, hheadv⟩ :=
    Text.Slice_two_spec i.Mem i.Buf 0 p hv hw (Nat.zero_le _) (by omega)
  obtain ⟨tail, htail, htailc, htailb, htailw, htailv⟩ :=
    Text.Slice_one_spec i.Mem i.Buf p hv hw (by omega)
  rw [prefixPos_zero] at hhead
  simp only [List.drop_zero] at hheadc hheadb hheadw
  have hR : i.Pos.Runes < i.Buf.Chars.len := by rw [hp]; simp only [prefixPos]; omega
  obtain ⟨fhv, fhc, fhb⟩ := Text.Clone_frame i.Mem tail head hheadv
  unfold Internals.CutLineRight
  rw [if_pos hR, hp, htail]
  simp only [hpar, Bool.false_eq_true, if_false, hhead]
  refine ⟨_, rfl, rfl, rfl, rfl, rfl, fhv, fhc.trans hheadc, fhb.trans hheadb, hheadw,
    Text.Clone_valid i.Mem tail, ?_, ?_, htailw⟩
  · exact (Text.Clone_chars i.Mem tail).trans htailc
  · exact (Text.Clone_bytes i.Mem tail htailv).trans htailb

/-- `Paste` on a state whose buffer, with the clipboard inserted at the cursor
index `k`, reads `cs`: the buffer becomes `cs`, with its bytes and width, and the
cursor the prefix-sum position of `cs` after the pasted characters. -/
theorem Internals.Paste_restores (i1 : Internals) (cs : List Char) (k n : Nat)
    (hv : i1.Buf.Valid i1.Mem) (hw : i1.Buf.WellFormed i1.Mem)
    (hcv : i1.Cb.Text.Valid i1.Mem) (hcw : i1.Cb.Text.WellFormed i1.Mem)
    (hp : i1.Pos = prefixPos i1.chars k) (hk : k ≤ i1.Buf.Chars.len)
    (hre : i1.chars.take k ++ i1.Mem.chars.read i1.Cb.Text.Chars ++ i1.chars.drop k = cs)
    (hn : k + i1.Cb.Text.Chars.len = n) :
    i1.Paste.1.chars = cs ∧ i1.Paste.1.bytes = concatP cs ∧
    i1.Paste.1.Buf.ColLen = sumCols cs ∧ i1.Paste.1.Pos = prefixPos cs n ∧
    (i1.Prompt.ColLen < i1.Cols → i1.Paste.2 = none) := by
  obtain ⟨a1, _, a3, a4, _, _, _, _, _, _, _, _, _, _, a15⟩ :=
    Internals.Paste_spec i1 k hv hw hcv hcw hp hk
  rw [hre] at a1
  rw [hn, a1] at a4
  refine ⟨a1, ?_, ?_, a4, a15⟩
  · have := a3.1
    unfold Internals.chars at a1
    rw [a1] at this
    exact this
  · have := a3.2
    unfold Internals.chars at a1
    rw [a1] at this
    exact this

theorem take_append_take_drop {α : Type} (l : List α) (q p : Nat) (hqp : q ≤ p) :
    l.take q ++ (l.take p).drop q ++ l.drop p = l := by
  have e : l.take q = (l.take p).take q := by
    rw [List.take_take, Nat.min_eq_left hqp]
  rw [e, List.take_append_drop, List.take_append_drop]

theorem drop_take_append_drop {α : Type} (l : List α) (q p : Nat) (hq : q ≤ l.length) :
    (l.take q ++ l.drop p).drop q = l.drop p := by
  have h1 : (l.take q).length = q := by
    simp [List.length_take]; omega
  have h := List.drop_left (l.take q) (l.drop p)
  rw [h1] at h
  exact h

/-- `CutPrevWord` with the flag clear, then `Paste`: the buffer and the cursor
are as before the cut, and both calls return when the prompt is narrower than the
terminal. -/
theorem Internals.CutPrevWord_Paste (E : Env) (i : Internals) (p : Nat)
    (hv : i.Buf.Valid i.Mem) (hw : i.Buf.WellFormed i.Mem)
    (hp : i.Pos = prefixPos i.chars p) (hp0 : 0 < p) (hpl : p ≤ i.Buf.Chars.len)
    (hpar : i.Cb.Partial = false) :
    (i.CutPrevWord E).1.Paste.1.chars = i.chars ∧
    (i.CutPrevWord E).1.Paste.1.bytes = i.bytes ∧
    (i.CutPrevWord E).1.Paste.1.Buf.ColLen = i.Buf.ColLen ∧
    (i.CutPrevWord E).1.Paste.1.Pos = i.Pos ∧
    (i.Prompt.ColLen < i.Cols →
      (i.CutPrevWord E).2 = none ∧ (i.CutPrevWord E).1.Paste.2 = none) := by
  have hlen : i.chars.length = i.Buf.Chars.len := Store.read_length hv.1
  obtain ⟨q, hq, a1, a2, a3, a4, _, a6, a7, a8, a9, _, a11, a12, _⟩ :=
    Internals.CutPrevWord_spec E i p hv hw hp hp0 hpl (fun h => by rw [hpar] at h; cases h)
  simp only [hpar, Bool.false_eq_true, if_false, List.append_nil, add_zero] at a7 a8 a9
  have hcw : (i.CutPrevWord E).1.Cb.Text.WellFormed (i.CutPrevWord E).1.Mem :=
    Text.wf_of_reads _ _ _ a7 a8 a9
  have htk : (i.CutPrevWord E).1.chars.take q = i.chars.take q := by
    rw [a2]
    exact take_take_append_drop _ _ _ (by omega)
  have hp1 : (i.CutPrevWord E).1.Pos = prefixPos (i.CutPrevWord E).1.chars q := by
    rw [a1]
    exact (prefixPos_congr _ _ _ htk).symm
  have hlen1 : (i.CutPrevWord E).1.chars.length = (i.CutPrevWord E).1.Buf.Chars.len :=
    Store.read_length a3.1
  have hk : q ≤ (i.CutPrevWord E).1.Buf.Chars.len := by
    rw [← hlen1, a2]
    simp [List.length_take]
    omega
  have hclen : ((i.CutPrevWord E).1.Mem.chars.read (i.CutPrevWord E).1.Cb.Text.Chars).length
      = (i.CutPrevWord E).1.Cb.Text.Chars.len := Store.read_length a6.1
  have hn : q + (i.CutPrevWord E).1.Cb.Text.Chars.len = p := by
    rw [← hclen, a7]
    simp [List.length_take]
    omega
  have hre : (i.CutPrevWord E).1.chars.take q
      ++ (i.CutPrevWord E).1.Mem.chars.read (i.CutPrevWord E).1.Cb.Text.Chars
      ++ (i.CutPrevWord E).1.chars.drop q = i.chars := by
    rw [htk, a7, a2, drop_take_append_drop _ _ _ (by omega)]
    exact take_append_take_drop _ _ _ (Nat.le_of_lt hq)
  obtain ⟨b1, b2, b3, b4, b5⟩ :=
    Internals.Paste_restores (i.CutPrevWord E).1 i.chars q p a3 a4 a6 hcw hp1 hk hre hn
  refine ⟨b1, ?_, ?_, ?_, ?_⟩
  · rw [b2]; exact hw.1.symm
  · rw [b3]; exact hw.2.symm
  · rw [b4]; exact hp.symm
  · intro hPW
    refine ⟨?_, b5 (by rw [a11, a12]; exact hPW)⟩
    obtain ⟨X, hX⟩ := Internals.CutPrevWord_reaches E i p hv hw hp hp0 hpl
    rw [hX] at a3 a4 hp1 hk a11 a12 ⊢
    exact Internals.Refresh_ok_of_result X q a3 a4 (congrArg Position.Columns hp1) hk
      (by rw [a11, a12]; exact hPW)

/-- `CutLineLeft` with the flag clear, then `Paste`: the buffer and the cursor
are as before the cut, and both calls return when the prompt is narrower than the
terminal. -/
theorem Internals.CutLineLeft_Paste (E : Env) (i : Internals) (p : Nat)
    (hv : i.Buf.Valid i.Mem) (hw : i.Buf.WellFormed i.Mem)
    (hp : i.Pos = prefixPos i.chars p) (hp0 : 0 < p) (hpl : p ≤ i.Buf.Chars.len)
    (hpar : i.Cb.Partial = false) :
    (i.CutLineLeft E).1.Paste.1.chars = i.chars ∧
    (i.CutLineLeft E).1.Paste.1.bytes = i.bytes ∧
    (i.CutLineLeft E).1.Paste.1.Buf.ColLen = i.Buf.ColLen ∧
    (i.CutLineLeft E).1.Paste.1.Pos = i.Pos ∧
    (i.Prompt.ColLen < i.Cols →
      (i.CutLineLeft E).2 = none ∧ (i.CutLineLeft E).1.Paste.2 = none) := by
  have hlen : i.chars.length = i.Buf.Chars.len := Store.read_length hv.1
  obtain ⟨X, hX, hMem, hPr, hCo, hPos, _, hbv, hbc, hbb, hbw, hcv, hcc, hcb, hcw⟩ :=
    Internals.CutLineLeft_clear_state E i p hv hw hp hp0 hpl hpar
  rw [← hMem] at hbv hbc hbb hcv hcc hcb
  have hv1 : X.Refresh.1.Buf.Valid X.Refresh.1.Mem := by
    rw [Internals.Refresh_Buf, Internals.Refresh_Mem]; exact hbv
  have hw1 : X.Refresh.1.Buf.WellFormed X.Refresh.1.Mem := by
    rw [Internals.Refresh_Buf, Internals.Refresh_Mem]
    exact Text.wf_of_reads _ _ _ hbc hbb hbw
  have hcv1 : X.Refresh.1.Cb.Text.Valid X.Refresh.1.Mem := by
    rw [Internals.Refresh_Cb, Internals.Refresh_Mem]; exact hcv
  have hcw1 : X.Refresh.1.Cb.Text.WellFormed X.Refresh.1.Mem := by
    rw [Internals.Refresh_Cb, Internals.Refresh_Mem]
    exact Text.wf_of_reads _ _ _ hcc hcb hcw
  have hch1 : X.Refresh.1.chars = i.chars.drop p := by
    unfold Internals.chars
    rw [Internals.Refresh_Buf, Internals.Refresh_Mem]; exact hbc
  have hcb1 : X.Refresh.1.Mem.chars.read X.Refresh.1.Cb.Text.Chars = i.chars.take p := by
    rw [Internals.Refresh_Cb, Internals.Refresh_Mem]; exact hcc
  have hp1 : X.Refresh.1.Pos = prefixPos X.Refresh.1.chars 0 := by
    rw [Internals.Refresh_Pos, hPos, prefixPos_zero]
  have hclen : (X.Mem.chars.read X.Cb.Text.Chars).length = X.Cb.Text.Chars.len :=
    Store.read_length hcv.1
  have hn : 0 + X.Refresh.1.Cb.Text.Chars.len = p := by
    rw [Internals.Refresh_Cb, ← hclen, hcc]
    simp [List.length_take]
    omega
  have hre : X.Refresh.1.chars.take 0 ++ X.Refresh.1.Mem.chars.read X.Refresh.1.Cb.Text.Chars
      ++ X.Refresh.1.chars.drop 0 = i.chars := by
    rw [hcb1, hch1]
    simp
  obtain ⟨b1, b2, b3, b4, b5⟩ :=
    Internals.Paste_restores X.Refresh.1 i.chars 0 p hv1 hw1 hcv1 hcw1 hp1 (Nat.zero_le _) hre hn
  rw [hX]
  refine ⟨b1, ?_, ?_, ?_, ?_⟩
  · rw [b2]; exact hw.1.symm
  · rw [b3]; exact hw.2.symm
  · rw [b4]; exact hp.symm
  · intro hPW
    have hPW1 : X.Refresh.1.Prompt.ColLen < X.Refresh.1.Cols := by
      rw [Internals.Refresh_Prompt, Internals.Refresh_Cols, hPr, hCo]; exact hPW
    exact ⟨Internals.Refresh_ok_of_result X 0 hv1 hw1 (congrArg Position.Columns hp1)
      (Nat.zero_le _) hPW1, b5 hPW1⟩

/-- `CutLineRight` with the flag clear, then `Paste`: the buffer is as before the
cut and the cursor is at its end, and both calls return when the prompt is
narrower than the terminal. -/
theorem Internals.CutLineRight_Paste (E : Env) (i : Internals) (p : Nat)
    (hv : i.Buf.Valid i.Mem) (hw : i.Buf.WellFormed i.Mem)
    (hp : i.Pos = prefixPos i.chars p) (hpl : p < i.Buf.Chars.len)
    (hpar : i.Cb.Partial = false) :
    (i.CutLineRight E).1.Paste.1.chars = i.chars ∧
    (i.CutLineRight E).1.Paste.1.bytes = i.bytes ∧
    (i.CutLineRight E).1.Paste.1.Buf.ColLen = i.Buf.ColLen ∧
    (i.CutLineRight E).1.Paste.1.Pos = prefixPos i.chars i.Buf.Chars.len ∧
    (i.Prompt.ColLen < i.Cols →
      (i.CutLineRight E).2 = none ∧ (i.CutLineRight E).1.Paste.2 = none) := by
  have hlen : i.chars.length = i.Buf.Chars.len := Store.read_length hv.1
  obtain ⟨X, hX, hPr, hCo, hPos, _, hbv, hbc, hbb, hbw, hcv, hcc, hcb, hcw⟩ :=
    Internals.CutLineRight_clear_state E i p hv hw hp hpl hpar
  have hv1 : X.Refresh.1.Buf.Valid X.Refresh.1.Mem := by
    rw [Internals.Refresh_Buf, Internals.Refresh_Mem]; exact hbv
  have hw1 : X.Refresh.1.Buf.WellFormed X.Refresh.1.Mem := by
    rw [Internals.Refresh_Buf, Internals.Refresh_Mem]
    exact Text.wf_of_reads _ _ _ hbc hbb hbw
  have hcv1 : X.Refresh.1.Cb.Text.Valid X.Refresh.1.Mem := by
    rw [Internals.Refresh_Cb, Internals.Refresh_Mem]; exact hcv
  have hcw1 : X.Refresh.1.Cb.Text.WellFormed X.Refresh.1.Mem := by
    rw [Internals.Refresh_Cb, Internals.Refresh_Mem]
    exact Text.wf_of_reads _ _ _ hcc hcb hcw
  have hch1 : X.Refresh.1.chars = i.chars.take p := by
    unfold Internals.chars
    rw [Internals.Refresh_Buf, Internals.Refresh_Mem]; exact hbc
  have hcb1 : X.Refresh.1.Mem.chars.read X.Refresh.1.Cb.Text.Chars = i.chars.drop p := by
    rw [Internals.Refresh_Cb, Internals.Refresh_Mem]; exact hcc
  have hp1 : X.Refresh.1.Pos = prefixPos X.Refresh.1.chars p := by
    rw [Internals.Refresh_Pos, hPos, hp, hch1]
    exact (prefixPos_congr _ _ _ (by rw [List.take_take, Nat.min_self])).symm
  have hblen : (X.Mem.chars.read X.Buf.Chars).length = X.Buf.Chars.len :=
    Store.read_length hbv.1
  have hk : p ≤ X.Refresh.1.Buf.Chars.len := by
    rw [Internals.Refresh_Buf, ← hblen, hbc]
    simp [List.length_take]
    omega
  have hclen : (X.Mem.chars.read X.Cb.Text.Chars).length = X.Cb.Text.Chars.len :=
    Store.read_length hcv.1
  have hn : p + X.Refresh.1.Cb.Text.Chars.len = i.Buf.Chars.len := by
    rw [Internals.Refresh_Cb, ← hclen, hcc]
    simp [List.length_drop]
    omega
  have hre : X.Refresh.1.chars.take p ++ X.Refresh.1.Mem.chars.read X.Refresh.1.Cb.Text.Chars
      ++ X.Refresh.1.chars.drop p = i.chars := by
    rw [hcb1, hch1, List.take_take, Nat.min_self]
    have : (i.chars.take p).drop p = [] := by
      apply List.drop_eq_nil_of_le
      simp [List.length_take]
    rw [this, List.append_nil, List.take_append_drop]
  obtain ⟨b1, b2, b3, b4, b5⟩ :=
    Internals.Paste_restores X.Refresh.1 i.chars p i.Buf.Chars.len hv1 hw1 hcv1 hcw1 hp1 hk
      hre hn
  rw [hX]
  refine ⟨b1, ?_, ?_, b4, ?_⟩
  · rw [b2]; exact hw.1.symm
  · rw [b3]; exact hw.2.symm
  · intro hPW
    have hPW1 : X.Refresh.1.Prompt.ColLen < X.Refresh.1.Cols := by
      rw [Internals.Refresh_Prompt, Internals.Refresh_Cols, hPr, hCo]; exact hPW
    exact ⟨Internals.Refresh_ok_of_result X p hv1 hw1 (congrArg Position.Columns hp1) hk hPW1,
      b5 hPW1⟩

/-- C23. Paste undoes a cut. On a well-formed state with the cursor at the
prefix-sum position of rune index `p` and the clipboard's flag clear: each of
`CutPrevWord` and `CutLineLeft` (for `p > 0`) followed by `Paste` leaves the
buffer with the characters, the bytes and the width it had, and the cursor where
it was; `CutLineRight` (for `p < len(Chars)`) followed by `Paste` leaves the
buffer as it was and the cursor at the prefix-sum position of its end. All the
calls return when the prompt is narrower than the terminal. -/
theorem paste_undoes_cut (E : Env) (i : Internals) (p : Nat)
    (hv : i.Buf.Valid i.Mem) (hw : i.Buf.WellFormed i.Mem)
    (hp : i.Pos = prefixPos i.chars p) (hpl : p ≤ i.Buf.Chars.len)
    (hpar : i.Cb.Partial = false) :
    (0 < p →
      ((i.CutPrevWord E).1.Paste.1.chars = i.chars ∧
        (i.CutPrevWord E).1.Paste.1.bytes = i.bytes ∧
        (i.CutPrevWord E).1.Paste.1.Buf.ColLen = i.Buf.ColLen ∧
        (i.CutPrevWord E).1.Paste.1.Pos = i.Pos ∧
        (i.Prompt.ColLen < i.Cols →
          (i.CutPrevWord E).2 = none ∧ (i.CutPrevWord E).1.Paste.2 = none)) ∧
      ((i.CutLineLeft E).1.Paste.1.chars = i.chars ∧
        (i.CutLineLeft E).1.Paste.1.bytes = i.bytes ∧
        (i.CutLineLeft E).1.Paste.1.Buf.ColLen = i.Buf.ColLen ∧
        (i.CutLineLeft E).1.Paste.1.Pos = i.Pos ∧
        (i.Prompt.ColLen < i.Cols →
          (i.CutLineLeft E).2 = none ∧ (i.CutLineLeft E).1.Paste.2 = none))) ∧
    (p < i.Buf.Chars.len →
      (i.CutLineRight E).1.Paste.1.chars = i.chars ∧
      (i.CutLineRight E).1.Paste.1.bytes = i.bytes ∧
      (i.CutLineRight E).1.Paste.1.Buf.ColLen = i.Buf.ColLen ∧
      (i.CutLineRight E).1.Paste.1.Pos = prefixPos i.chars i.Buf.Chars.len ∧
      (i.CutLineRight E).1.Paste.1.Pos.Runes = (i.CutLineRight E).1.Paste.1.Buf.Chars.len ∧
      (i.Prompt.ColLen < i.Cols →
        (i.CutLineRight E).2 = none ∧ (i.CutLineRight E).1.Paste.2 = none)) := by
  refine ⟨fun hp0 => ⟨Internals.CutPrevWord_Paste E i p hv hw hp hp0 hpl hpar,
    Internals.CutLineLeft_Paste E i p hv hw hp hp0 hpl hpar⟩, ?_⟩
  intro hlt
  obtain ⟨c1, c2, c3, c4, c5⟩ := Internals.CutLineRight_Paste E i p hv hw hp hlt hpar
  refine ⟨c1, c2, c3, c4, ?_, c5⟩
  obtain ⟨X, hX, hPr, hCo, hPos, _, hbv, hbc, hbb, hbw, hcv, hcc, hcb, hcw⟩ :=
    Internals.CutLineRight_clear_state E i p hv hw hp hlt hpar
  have hv1 : X.Refresh.1.Buf.Valid X.Refresh.1.Mem := by
    rw [Internals.Refresh_Buf, Internals.Refresh_Mem]; exact hbv
  have hw1 : X.Refresh.1.Buf.WellFormed X.Refresh.1.Mem := by
    rw [Internals.Refresh_Buf, Internals.Refresh_Mem]
    exact Text.wf_of_reads _ _ _ hbc hbb hbw
  have hcv1 : X.Refresh.1.Cb.Text.Valid X.Refresh.1.Mem := by
    rw [Internals.Refresh_Cb, Internals.Refresh_Mem]; exact hcv
  have hcw1 : X.Refresh.1.Cb.Text.WellFormed X.Refresh.1.Mem := by
    rw [Internals.Refresh_Cb, Internals.Refresh_Mem]
    exact Text.wf_of_reads _ _ _ hcc hcb hcw
  have hch1 : X.Refresh.1.chars = i.chars.take p := by
    unfold Internals.chars
    rw [Internals.Refresh_Buf, Internals.Refresh_Mem]; exact hbc
  have hp1 : X.Refresh.1.Pos = prefixPos X.Refresh.1.chars p := by
    rw [Internals.Refresh_Pos, hPos, hp, hch1]
    exact (prefixPos_congr _ _ _ (by rw [List.take_take, Nat.min_self])).symm
  have hlen : i.chars.length = i.Buf.Chars.len := Store.read_length hv.1
  have hblen : (X.Mem.chars.read X.Buf.Chars).length = X.Buf.Chars.len :=
    Store.read_length hbv.1
  have hk : p ≤ X.Refresh.1.Buf.Chars.len := by
    rw [Internals.Refresh_Buf, ← hblen, hbc]
    simp [List.length_take]
    omega
  rw [hX] at c1 c4 ⊢
  obtain ⟨_, d2, _⟩ := Internals.Paste_spec X.Refresh.1 p hv1 hw1 hcv1 hcw1 hp1 hk
  have hl2 : X.Refresh.1.Paste.1.chars.length = X.Refresh.1.Paste.1.Buf.Chars.len :=
    Store.read_length d2.1
  rw [c4, ← hl2, c1, hlen]
  rfl

/-- C23, at the state after the keys `a`, `b`, Ctrl-B (buffer `ab`, cursor at
rune index 1, flag clear): each cut followed by `Paste` gives `ab` back. -/
theorem paste_undoes_cut_witness :
    runABLeft.1.Buf.Valid runABLeft.1.Mem ∧ runABLeft.1.Buf.WellFormed runABLeft.1.Mem ∧
    runABLeft.1.Pos = prefixPos runABLeft.1.chars 1 ∧ 1 ≤ runABLeft.1.Buf.Chars.len ∧
    runABLeft.1.Cb.Partial = false ∧ runABLeft.1.bytes = [0x61, 0x62] ∧
    (runABLeft.1.CutPrevWord sampleEnv).1.Paste.1.bytes = runABLeft.1.bytes ∧
    (runABLeft.1.CutLineLeft sampleEnv).1.Paste.1.bytes = runABLeft.1.bytes ∧
    (runABLeft.1.CutLineRight sampleEnv).1.Paste.1.bytes = runABLeft.1.bytes :=
  ⟨by decide!, by decide!, by decide!, by decide!, by decide!, by decide!,
   ((paste_undoes_cut sampleEnv runABLeft.1 1 (by decide!) (by decide!) (by decide!)
      (by decide!) (by decide!)).1 (by decide!)).1.2.1,
   ((paste_undoes_cut sampleEnv runABLeft.1 1 (by decide!) (by decide!) (by decide!)
      (by decide!) (by decide!)).1 (by decide!)).2.2.1,
   ((paste_undoes_cut sampleEnv runABLeft.1 1 (by decide!) (by decide!) (by decide!)
      (by decide!) (by decide!)).2 (by decide!)).2.1⟩

end Uniline
